import Mathlib

/-!
# Job control of so-shell (`src/jobs.c`)

A shallow embedding of the job table of the shell and of the operations that
work on it, followed by theorems about them.

* The global `jobs` array is a `List job_t`; `njobmax` is its length.
* `proc` / `nproc` of a job are one `List proc_t` (the array and its length).
* `pid_t` and `int` are `Int`; job numbers stay far below `2^31`, so no
  arithmetic of the module wraps.
* `struct termios` is an opaque snapshot, modelled as a natural number.
* `char *command` is `Option String` (`none` is the `NULL` pointer).
* Calls that leave the process (signals, terminal calls, printing) are recorded
  in a trace of `Event`s, in program order.
* A read outside the table, a read through a `NULL` pointer and a failed
  `assert` end the run with a `Fault`; a `sigsuspend` that is never woken ends
  it with `Fault.blocked`.
* The enumerators of `shell.h` and the status macros of `<sys/wait.h>` are not
  part of the sources: they are the fields of the parameter `Header`.
-/

namespace SoShell

/-- Saved terminal modes (`struct termios`), an opaque snapshot. -/
abbrev termios := Nat

/-- Record `proc_t` of `jobs.c`. -/
structure proc_t where
  pid : Int
  state : Int
  exitcode : Int
deriving DecidableEq, Repr

/-- Record `job_t` of `jobs.c`; `nproc` is `proc.length`. -/
structure job_t where
  pgid : Int
  proc : List proc_t
  tmodes : termios
  state : Int
  command : Option String
deriving DecidableEq, Repr

/-- What `jobs.c` takes from headers that are not among the sources: the state
enumerators and `ALL` of `shell.h`, and the status macros of `<sys/wait.h>`. -/
structure Header where
  FINISHED : Int
  RUNNING : Int
  STOPPED : Int
  ALL : Int
  WIFSTOPPED : Int → Bool
  WIFEXITED : Int → Bool
  WIFSIGNALED : Int → Bool
  WIFCONTINUED : Int → Bool
  WEXITSTATUS : Int → Int
  WTERMSIG : Int → Int

/-- One instance of `Header`, used to evaluate the model on concrete tables:
the enumerators count from `FINISHED = 0` with `ALL = -1`, and the status word
is decoded the way Linux encodes it (low seven bits: terminating signal,
`0x7f` in the low byte: stopped, `0xffff`: continued, second byte: exit code). -/
def linux_h : Header where
  FINISHED := 0
  RUNNING := 1
  STOPPED := 2
  ALL := -1
  WIFSTOPPED := fun s => s % 256 == 127
  WIFEXITED := fun s => s % 128 == 0
  WIFSIGNALED := fun s => decide (1 ≤ s % 128 ∧ s % 128 ≤ 126)
  WIFCONTINUED := fun s => s == 65535
  WEXITSTATUS := fun s => (s / 256) % 256
  WTERMSIG := fun s => s % 128

/-- Modelled from the spec: `FG` of the missing `shell.h`; "Slot 0 is reserved
for the single current foreground job". -/
def FG : Nat := 0

/-- Modelled from the spec: `BG` of the missing `shell.h`; "slots ≥1 hold
background jobs". -/
def BG : Nat := 1

/-- A slot after `memset(&jobs[k], 0, sizeof(job_t))` or `calloc`. -/
def zero_job : job_t :=
  { pgid := 0, proc := [], tmodes := 0, state := 0, command := none }

/-! ## `sigchld_handler` -/

/-- The branch taken for the process whose pid `waitpid` returned
(`jobs.c` lines 43-60): the updated process record, and whether
`jobs[i].state = STOPPED` was executed. -/
def on_status (K : Header) (status : Int) (p : proc_t) : proc_t × Bool :=
  if K.WIFSTOPPED status then ({ p with state := K.STOPPED }, true)
  else if K.WIFEXITED status then
    ({ p with state := K.FINISHED, exitcode := status }, false)
  else if K.WIFSIGNALED status then
    ({ p with state := K.FINISHED, exitcode := status }, false)
  else if K.WIFCONTINUED status then ({ p with state := K.RUNNING }, false)
  else (p, false)

/-- The inner loop `for (j = 0; j < jobs[i].nproc; j++)` of the search: `none`
when no process of the job has this pid (`ready` stays false), otherwise the
updated processes and the flag of `on_status`; the loop stops at the first
match. -/
def mark_procs (K : Header) (pid status : Int) :
    List proc_t → Option (List proc_t × Bool)
  | [] => none
  | p :: ps =>
    if pid = p.pid then
      some ((on_status K status p).1 :: ps, (on_status K status p).2)
    else
      match mark_procs K pid status ps with
      | some (qs, st) => some (p :: qs, st)
      | none => none

/-- The outer loop `for (i = 0; i < njobmax; i++)` of the search: it ends when
`ready` is set, so only the first matching process of the table is updated. -/
def mark_jobs (K : Header) (pid status : Int) : List job_t → List job_t
  | [] => []
  | job :: rest =>
    match mark_procs K pid status job.proc with
    | some (qs, st) =>
      { job with proc := qs, state := if st then K.STOPPED else job.state } :: rest
    | none => job :: mark_jobs K pid status rest

/-- The inner loop of the second pass (lines 69-76): `(is_stopped, is_running)`,
started with `is_running = run`; it breaks at the first stopped process. -/
def scan_state (K : Header) : List proc_t → Bool → Bool × Bool
  | [], run => (false, run)
  | p :: ps, run =>
    if p.state = K.STOPPED then (true, run)
    else if p.state = K.RUNNING then scan_state K ps true
    else scan_state K ps run

/-- One iteration of the second pass (lines 67-83) on `jobs[i]`. -/
def refresh_job (K : Header) (job : job_t) : job_t :=
  if (scan_state K job.proc false).1 then { job with state := K.STOPPED }
  else if (scan_state K job.proc false).2 then { job with state := K.RUNNING }
  else { job with state := K.FINISHED }

/-- The body of the `while` loop of `sigchld_handler` for one result
`(pid, status)` of `waitpid`. -/
def on_child (K : Header) (jobs : List job_t) (pid status : Int) : List job_t :=
  (mark_jobs K pid status jobs).map (refresh_job K)

/-- Function `sigchld_handler`: the list holds the results `(pid, status)` of
the successive `waitpid` calls; the loop runs while the pid is positive and
stops when the list is exhausted (no more children to report). -/
def sigchld_handler (K : Header) : List job_t → List (Int × Int) → List job_t
  | jobs, [] => jobs
  | jobs, (pid, status) :: rest =>
    if 0 < pid then sigchld_handler K (on_child K jobs pid status) rest else jobs

/-- The tie-break rule of the specification (§3), in its words: `STOPPED` if
any member process is `STOPPED`; else `RUNNING` if any member is `RUNNING`;
else `FINISHED`. -/
def tie_break_rule (K : Header) (procs : List proc_t) : Int :=
  if procs.any (fun p => decide (p.state = K.STOPPED)) then K.STOPPED
  else if procs.any (fun p => decide (p.state = K.RUNNING)) then K.RUNNING
  else K.FINISHED

/-! ## Faults and the trace of calls -/

/-- How a run ends when it does not return. -/
inductive Fault where
  | out_of_bounds
  | null_pointer
  | assert_failed
  | blocked
deriving DecidableEq, Repr

/-- The signals `jobs.c` sends. -/
inductive Signal where
  | SIGTERM
  | SIGCONT
deriving DecidableEq, Repr

/-- An argument of a `printf`-style call: `%d` takes an `int`, `%s` a
`char *` (which may be `NULL`). -/
inductive Arg where
  | int (n : Int)
  | str (s : Option String)
deriving DecidableEq, Repr

/-- The calls of `jobs.c` that act outside the job table, with their
arguments (`tty_fd` is left out: it is the same in every call). `msg`, `printf`
and `debug` carry the format string and the arguments of the call. -/
inductive Event where
  | kill (pid : Int) (sig : Signal)
  | tcsetpgrp (pgrp : Int)
  | tcsetattr (actions : Int) (modes : termios)
  | tcgetattr
  | sigsuspend
  | msg (fmt : String) (args : List Arg)
  | printf (fmt : String) (args : List Arg)
  | debug (fmt : String) (args : List Arg)
deriving DecidableEq, Repr

/-- The terminal session as `jobs.c` sees it: the static `shell_tmodes`, the
value of `getpgrp()`, and the modes `tcgetattr` reads from the terminal. -/
structure Session where
  shell_tmodes : termios
  pgrp : Int
  tty_modes : termios
deriving DecidableEq, Repr

/-- The results `(pid, status)` of `waitpid` that one run of `sigchld_handler`
reaps; one such batch is delivered at every return of `sigsuspend`. -/
abbrev Wake := List (Int × Int)

/-- Read of `jobs[j]` for a C `int` index. -/
def job_at (jobs : List job_t) (j : Int) : Except Fault job_t :=
  if 0 ≤ j then
    match jobs[j.toNat]? with
    | some job => .ok job
    | none => .error .out_of_bounds
  else .error .out_of_bounds

/-- The slot `jobs[i]` exists and is free (`pgid == 0`). -/
def free_at (jobs : List job_t) (i : Nat) : Prop :=
  ∃ job, jobs[i]? = some job ∧ job.pgid = 0

/-! ## Slots: `exitcode`, `allocjob`, `deljob`, `movejob`, `jobstate` -/

/-- Function `exitcode`: `job->proc[job->nproc - 1].exitcode`. -/
def exitcode (job : job_t) : Except Fault Int :=
  match job.proc.getLast? with
  | some p => .ok p.exitcode
  | none => .error .out_of_bounds

/-- The loop of `allocjob` over the slots `jobs[j], jobs[j+1], ...` that are
left to visit. -/
def allocjob_scan : List job_t → Nat → Option Nat
  | [], _ => none
  | job :: rest, j => if job.pgid = 0 then some j else allocjob_scan rest (j + 1)

/-- Function `allocjob`: the returned index and the table afterwards. -/
def allocjob (jobs : List job_t) : Nat × List job_t :=
  match allocjob_scan (jobs.drop BG) BG with
  | some j => (j, jobs)
  | none => (jobs.length, jobs ++ [zero_job])

/-- Function `deljob`. -/
def deljob (K : Header) (job : job_t) : Except Fault job_t :=
  if job.state = K.FINISHED then
    .ok { job with pgid := 0, command := none, proc := [] }
  else .error .assert_failed

/-- Function `movejob`: `memcpy` into `jobs[to]`, then `memset` of
`jobs[from]`. -/
def movejob (jobs : List job_t) (src dst : Nat) : Except Fault (List job_t) :=
  match jobs[dst]?, jobs[src]? with
  | some d, some s =>
    if d.pgid = 0 then .ok ((jobs.set dst s).set src zero_job)
    else .error .assert_failed
  | _, _ => .error .out_of_bounds

/-- The body of `jobstate` on `job = &jobs[j]`: the state, the value written
through `statusp` (if any), and the slot afterwards. -/
def jobstate_slot (K : Header) (job : job_t) : Except Fault (Int × Option Int × job_t) :=
  if job.state = K.FINISHED then
    match exitcode job with
    | .error f => .error f
    | .ok status =>
      match deljob K job with
      | .error f => .error f
      | .ok job1 => .ok (job.state, some status, job1)
  else .ok (job.state, none, job)

/-- Function `jobstate` on the table. -/
def jobstate (K : Header) (jobs : List job_t) (j : Nat) :
    Except Fault (Int × Option Int × List job_t) :=
  match jobs[j]? with
  | none => .error .assert_failed
  | some job =>
    match jobstate_slot K job with
    | .error f => .error f
    | .ok (state, status, job1) => .ok (state, status, jobs.set j job1)

/-- The signals of a trace, in the order they were sent: target and signal. -/
def signals : List Event → List (Int × Signal)
  | [] => []
  | Event.kill pid sig :: rest => (pid, sig) :: signals rest
  | _ :: rest => signals rest

/-! ## `killjob` -/

/-- Function `killjob`: the returned flag, the table afterwards and the calls
made. -/
def killjob (K : Header) (jobs : List job_t) (j : Int) :
    Except Fault (Bool × List job_t × List Event) :=
  if (jobs.length : Int) ≤ j then .ok (false, jobs, [])
  else
    match job_at jobs j with
    | .error f => .error f
    | .ok job =>
      if job.state = K.FINISHED then .ok (false, jobs, [])
      else
        .ok (true, jobs,
          [ .debug "[%d] killing '%s'\n" [.int j, .str job.command],
            .kill (-job.pgid) .SIGTERM,
            .kill (-job.pgid) .SIGCONT ])

/-! ## `watchjobs` -/

/-- The reports of one iteration of `watchjobs` for job `j`, once `jobstate`
has returned `job_state` and written `status`. -/
def watch_report (K : Header) (which : Int) (j : Nat) (job_command : String)
    (job_state : Int) (status : Option Int) : List Event :=
  (if which = K.ALL ∨ which = K.FINISHED then
    if job_state = K.FINISHED then
      if K.WIFEXITED (status.getD 0) then
        [Event.printf "[%d] exited '%s', status=%d\n"
          [.int j, .str (some job_command), .int (K.WEXITSTATUS (status.getD 0))]]
      else
        [Event.printf "[%d] killed '%s' by signal %d\n"
          [.int j, .str (some job_command), .int (K.WTERMSIG (status.getD 0))]]
    else []
  else []) ++
  (if which = K.ALL then
    if job_state = K.STOPPED then
      [Event.msg "[%d] suspended '%s'\n" [.int j, .str (some job_command)]]
    else if job_state = K.RUNNING then
      [Event.msg "[%d] running '%s'\n" [.int j, .str (some job_command)]]
    else []
  else [])

/-- The loop of `watchjobs` over the slots `jobs[j], jobs[j+1], ...` that are
left to visit: these slots afterwards, and the reports. An iteration touches
only `jobs[j]`. `strdup(jobcmd(j))` reads through `command`. -/
def watch_slots (K : Header) (which : Int) :
    List job_t → Nat → Except Fault (List job_t × List Event)
  | [], _ => .ok ([], [])
  | job :: rest, j =>
    if job.pgid = 0 then
      match watch_slots K which rest (j + 1) with
      | .error f => .error f
      | .ok (rest1, tr) => .ok (job :: rest1, tr)
    else
      match job.command with
      | none => .error .null_pointer
      | some job_command =>
        match jobstate_slot K job with
        | .error f => .error f
        | .ok (job_state, status, job1) =>
          match watch_slots K which rest (j + 1) with
          | .error f => .error f
          | .ok (rest1, tr) =>
            .ok (job1 :: rest1,
              watch_report K which j job_command job_state status ++ tr)

/-- Function `watchjobs`: the table afterwards and the reports. -/
def watchjobs (K : Header) (jobs : List job_t) (which : Int) :
    Except Fault (List job_t × List Event) :=
  match watch_slots K which (jobs.drop BG) BG with
  | .error f => .error f
  | .ok (rest1, tr) => .ok (jobs.take BG ++ rest1, tr)

/-! ## `monitorjob` -/

/-- The waiting of `monitorjob`, entered at `state = jobstate(0, &exitcode)`
with the current value of the local `exitcode`: the state that ends the loop,
the local `exitcode`, the table and the calls made. Every `sigsuspend` returns
after one run of `sigchld_handler` on the next batch of `wakes`; with no batch
left the shell sleeps for ever. -/
def monitor_wait (K : Header) :
    List Wake → List job_t → Int → Except Fault (Int × Int × List job_t × List Event)
  | [], jobs, ec =>
    match jobstate K jobs 0 with
    | .error f => .error f
    | .ok (state, status, jobs1) =>
      if state = K.RUNNING then .error .blocked
      else .ok (state, status.getD ec, jobs1, [])
  | w :: ws, jobs, ec =>
    match jobstate K jobs 0 with
    | .error f => .error f
    | .ok (state, status, jobs1) =>
      if state = K.RUNNING then
        match monitor_wait K ws (sigchld_handler K jobs1 w) (status.getD ec) with
        | .error f => .error f
        | .ok (state2, ec2, jobs2, tr) => .ok (state2, ec2, jobs2, Event.sigsuspend :: tr)
      else .ok (state, status.getD ec, jobs1, [])

/-- The branch `if (state == STOPPED)` of `monitorjob`: `tcgetattr` into
`jobs[0].tmodes`, `allocjob`, `movejob(0, new_job)`. -/
def monitor_stopped (S : Session) (jobs : List job_t) : Except Fault (List job_t) :=
  match jobs[0]? with
  | none => .error .out_of_bounds
  | some job0 =>
    movejob (allocjob (jobs.set 0 { job0 with tmodes := S.tty_modes })).2 0
      (allocjob (jobs.set 0 { job0 with tmodes := S.tty_modes })).1

/-- Function `monitorjob`: the returned `exitcode`, the table afterwards and
the calls made. -/
def monitorjob (K : Header) (S : Session) (jobs : List job_t) (wakes : List Wake) :
    Except Fault (Int × List job_t × List Event) :=
  match jobs[0]? with
  | none => .error .out_of_bounds
  | some job0 =>
    match monitor_wait K wakes jobs 0 with
    | .error f => .error f
    | .ok (state, ec, jobs1, tr) =>
      if state = K.STOPPED then
        match monitor_stopped S jobs1 with
        | .error f => .error f
        | .ok jobs2 =>
          .ok (ec, jobs2,
            Event.tcsetpgrp job0.pgid :: tr ++
              [.tcgetattr, .tcsetattr 0 S.shell_tmodes, .tcsetpgrp S.pgrp])
      else if state = K.FINISHED then
        .ok (ec, jobs1,
          Event.tcsetpgrp job0.pgid :: tr ++
            [.tcsetattr 0 S.shell_tmodes, .tcsetpgrp S.pgrp])
      else .ok (ec, jobs1, Event.tcsetpgrp job0.pgid :: tr)

/-- The table after the handler has run once for every batch of `wakes`, in
order. -/
def table_after (K : Header) (jobs : List job_t) (wakes : List Wake) : List job_t :=
  wakes.foldl (sigchld_handler K) jobs

/-- The value of `jobs[j].state`, when slot `j` exists. -/
def slot_state (jobs : List job_t) (j : Nat) : Option Int :=
  (jobs[j]?).map (fun job => job.state)

/-! ## `resumejob` -/

/-- The loop `for (j = njobmax - 1; j > 0 && jobs[j].state == FINISHED; j--)`
of `resumejob`, entered with the current `j`: the value of `j` when it ends. -/
def resume_scan (K : Header) (jobs : List job_t) : Nat → Except Fault Nat
  | 0 => .ok 0
  | j + 1 =>
    match jobs[j + 1]? with
    | none => .error .out_of_bounds
    | some job => if job.state = K.FINISHED then resume_scan K jobs j else .ok (j + 1)

/-- The first statement of `resumejob`: the index the rest of the function
works with. -/
def resume_pick (K : Header) (jobs : List job_t) (j : Int) : Except Fault Int :=
  if j < 0 then
    match jobs.length with
    | 0 => .ok (-1)
    | n + 1 =>
      match resume_scan K jobs n with
      | .error f => .error f
      | .ok k => .ok (k : Int)
  else .ok j

/-- The loop `while (jobs[0].state == STOPPED) sigsuspend(mask);` of
`resumejob`: the table, the calls made and the batches not yet delivered. -/
def resume_wait (K : Header) :
    List Wake → List job_t → Except Fault (List job_t × List Event × List Wake)
  | [], jobs =>
    match jobs[0]? with
    | none => .error .out_of_bounds
    | some job0 => if job0.state = K.STOPPED then .error .blocked else .ok (jobs, [], [])
  | w :: ws, jobs =>
    match jobs[0]? with
    | none => .error .out_of_bounds
    | some job0 =>
      if job0.state = K.STOPPED then
        match resume_wait K ws (sigchld_handler K jobs w) with
        | .error f => .error f
        | .ok (jobs2, tr, left) => .ok (jobs2, Event.sigsuspend :: tr, left)
      else .ok (jobs, [], w :: ws)

/-- The branch `else if (bg == 0)` of `resumejob` for the job in slot `j`. -/
def resume_fg (K : Header) (S : Session) (jobs : List job_t) (j : Nat)
    (wakes : List Wake) : Except Fault (List job_t × List Event) :=
  match movejob jobs j 0 with
  | .error f => .error f
  | .ok jobs1 =>
    match jobs1[0]? with
    | none => .error .out_of_bounds
    | some job0 =>
      match (if job0.state = K.STOPPED then
              match resume_wait K wakes jobs1 with
              | .error f => .error f
              | .ok (jobs2, tr, left) =>
                .ok (jobs2, Event.kill (-job0.pgid) .SIGCONT :: tr, left)
             else (.ok (jobs1, [], wakes) :
               Except Fault (List job_t × List Event × List Wake))) with
      | .error f => .error f
      | .ok (jobs2, tr, left) =>
        match jobs2[0]? with
        | none => .error .out_of_bounds
        | some cur =>
          match monitorjob K S jobs2 left with
          | .error f => .error f
          | .ok (_, jobs3, tr3) =>
            .ok (jobs3,
              [Event.tcsetpgrp job0.pgid, Event.tcsetattr 0 job0.tmodes] ++ tr ++
                [Event.msg "[%d] continue '%s'\n" [.int 0, .str cur.command]] ++ tr3)

/-- Function `resumejob`: the returned flag, the table afterwards and the calls
made. -/
def resumejob (K : Header) (S : Session) (jobs : List job_t) (j : Int) (bg : Int)
    (wakes : List Wake) : Except Fault (Bool × List job_t × List Event) :=
  match resume_pick K jobs j with
  | .error f => .error f
  | .ok k =>
    if (jobs.length : Int) ≤ k then .ok (false, jobs, [])
    else
      match job_at jobs k with
      | .error f => .error f
      | .ok job =>
        if job.state = K.FINISHED then .ok (false, jobs, [])
        else if bg = 1 ∧ job.state = K.STOPPED then
          .ok (true, jobs,
            [ Event.kill (-job.pgid) .SIGCONT,
              Event.msg "[%d] continue '%s'\n" [.int k, .str job.command] ])
        else if bg = 0 then
          match resume_fg K S jobs k.toNat wakes with
          | .error f => .error f
          | .ok (jobs1, tr) => .ok (true, jobs1, tr)
        else .ok (true, jobs, [])

/-! ## The lines of `watchjobs` as the specification words them -/

/-- The header `linux_h` with the status macros written with the bit
operations of `<sys/wait.h>`: `(status & 0x7f) == 0`, `(status >> 8) & 0xff`
and `status & 0x7f`. -/
def bits_h : Header :=
  { linux_h with
    WIFEXITED := fun s => decide (Int.land s 0x7f = 0)
    WEXITSTATUS := fun s => Int.land (s >>> 8) 0xff
    WTERMSIG := fun s => Int.land s 0x7f }

/-- The raw wait status of the last stage of a job (`exitcode(job)`), 0 for a
job without processes. -/
def last_status (job : job_t) : Int :=
  match job.proc.getLast? with
  | some p => p.exitcode
  | none => 0

/-- The line the specification gives for the job in slot `j`, chosen by its
state. -/
def report_line (K : Header) (j : Nat) (job : job_t) : Event :=
  if job.state = K.RUNNING then
    .msg "[%d] running '%s'\n" [.int j, .str job.command]
  else if job.state = K.STOPPED then
    .msg "[%d] suspended '%s'\n" [.int j, .str job.command]
  else if Int.land (last_status job) 0x7f = 0 then
    .printf "[%d] exited '%s', status=%d\n"
      [.int j, .str job.command, .int (Int.land (last_status job >>> 8) 0xff)]
  else
    .printf "[%d] killed '%s' by signal %d\n"
      [.int j, .str job.command, .int (Int.land (last_status job) 0x7f)]

/-- One line for every occupied slot among `jobs[j], jobs[j+1], ...`, in
ascending order. -/
def report_all (K : Header) : List job_t → Nat → List Event
  | [], _ => []
  | job :: rest, j =>
    if job.pgid = 0 then report_all K rest (j + 1)
    else report_line K j job :: report_all K rest (j + 1)

/-- The lines of the occupied slots among `jobs[j], jobs[j+1], ...` whose job is
`FINISHED`, in ascending order. -/
def report_finished (K : Header) : List job_t → Nat → List Event
  | [], _ => []
  | job :: rest, j =>
    if job.pgid ≠ 0 ∧ job.state = K.FINISHED then
      report_line K j job :: report_finished K rest (j + 1)
    else report_finished K rest (j + 1)

/-- The state of every occupied background slot is one of the three
enumerators. -/
def three_states (K : Header) (jobs : List job_t) : Prop :=
  ∀ job ∈ jobs.drop BG, job.pgid ≠ 0 →
    job.state = K.RUNNING ∨ job.state = K.STOPPED ∨ job.state = K.FINISHED

instance (K : Header) (jobs : List job_t) : Decidable (three_states K jobs) := by
  unfold three_states
  infer_instance

/-- The conversions `%d` and `%s` of the C library on the characters of a
format string. -/
def render_chars : List Char → List Arg → List Char
  | '%' :: 'd' :: rest, Arg.int n :: args => (toString n).toList ++ render_chars rest args
  | '%' :: 's' :: rest, Arg.str (some s) :: args => s.toList ++ render_chars rest args
  | c :: rest, args => c :: render_chars rest args
  | [], _ => []

/-- The text a `msg` or `printf` event writes. -/
def render : Event → String
  | .msg fmt args => String.mk (render_chars fmt.toList args)
  | .printf fmt args => String.mk (render_chars fmt.toList args)
  | _ => ""

/-! ## The process records of the table, in slot order -/

/-- Every process record of the table: slot by slot, and in pipeline order
inside a slot. -/
def all_procs (jobs : List job_t) : List proc_t :=
  jobs.flatMap (fun job => job.proc)

/-- The list with `f` applied to the first record whose pid is `pid`, and to no
other record. -/
def update_first (pid : Int) (f : proc_t → proc_t) : List proc_t → List proc_t
  | [] => []
  | p :: ps => if p.pid = pid then f p :: ps else p :: update_first pid f ps

/-- The fields of a slot that no notification touches. -/
def fixed_fields (job : job_t) : Int × termios × Option String × Nat :=
  (job.pgid, job.tmodes, job.command, job.proc.length)

/-! ## `initjobs`, `addjob`, `mkcommand`, `addproc` -/

/-- Modelled from the spec: `token_t` of the missing `shell.h`. A token is
either one of the special tokens the sources compare against or a word of the
command line; `T_NULL` is the `NULL` pointer that ends an argument vector
(`do_redir` writes `T_NULL` and `NULL` into the array alike). -/
inductive token_t where
  | T_NULL
  | T_PIPE
  | T_BGJOB
  | T_INPUT
  | T_OUTPUT
  | word (s : String)
deriving DecidableEq, Repr

/-- The job table `initjobs` builds: `calloc(sizeof(job_t), 1)`, one zeroed
slot. The terminal set-up of `initjobs` does not touch the table. -/
def initjobs : List job_t := [zero_job]

/-- Function `addjob`: the returned index and the table afterwards. -/
def addjob (K : Header) (S : Session) (jobs : List job_t) (pgid : Int) (bg : Int) :
    Except Fault (Nat × List job_t) :=
  match (if bg ≠ 0 then allocjob jobs else (FG, jobs)) with
  | (j, jobs1) =>
    if j < jobs1.length then
      .ok (j, jobs1.set j
        { pgid := pgid, state := K.RUNNING, command := none, proc := [],
          tmodes := S.shell_tmodes })
    else .error .out_of_bounds

/-- Modelled from the spec: `strapp` is declared in the missing `shell.h` and
defined outside the sources; it appends `src` to the string `*dstp`, starting
from the empty string when `*dstp` is `NULL` (the command texts of §8, such as
`'sleep 5'`, are built with it). -/
def strapp (dst : Option String) (src : String) : Option String :=
  some (dst.getD "" ++ src)

/-- The characters `strapp` reads through a token: a word gives its text, `NULL`
and the special tokens are not pointers to a string. -/
def token_str : token_t → Except Fault String
  | .word s => .ok s
  | _ => .error .null_pointer

/-- The loop `for (...; *argv; argv++)` of `mkcommand` on the cells from `argv`
on: it ends at the first `NULL`; an array without one is read past its end. -/
def mkcommand_rest (cmd : Option String) : List token_t → Except Fault (Option String)
  | [] => .error .out_of_bounds
  | .T_NULL :: _ => .ok cmd
  | t :: rest =>
    match token_str t with
    | .error f => .error f
    | .ok s => mkcommand_rest (strapp (strapp cmd " ") s) rest

/-- Function `mkcommand`: the value of `*cmdp` afterwards; `argv` is the array
from the cell `argv` points to. -/
def mkcommand (cmd : Option String) (argv : List token_t) : Except Fault (Option String) :=
  match argv with
  | [] => .error .out_of_bounds
  | t :: rest =>
    match token_str t with
    | .error f => .error f
    | .ok s =>
      mkcommand_rest
        (strapp (match cmd with
                 | some c => strapp (some c) " | "
                 | none => none) s) rest

/-- Function `addproc` (with `allocproc` inlined: the new record is appended
to `proc`). -/
def addproc (K : Header) (jobs : List job_t) (j : Nat) (pid : Int) (argv : List token_t) :
    Except Fault (List job_t) :=
  match jobs[j]? with
  | none => .error .assert_failed
  | some job =>
    match mkcommand job.command argv with
    | .error f => .error f
    | .ok cmd =>
      .ok (jobs.set j
        { job with
          proc := job.proc ++ [{ pid := pid, state := K.RUNNING, exitcode := -1 }],
          command := cmd })

/-! ## `shutdownjobs` -/

/-- The loop `while (jobs[i].state != FINISHED) sigsuspend(&mask);` of
`shutdownjobs`: the table, the calls made and the batches not yet delivered. -/
def shutdown_wait (K : Header) (i : Nat) :
    List Wake → List job_t → Except Fault (List job_t × List Event × List Wake)
  | [], jobs =>
    match jobs[i]? with
    | none => .error .out_of_bounds
    | some job => if job.state ≠ K.FINISHED then .error .blocked else .ok (jobs, [], [])
  | w :: ws, jobs =>
    match jobs[i]? with
    | none => .error .out_of_bounds
    | some job =>
      if job.state ≠ K.FINISHED then
        match shutdown_wait K i ws (sigchld_handler K jobs w) with
        | .error f => .error f
        | .ok (jobs2, tr, left) => .ok (jobs2, Event.sigsuspend :: tr, left)
      else .ok (jobs, [], w :: ws)

/-- The loop `for (int i = 0; i < njobmax; i++)` of `shutdownjobs`, entered at
index `i` with `n` slots left to visit (`njobmax` does not change here). -/
def shutdown_loop (K : Header) :
    Nat → Nat → List job_t → List Wake → Except Fault (List job_t × List Event × List Wake)
  | 0, _, jobs, wakes => .ok (jobs, [], wakes)
  | n + 1, i, jobs, wakes =>
    match jobs[i]? with
    | none => .error .out_of_bounds
    | some job =>
      if job.state ≠ K.FINISHED then
        match killjob K jobs (i : Int) with
        | .error f => .error f
        | .ok (_, _, tr1) =>
          match shutdown_wait K i wakes jobs with
          | .error f => .error f
          | .ok (jobs1, tr2, left) =>
            match shutdown_loop K n (i + 1) jobs1 left with
            | .error f => .error f
            | .ok (jobs2, tr3, left2) => .ok (jobs2, tr1 ++ tr2 ++ tr3, left2)
      else shutdown_loop K n (i + 1) jobs wakes

/-- Function `shutdownjobs`: the table when it returns and the calls made
(the signal mask and the closing of `tty_fd` are outside the model). -/
def shutdownjobs (K : Header) (jobs : List job_t) (wakes : List Wake) :
    Except Fault (List job_t × List Event) :=
  match shutdown_loop K jobs.length 0 jobs wakes with
  | .error f => .error f
  | .ok (jobs1, tr, _) =>
    match watchjobs K jobs1 K.FINISHED with
    | .error f => .error f
    | .ok (jobs2, tr2) => .ok (jobs2, tr ++ tr2)

/-! ## Conditions on tables and on the notifications -/

/-- The state of every slot is the tie-break rule of its processes (what
`sigchld_handler` establishes, C1). -/
def consistent (K : Header) (jobs : List job_t) : Prop :=
  ∀ job ∈ jobs, job.state = tie_break_rule K job.proc

instance (K : Header) (jobs : List job_t) : Decidable (consistent K jobs) := by
  unfold consistent
  infer_instance

/-- Every record of the table with this pid is a live process (`RUNNING` or
`STOPPED`): the notification does not name a process that was reaped. -/
def names_live (K : Header) (jobs : List job_t) (pid : Int) : Bool :=
  jobs.all (fun job => job.proc.all (fun p =>
    decide (p.pid = pid → p.state = K.RUNNING ∨ p.state = K.STOPPED)))

/-- Every notification of the batch that the handler processes names live
processes only, at the moment it is processed. -/
def calm_batch (K : Header) : List job_t → Wake → Bool
  | _, [] => true
  | jobs, (pid, status) :: rest =>
    if 0 < pid then
      names_live K jobs pid && calm_batch K (on_child K jobs pid status) rest
    else true

/-- Every batch is a `calm_batch` for the table it meets. -/
def calm (K : Header) : List job_t → List Wake → Bool
  | _, [] => true
  | jobs, w :: ws => calm_batch K jobs w && calm K (sigchld_handler K jobs w) ws

/-- A free slot (`pgid == 0`) is `FINISHED` and holds no process. -/
def free_finished (K : Header) (jobs : List job_t) : Prop :=
  ∀ job ∈ jobs, job.pgid = 0 → job.state = K.FINISHED ∧ job.proc = []

instance (K : Header) (jobs : List job_t) : Decidable (free_finished K jobs) := by
  unfold free_finished
  infer_instance

/-- The job tables the shell can build: `initjobs`, then any sequence of
`addjob` (with the pid of a child, which is not 0), `addproc` (on an occupied
slot, as after `addjob`), `allocjob`, `movejob`, `deljob`, `monitorjob` and
`sigchld_handler`, each step being one that returns. -/
inductive Reachable (K : Header) : List job_t → Prop where
  | init : Reachable K initjobs
  | addjob (S : Session) (jobs : List job_t) (pgid bg : Int) (j : Nat)
      (jobs1 : List job_t) :
      Reachable K jobs → pgid ≠ 0 → addjob K S jobs pgid bg = .ok (j, jobs1) →
      Reachable K jobs1
  | addproc (jobs : List job_t) (j : Nat) (pid : Int) (argv : List token_t) (job : job_t)
      (jobs1 : List job_t) :
      Reachable K jobs → jobs[j]? = some job → job.pgid ≠ 0 →
      addproc K jobs j pid argv = .ok jobs1 → Reachable K jobs1
  | allocjob (jobs : List job_t) : Reachable K jobs → Reachable K (allocjob jobs).2
  | movejob (jobs : List job_t) (src dst : Nat) (jobs1 : List job_t) :
      Reachable K jobs → movejob jobs src dst = .ok jobs1 → Reachable K jobs1
  | deljob (jobs : List job_t) (j : Nat) (job job1 : job_t) :
      Reachable K jobs → jobs[j]? = some job → deljob K job = .ok job1 →
      Reachable K (jobs.set j job1)
  | monitorjob (S : Session) (jobs : List job_t) (wakes : List Wake) (ec : Int)
      (jobs1 : List job_t) (tr : List Event) :
      Reachable K jobs → monitorjob K S jobs wakes = .ok (ec, jobs1, tr) →
      Reachable K jobs1
  | sigchld_handler (jobs : List job_t) (ns : List (Int × Int)) :
      Reachable K jobs → Reachable K (sigchld_handler K jobs ns)

/-- The two signals of `killjob` for the process group `g`, in the order they
are sent. -/
def term_cont (g : Int) : List (Int × Signal) :=
  [(-g, Signal.SIGTERM), (-g, Signal.SIGCONT)]

/-! ## `shell.c`: `do_redir`, `do_stage`, `do_pipeline`

The token array is the list of its cells; a pointer into it (`token_aux`) is
the array together with the index of the cell it points to. Descriptors and
pipes are left out: of the `open` calls only the file-name operand is kept. -/

/-- How a function of `shell.c` ends when it does not return: a `Fault`, the
exit through `app_error`, or the exit of the `Fork` wrapper when no child can
be created. -/
inductive Abort where
  | fault (f : Fault)
  | app_error
  | fork_failed
deriving DecidableEq, Repr

/-- The variables of the loop of `do_redir`: the array, `mode`, `n`, and the
operands handed to the last `open` for input and for output. -/
structure redir_state where
  token : List token_t
  mode : token_t
  n : Nat
  opened_in : Option token_t
  opened_out : Option token_t
deriving DecidableEq, Repr

/-- One iteration of the loop of `do_redir` at index `i`. -/
def do_redir_step (s : redir_state) (i : Nat) : Except Fault redir_state :=
  match s.token[i]? with
  | none => .error .out_of_bounds
  | some t =>
    if t = token_t.T_INPUT then
      match s.token[i + 1]? with
      | none => .error .out_of_bounds
      | some f =>
        .ok { s with mode := token_t.T_INPUT, opened_in := some f,
                     token := (s.token.set i token_t.T_NULL).set (i + 1) token_t.T_NULL }
    else if t = token_t.T_OUTPUT then
      match s.token[i + 1]? with
      | none => .error .out_of_bounds
      | some f =>
        .ok { s with mode := token_t.T_OUTPUT, opened_out := some f,
                     token := (s.token.set i token_t.T_NULL).set (i + 1) token_t.T_NULL }
    else if s.mode = token_t.T_NULL then .ok { s with n := s.n + 1 }
    else .ok { s with mode := token_t.T_NULL }

/-- The loop `for (int i = 0; i < ntokens; i++)` of `do_redir`, entered at
index `i` with `k` iterations left. -/
def do_redir_loop : Nat → Nat → redir_state → Except Fault redir_state
  | 0, _, s => .ok s
  | k + 1, i, s =>
    match do_redir_step s i with
    | .error f => .error f
    | .ok s1 => do_redir_loop k (i + 1) s1

/-- Function `do_redir` on the array `token`: the returned `n`, the array
afterwards, and the operands of the `open` calls. -/
def do_redir (tokens : List token_t) (ntokens : Nat) :
    Except Fault (Nat × List token_t × Option token_t × Option token_t) :=
  match do_redir_loop ntokens 0
      { token := tokens, mode := token_t.T_NULL, n := 0, opened_in := none,
        opened_out := none } with
  | .error f => .error f
  | .ok s =>
    if s.n < s.token.length then
      .ok (s.n, s.token.set s.n token_t.T_NULL, s.opened_in, s.opened_out)
    else .error .out_of_bounds

/-- A child created by `do_stage`: its pid and the `pgid` argument of
`setpgid(pid, pgid)`. -/
structure Spawn where
  pid : Int
  pgid : Int
deriving DecidableEq, Repr

/-- The process group `setpgid(pid, pgid)` puts the child in: `setpgid` with
`pgid == 0` makes the child the leader of a new group whose id is its pid. -/
def group_of (s : Spawn) : Int :=
  if s.pgid = 0 then s.pid else s.pgid

/-- Function `do_stage`, parent side, on the array `tokens` with `token_aux`
pointing to cell `start`: the pid `Fork` returned (the next of `pids`), the
array afterwards, the pids left and the child created. -/
def do_stage (pgid : Int) (tokens : List token_t) (start ntokens : Nat) (pids : List Int) :
    Except Abort (Int × List token_t × List Int × Spawn) :=
  match do_redir (tokens.drop start) ntokens with
  | .error f => .error (.fault f)
  | .ok (n, slice, _, _) =>
    if n = 0 then .error .app_error
    else
      match pids with
      | [] => .error .fork_failed
      | pid :: rest =>
        .ok (pid, tokens.take start ++ slice, rest, { pid := pid, pgid := pgid })

/-- The variables of `do_pipeline` that the claims are about, the job table,
the pids `Fork` will return, and the children created so far. -/
structure pipe_state where
  token : List token_t
  jobs : List job_t
  pgid : Int
  job : Option Nat
  cmd_start : Nat
  cmd_length : Nat
  is_job_created : Bool
  pids : List Int
  spawned : List Spawn
deriving DecidableEq, Repr

/-- The call `addproc(job, pid, token)` of `do_pipeline`; `job` is still `-1`
(`none`) when no job was created. -/
def pipe_addproc (K : Header) (s : pipe_state) (pid : Int) (tokens : List token_t) :
    Except Abort (List job_t) :=
  match s.job with
  | none => .error (.fault .out_of_bounds)
  | some j =>
    match addproc K s.jobs j pid tokens with
    | .error f => .error (.fault f)
    | .ok jobs1 => .ok jobs1

/-- One iteration of the loop of `do_pipeline` at index `i`. -/
def do_pipeline_step (K : Header) (S : Session) (bg : Int) (s : pipe_state) (i : Nat) :
    Except Abort pipe_state :=
  match s.token[i]? with
  | none => .error (.fault .out_of_bounds)
  | some t =>
    if t = token_t.T_PIPE then
      match do_stage s.pgid s.token s.cmd_start s.cmd_length s.pids with
      | .error e => .error e
      | .ok (pid, tokens1, pids1, child) =>
        match (if s.is_job_created then
                 (.ok (s.pgid, s.job, s.jobs) : Except Abort (Int × Option Nat × List job_t))
               else
                 match addjob K S s.jobs pid bg with
                 | .error f => .error (.fault f)
                 | .ok (j, jobs1) => .ok (pid, some j, jobs1)) with
        | .error e => .error e
        | .ok (pgid1, job1, jobs1) =>
          match pipe_addproc K { s with job := job1, jobs := jobs1 } pid tokens1 with
          | .error e => .error e
          | .ok jobs2 =>
            .ok { token := tokens1, jobs := jobs2, pgid := pgid1, job := job1,
                  cmd_start := i + 1, cmd_length := 0, is_job_created := true,
                  pids := pids1, spawned := s.spawned ++ [child] }
    else .ok { s with cmd_length := s.cmd_length + 1 }

/-- The loop `for (int i = 0; i < ntokens; i++)` of `do_pipeline`, entered at
index `i` with `k` iterations left. -/
def do_pipeline_loop (K : Header) (S : Session) (bg : Int) :
    Nat → Nat → pipe_state → Except Abort pipe_state
  | 0, _, s => .ok s
  | k + 1, i, s =>
    match do_pipeline_step K S bg s i with
    | .error e => .error e
    | .ok s1 => do_pipeline_loop K S bg k (i + 1) s1

/-- Function `do_pipeline` up to and including the last `addproc`: the state
when all stages are registered. -/
def do_pipeline_spawn (K : Header) (S : Session) (jobs : List job_t) (tokens : List token_t)
    (ntokens : Nat) (bg : Int) (pids : List Int) : Except Abort pipe_state :=
  match do_pipeline_loop K S bg ntokens 0
      { token := tokens, jobs := jobs, pgid := 0, job := none, cmd_start := 0,
        cmd_length := 0, is_job_created := false, pids := pids, spawned := [] } with
  | .error e => .error e
  | .ok s =>
    match do_stage s.pgid s.token s.cmd_start (ntokens - s.cmd_start) s.pids with
    | .error e => .error e
    | .ok (pid, tokens1, pids1, child) =>
      match pipe_addproc K s pid tokens1 with
      | .error e => .error e
      | .ok jobs2 =>
        .ok { s with token := tokens1, jobs := jobs2, pids := pids1,
                     spawned := s.spawned ++ [child] }

/-- Function `do_pipeline`: the returned `exitcode`, the table afterwards, the
calls of `jobs.c` made, and the children created. -/
def do_pipeline (K : Header) (S : Session) (jobs : List job_t) (tokens : List token_t)
    (ntokens : Nat) (bg : Int) (pids : List Int) (wakes : List Wake) :
    Except Abort (Int × List job_t × List Event × List Spawn) :=
  match do_pipeline_spawn K S jobs tokens ntokens bg pids with
  | .error e => .error e
  | .ok s =>
    if bg = 0 then
      match monitorjob K S s.jobs wakes with
      | .error f => .error (.fault f)
      | .ok (ec, jobs1, tr) => .ok (ec, jobs1, tr, s.spawned)
    else
      match s.job with
      | none => .error (.fault .out_of_bounds)
      | some j =>
        match s.jobs[j]? with
        | none => .error (.fault .assert_failed)
        | some job =>
          .ok (0, s.jobs,
            [Event.msg "[%d] running '%s'\n" [.int j, .str job.command]], s.spawned)

/-- What holds of the variables of `do_pipeline` between two iterations of its
loop: before the first pipe token no child and no job exist and `pgid` is 0;
afterwards the job exists with `pgid` as its process group id, the first child
was created with `setpgid(pid, 0)` and has the pid `pgid`, and every later
child was created with `setpgid(pid, pgid)`. -/
def pipe_inv (s : pipe_state) : Prop :=
  (∀ p ∈ s.pids, p ≠ 0) ∧
  ((s.is_job_created = false ∧ s.spawned = [] ∧ s.job = none ∧ s.pgid = 0) ∨
   (s.is_job_created = true ∧ s.pgid ≠ 0 ∧
    (∃ j job, s.job = some j ∧ s.jobs[j]? = some job ∧ job.pgid = s.pgid) ∧
    (∃ rest, s.spawned = { pid := s.pgid, pgid := 0 } :: rest ∧
      ∀ c ∈ rest, c.pgid = s.pgid)))

/-! ## Pipelines of words -/

/-- The cells of one stage without redirections: its words. -/
def stage_words (ws : List String) : List token_t :=
  ws.map token_t.word

/-- The cells of a pipeline without redirections: the words of the stages,
with one `T_PIPE` between two stages. -/
def pipeline_cells : List (List String) → List token_t
  | [] => []
  | [ws] => stage_words ws
  | ws :: rest => stage_words ws ++ token_t.T_PIPE :: pipeline_cells rest

/-- What `do_pipeline` needs at the start of a stage for its next `addjob` and
`addproc` to return, `pre` being the cells before the stage: either no job
exists yet, the stage is the first one and the table has slot 0; or the job
exists and the array starts with the words of a first stage followed by
`NULL`. -/
def pipe_ready (s : pipe_state) (pre : List token_t) : Prop :=
  (s.is_job_created = false ∧ pre = [] ∧ s.jobs ≠ []) ∨
  (s.is_job_created = true ∧ (∃ j, s.job = some j ∧ j < s.jobs.length) ∧
    ∃ w1 tail, w1 ≠ [] ∧ pre = stage_words w1 ++ token_t.T_NULL :: tail)

/-! ## Tables for the evaluations -/

/-- A table for the evaluations: a free foreground slot, and the pipeline
`a | b` in slot 1 with both stages running. -/
def table_C1 : List job_t :=
  [ zero_job,
    { pgid := 7, proc := [⟨7, 1, -1⟩, ⟨8, 1, -1⟩], tmodes := 0, state := 1,
      command := some "a | b" } ]

/-- What `watchjobs` needs of a slot it visits: an occupied slot has a command
text (`addproc` has run at least once), and a finished one still holds a
process to take the exit status from. -/
def watchable_slot (K : Header) (job : job_t) : Prop :=
  job.pgid ≠ 0 → job.command ≠ none ∧ (job.state = K.FINISHED → job.proc ≠ [])

instance (K : Header) (job : job_t) : Decidable (watchable_slot K job) := by
  unfold watchable_slot
  infer_instance

/-- Every background slot of the table is a `watchable_slot`. -/
def watchable (K : Header) (jobs : List job_t) : Prop :=
  ∀ job ∈ jobs.drop BG, watchable_slot K job

instance (K : Header) (jobs : List job_t) : Decidable (watchable K jobs) := by
  unfold watchable
  infer_instance

/-- The slot as the specification describes it after `report`: a finished job
is deleted (the slot is free), any other slot is as before. -/
def reaped (K : Header) (job : job_t) : job_t :=
  if job.pgid ≠ 0 ∧ job.state = K.FINISHED then
    { job with pgid := 0, command := none, proc := [] }
  else job

/-- A table with a free slot between two jobs: `sleep 9` stopped in slot 1,
slot 2 freed by `deljob`, `cat` finished with status 256 in slot 3. -/
def table_bg : List job_t :=
  [ zero_job,
    { pgid := 11, proc := [⟨11, 2, -1⟩], tmodes := 3, state := 2,
      command := some "sleep 9" },
    { pgid := 0, proc := [], tmodes := 0, state := 0, command := none },
    { pgid := 13, proc := [⟨13, 0, 256⟩], tmodes := 0, state := 0,
      command := some "cat" } ]

/-- A session for the evaluations. -/
def session0 : Session :=
  { shell_tmodes := 1, pgrp := 100, tty_modes := 5 }

/-- The foreground pipeline `a | b | c` in slot 0, all stages running, and
`sleep 9` stopped in slot 1. -/
def table_fg : List job_t :=
  [ { pgid := 20, proc := [⟨20, 1, -1⟩, ⟨21, 1, -1⟩, ⟨22, 1, -1⟩], tmodes := 1,
      state := 1, command := some "a | b | c" },
    { pgid := 11, proc := [⟨11, 2, -1⟩], tmodes := 3, state := 2,
      command := some "sleep 9" } ]

/-- The foreground pipeline `a | b` running in slot 0 and no job in the
background (slot 1 was freed by `deljob`). -/
def table_busy : List job_t :=
  [ { pgid := 20, proc := [⟨20, 1, -1⟩, ⟨21, 1, -1⟩], tmodes := 1, state := 1,
      command := some "a | b" },
    { pgid := 0, proc := [], tmodes := 0, state := 0, command := none } ]

/-- No foreground job, `sleep 5` running in background slot 1. -/
def table_run : List job_t :=
  [ zero_job,
    { pgid := 30, proc := [⟨30, 1, -1⟩], tmodes := 1, state := 1,
      command := some "sleep 5" } ]

/-- The table after `vi` was started in the foreground (pid 20) and stopped:
`monitorjob` moved it to slot 1 and zero-filled slot 0. -/
def table_moved : List job_t :=
  [ zero_job,
    { pgid := 20, proc := [⟨20, 2, -1⟩], tmodes := 5, state := 2,
      command := some "vi" } ]

/-- No foreground job; `sleep 5` (pid 30) and `cat` (pid 40) running in the
background slots 1 and 2. -/
def table_two : List job_t :=
  [ zero_job,
    { pgid := 30, proc := [⟨30, 1, -1⟩], tmodes := 1, state := 1,
      command := some "sleep 5" },
    { pgid := 40, proc := [⟨40, 1, -1⟩], tmodes := 1, state := 1,
      command := some "cat" } ]

/-- The token array of `a x | b | c` (6 tokens and the terminating `NULL`). -/
def tokens_abc : List token_t :=
  [.word "a", .word "x", .T_PIPE, .word "b", .T_PIPE, .word "c", .T_NULL]

/-- The token array of `a | b` (3 tokens and the terminating `NULL`). -/
def tokens_ab : List token_t :=
  [.word "a", .T_PIPE, .word "b", .T_NULL]

/-- The token array of `cmd < in arg` (4 tokens and the terminating `NULL`). -/
def tokens_redir : List token_t :=
  [.word "cmd", .T_INPUT, .word "in", .word "arg", .T_NULL]

/-! ## Theorems: `sigchld_handler` -/

theorem scan_state_stopped (K : Header) (ps : List proc_t) (run : Bool) :
    (scan_state K ps run).1 = ps.any (fun p => decide (p.state = K.STOPPED)) := by
  induction ps generalizing run with
  | nil => simp [scan_state]
  | cons p ps ih =>
    by_cases h1 : p.state = K.STOPPED
    · simp [scan_state, h1]
    · by_cases h2 : p.state = K.RUNNING
      · rw [scan_state, if_neg h1, if_pos h2, ih]
        simp [h1]
      · rw [scan_state, if_neg h1, if_neg h2, ih]
        simp [h1]

theorem scan_state_running (K : Header) (ps : List proc_t) (run : Bool)
    (h : (scan_state K ps run).1 = false) :
    (scan_state K ps run).2
      = (run || ps.any (fun p => decide (p.state = K.RUNNING))) := by
  induction ps generalizing run with
  | nil => simp [scan_state]
  | cons p ps ih =>
    by_cases h1 : p.state = K.STOPPED
    · simp [scan_state, h1] at h
    · by_cases h2 : p.state = K.RUNNING
      · rw [scan_state, if_neg h1, if_pos h2] at h ⊢
        rw [ih true h]
        simp [h2]
      · rw [scan_state, if_neg h1, if_neg h2] at h ⊢
        rw [ih run h]
        simp [h2]

theorem refresh_job_proc (K : Header) (job : job_t) :
    (refresh_job K job).proc = job.proc := by
  unfold refresh_job
  split
  · rfl
  · split <;> rfl

theorem refresh_job_state (K : Header) (job : job_t) :
    (refresh_job K job).state = tie_break_rule K job.proc := by
  unfold refresh_job tie_break_rule
  by_cases h1 : (scan_state K job.proc false).1 = true
  · have h1b := h1
    rw [scan_state_stopped] at h1b
    simp only [h1, h1b, if_true]
  · have h1c : (scan_state K job.proc false).1 = false := by simpa using h1
    have h1b := h1c
    rw [scan_state_stopped] at h1b
    have h2 := scan_state_running K job.proc false h1c
    simp only [Bool.false_or] at h2
    rw [h1c, h1b, h2]
    by_cases h3 : (job.proc.any fun p => decide (p.state = K.RUNNING)) = true
    · simp [h3]
    · have h3c : (job.proc.any fun p => decide (p.state = K.RUNNING)) = false := by
        simpa using h3
      simp [h3c]

theorem on_child_rule (K : Header) (jobs : List job_t) (pid status : Int) :
    ∀ job ∈ on_child K jobs pid status, job.state = tie_break_rule K job.proc := by
  intro job hjob
  unfold on_child at hjob
  rcases List.mem_map.mp hjob with ⟨j0, _, rfl⟩
  rw [refresh_job_state, refresh_job_proc]

theorem sigchld_handler_rule (K : Header) (ns : List (Int × Int)) (jobs : List job_t)
    (hinv : ∀ job ∈ jobs, job.state = tie_break_rule K job.proc) :
    ∀ job ∈ sigchld_handler K jobs ns, job.state = tie_break_rule K job.proc := by
  induction ns generalizing jobs with
  | nil => simpa [sigchld_handler] using hinv
  | cons n rest ih =>
    obtain ⟨pid, status⟩ := n
    by_cases hp : 0 < pid
    · simp only [sigchld_handler, hp, if_true]
      exact ih _ (on_child_rule K jobs pid status)
    · simpa [sigchld_handler, hp] using hinv

/-- C1: after `sigchld_handler` has processed a non-empty sequence of child
notifications (the first `waitpid` result has a positive pid, whatever the
statuses and pids are), the state of every slot of the job table is the
tie-break rule applied to the processes the slot then holds. -/
theorem C1_handler_restores_tie_break (K : Header) (jobs : List job_t)
    (pid status : Int) (rest : List (Int × Int)) (hpid : 0 < pid) :
    ∀ job ∈ sigchld_handler K jobs ((pid, status) :: rest),
      job.state = tie_break_rule K job.proc := by
  simp only [sigchld_handler, hpid, if_true]
  exact sigchld_handler_rule K rest _ (on_child_rule K jobs pid status)

theorem C1_handler_restores_tie_break_witness :
    (0 : Int) < 8 ∧
    (sigchld_handler linux_h table_C1 [(8, 4991), (7, 0), (8, 65535)]
      = [ zero_job,
          { pgid := 7, proc := [⟨7, 0, 0⟩, ⟨8, 1, -1⟩], tmodes := 0, state := 1,
            command := some "a | b" } ]) ∧
    ∀ job ∈ sigchld_handler linux_h table_C1 [(8, 4991), (7, 0), (8, 65535)],
      job.state = tie_break_rule linux_h job.proc :=
  ⟨by decide, by decide,
   C1_handler_restores_tie_break linux_h table_C1 8 4991 [(7, 0), (8, 65535)] (by decide)⟩

/-! ## Theorems: `allocjob` -/

theorem allocjob_scan_some (l : List job_t) (j k : Nat)
    (h : allocjob_scan l j = some k) :
    j ≤ k ∧ (∃ job, l[k - j]? = some job ∧ job.pgid = 0) ∧
      ∀ (i : Nat) (job : job_t), i < k - j → l[i]? = some job → job.pgid ≠ 0 := by
  induction l generalizing j with
  | nil => simp [allocjob_scan] at h
  | cons a rest ih =>
    by_cases ha : a.pgid = 0
    · rw [allocjob_scan, if_pos ha] at h
      injection h with h
      subst h
      refine ⟨le_refl _, ⟨a, by simp, ha⟩, ?_⟩
      intro i job hi
      simp at hi
    · rw [allocjob_scan, if_neg ha] at h
      obtain ⟨h1, ⟨job, h2, h3⟩, h4⟩ := ih (j + 1) h
      have e : k - j = (k - (j + 1)) + 1 := by omega
      refine ⟨by omega, ⟨job, ?_, h3⟩, ?_⟩
      · rw [e, List.getElem?_cons_succ]
        exact h2
      · intro i jb hi hjb
        cases i with
        | zero =>
          simp at hjb
          subst hjb
          exact ha
        | succ i =>
          rw [List.getElem?_cons_succ] at hjb
          exact h4 i jb (by omega) hjb

theorem allocjob_scan_none (l : List job_t) (j : Nat)
    (h : allocjob_scan l j = none) :
    ∀ (i : Nat) (job : job_t), l[i]? = some job → job.pgid ≠ 0 := by
  induction l generalizing j with
  | nil => intro i job hi; simp at hi
  | cons a rest ih =>
    by_cases ha : a.pgid = 0
    · rw [allocjob_scan, if_pos ha] at h
      exact absurd h (by simp)
    · rw [allocjob_scan, if_neg ha] at h
      intro i job hi
      cases i with
      | zero =>
        simp at hi
        subst hi
        exact ha
      | succ i =>
        rw [List.getElem?_cons_succ] at hi
        exact ih (j + 1) h i job hi

theorem allocjob_found (jobs : List job_t) (k : Nat)
    (h : allocjob_scan (jobs.drop BG) BG = some k) :
    1 ≤ k ∧ free_at jobs k ∧ ∀ i, 1 ≤ i → i < k → ¬ free_at jobs i := by
  obtain ⟨h1, ⟨job, h2, h3⟩, h4⟩ := allocjob_scan_some _ _ _ h
  simp only [BG] at h1 h2 h4
  rw [List.getElem?_drop] at h2
  have e : 1 + (k - 1) = k := by omega
  rw [e] at h2
  refine ⟨h1, ⟨job, h2, h3⟩, ?_⟩
  rintro i hi hik ⟨jb, hjb, hz⟩
  refine h4 (i - 1) jb (by omega) ?_ hz
  rw [List.getElem?_drop]
  have e2 : 1 + (i - 1) = i := by omega
  rw [e2]
  exact hjb

theorem allocjob_not_found (jobs : List job_t)
    (h : allocjob_scan (jobs.drop BG) BG = none) :
    ∀ i, 1 ≤ i → ¬ free_at jobs i := by
  rintro i hi ⟨jb, hjb, hz⟩
  refine allocjob_scan_none _ _ h (i - 1) jb ?_ hz
  simp only [BG]
  rw [List.getElem?_drop]
  have e2 : 1 + (i - 1) = i := by omega
  rw [e2]
  exact hjb

theorem allocjob_cases (jobs : List job_t) (hn : 0 < jobs.length) :
    1 ≤ (allocjob jobs).1 ∧
    ((∃ i, 1 ≤ i ∧ free_at jobs i) →
      (allocjob jobs).2 = jobs ∧ free_at jobs (allocjob jobs).1 ∧
      ∀ i, 1 ≤ i → i < (allocjob jobs).1 → ¬ free_at jobs i) ∧
    ((¬ ∃ i, 1 ≤ i ∧ free_at jobs i) →
      (allocjob jobs).1 = jobs.length ∧
      (allocjob jobs).2 = jobs ++ [zero_job] ∧
      (allocjob jobs).2.length = jobs.length + 1 ∧
      ∀ i, i < jobs.length → (allocjob jobs).2[i]? = jobs[i]?) := by
  unfold allocjob
  cases h : allocjob_scan (jobs.drop BG) BG with
  | some k =>
    obtain ⟨h1, h2, h3⟩ := allocjob_found jobs k h
    refine ⟨h1, fun _ => ⟨rfl, h2, h3⟩, ?_⟩
    intro hno
    exact absurd ⟨k, h1, h2⟩ hno
  | none =>
    have hnone := allocjob_not_found jobs h
    refine ⟨hn, ?_, ?_⟩
    · rintro ⟨i, hi, hfree⟩
      exact absurd hfree (hnone i hi)
    · intro _
      refine ⟨rfl, rfl, by simp, ?_⟩
      intro i hi
      exact List.getElem?_append_left hi

/-- C2: on a table with at least the foreground slot (`njobmax >= 1`),
`allocjob` never returns 0; if some slot of index `>= 1` is free it returns the
lowest such index and leaves the table as it was; if none is free it returns
the old `njobmax` and the table is the old one followed by one zeroed slot
(so `njobmax` grows by exactly 1 and the old slots are unchanged). -/
theorem C2_allocjob_lowest_free_or_append (jobs : List job_t)
    (hn : 0 < jobs.length) :
    1 ≤ (allocjob jobs).1 ∧
    ((∃ i, 1 ≤ i ∧ free_at jobs i) →
      (allocjob jobs).2 = jobs ∧ free_at jobs (allocjob jobs).1 ∧
      ∀ i, 1 ≤ i → i < (allocjob jobs).1 → ¬ free_at jobs i) ∧
    ((¬ ∃ i, 1 ≤ i ∧ free_at jobs i) →
      (allocjob jobs).1 = jobs.length ∧
      (allocjob jobs).2 = jobs ++ [zero_job] ∧
      (allocjob jobs).2.length = jobs.length + 1 ∧
      ∀ i, i < jobs.length → (allocjob jobs).2[i]? = jobs[i]?) :=
  allocjob_cases jobs hn

theorem C2_allocjob_lowest_free_or_append_witness :
    0 < table_bg.length ∧ allocjob table_bg = (2, table_bg) ∧
    ((allocjob table_bg).2 = table_bg ∧ free_at table_bg (allocjob table_bg).1 ∧
      ∀ i, 1 ≤ i → i < (allocjob table_bg).1 → ¬ free_at table_bg i) :=
  ⟨by decide, by decide,
   (C2_allocjob_lowest_free_or_append table_bg (by decide)).2.1
     ⟨2, by decide, ⟨_, rfl, rfl⟩⟩⟩

/-! ## Theorems: `watchjobs` -/

theorem jobstate_slot_watchable (K : Header) (job : job_t)
    (hw : watchable_slot K job) (hp : job.pgid ≠ 0) :
    ∃ status, jobstate_slot K job = .ok (job.state, status, reaped K job) := by
  unfold jobstate_slot reaped
  by_cases hf : job.state = K.FINISHED
  · have hne : job.proc ≠ [] := (hw hp).2 hf
    obtain ⟨p, hp2⟩ : ∃ p, job.proc.getLast? = some p := by
      cases hq : job.proc.getLast? with
      | none => exact absurd (List.getLast?_eq_none_iff.mp hq) hne
      | some p => exact ⟨p, rfl⟩
    refine ⟨some p.exitcode, ?_⟩
    simp [hf, hp, exitcode, hp2, deljob]
  · exact ⟨none, by simp [hf]⟩

theorem reaped_free (K : Header) (job : job_t) (hp : job.pgid = 0) :
    reaped K job = job := by
  simp [reaped, hp]

theorem reaped_not_finished (K : Header) (job : job_t)
    (hp : (reaped K job).pgid ≠ 0) : (reaped K job).state ≠ K.FINISHED := by
  unfold reaped at hp ⊢
  by_cases h : job.pgid ≠ 0 ∧ job.state = K.FINISHED
  · rw [if_pos h] at hp
    exact absurd rfl hp
  · rw [if_neg h] at hp ⊢
    intro hf
    exact h ⟨hp, hf⟩

theorem watch_slots_reaps (K : Header) (which : Int) (l : List job_t) (j : Nat)
    (hw : ∀ job ∈ l, watchable_slot K job) :
    ∃ tr, watch_slots K which l j = .ok (l.map (reaped K), tr) := by
  induction l generalizing j with
  | nil => exact ⟨[], rfl⟩
  | cons a rest ih =>
    obtain ⟨tr, htr⟩ := ih (j + 1) (fun job hjob => hw job (List.mem_cons_of_mem _ hjob))
    by_cases hp : a.pgid = 0
    · refine ⟨tr, ?_⟩
      simp [watch_slots, hp, htr, reaped_free K a hp]
    · have hwa := hw a (List.mem_cons_self _ _)
      obtain ⟨status, hst⟩ := jobstate_slot_watchable K a hwa hp
      cases hc : a.command with
      | none => exact absurd hc (hwa hp).1
      | some cmd =>
        refine ⟨watch_report K which j cmd a.state status ++ tr, ?_⟩
        simp [watch_slots, hp, hc, hst, htr]

theorem watch_slots_quiet (K : Header) (hALL : K.ALL ≠ K.FINISHED) (l : List job_t)
    (j : Nat) (hw : ∀ job ∈ l, watchable_slot K job)
    (hq : ∀ job ∈ l, job.pgid ≠ 0 → job.state ≠ K.FINISHED) :
    watch_slots K K.FINISHED l j = .ok (l, []) := by
  induction l generalizing j with
  | nil => rfl
  | cons a rest ih =>
    have htr := ih (j + 1) (fun job hjob => hw job (List.mem_cons_of_mem _ hjob))
      (fun job hjob => hq job (List.mem_cons_of_mem _ hjob))
    by_cases hp : a.pgid = 0
    · simp [watch_slots, hp, htr]
    · have hwa := hw a (List.mem_cons_self _ _)
      have hnf := hq a (List.mem_cons_self _ _) hp
      cases hc : a.command with
      | none => exact absurd hc (hwa hp).1
      | some cmd =>
        have hne : K.FINISHED ≠ K.ALL := fun h => hALL h.symm
        simp [watch_slots, hp, hc, jobstate_slot, hnf, htr, watch_report, hne]

theorem watchjobs_closed_form (K : Header) (jobs : List job_t) (which : Int)
    (hw : watchable K jobs) :
    ∃ tr, watchjobs K jobs which
      = .ok (jobs.take BG ++ (jobs.drop BG).map (reaped K), tr) := by
  obtain ⟨tr, htr⟩ := watch_slots_reaps K which (jobs.drop BG) BG hw
  exact ⟨tr, by simp [watchjobs, htr]⟩

theorem swept_head (K : Header) (jobs : List job_t) :
    (jobs.take BG ++ (jobs.drop BG).map (reaped K))[0]? = jobs[0]? := by
  cases jobs with
  | nil => rfl
  | cons a rest => simp [BG]

theorem swept_slot (K : Header) (jobs : List job_t) (i : Nat) (hi : 1 ≤ i) :
    (jobs.take BG ++ (jobs.drop BG).map (reaped K))[i]?
      = (jobs[i]?).map (reaped K) := by
  cases jobs with
  | nil => simp
  | cons a rest =>
    obtain ⟨k, rfl⟩ : ∃ k, i = k + 1 := ⟨i - 1, by omega⟩
    simp [BG]

theorem swept_watchable (K : Header) (jobs : List job_t) (hw : watchable K jobs) :
    watchable K (jobs.take BG ++ (jobs.drop BG).map (reaped K)) := by
  cases jobs with
  | nil => intro job hjob; simp [BG] at hjob
  | cons a rest =>
    intro job hjob
    simp only [BG, List.take_succ_cons, List.take_zero, List.drop_succ_cons,
      List.drop_zero, List.singleton_append, List.mem_map] at hjob
    obtain ⟨j0, hj0, rfl⟩ := hjob
    have h0 : watchable_slot K j0 := hw j0 (by simpa [BG] using hj0)
    intro hp
    unfold reaped at hp ⊢
    by_cases h : j0.pgid ≠ 0 ∧ j0.state = K.FINISHED
    · rw [if_pos h] at hp
      exact absurd rfl hp
    · rw [if_neg h] at hp ⊢
      exact h0 hp

theorem watch_slots_ok_watchable (K : Header) (which : Int) (l : List job_t) (j : Nat)
    (r : List job_t × List Event) (h : watch_slots K which l j = .ok r) :
    ∀ job ∈ l, watchable_slot K job := by
  induction l generalizing j r with
  | nil => intro job hjob; simp at hjob
  | cons a rest ih =>
    by_cases hp : a.pgid = 0
    · rw [watch_slots, if_pos hp] at h
      cases hr : watch_slots K which rest (j + 1) with
      | error f => simp [hr] at h
      | ok r1 =>
        intro job hjob
        rcases List.mem_cons.mp hjob with rfl | hmem
        · exact fun hne => absurd hp hne
        · exact ih (j + 1) r1 hr job hmem
    · rw [watch_slots, if_neg hp] at h
      cases hc : a.command with
      | none => simp [hc] at h
      | some cmd =>
        simp only [hc] at h
        cases hs : jobstate_slot K a with
        | error f => simp [hs] at h
        | ok st =>
          simp only [hs] at h
          cases hr : watch_slots K which rest (j + 1) with
          | error f => simp [hr] at h
          | ok r1 =>
            intro job hjob
            rcases List.mem_cons.mp hjob with rfl | hmem
            · intro _
              refine ⟨by simp [hc], ?_⟩
              intro hf hnil
              simp [jobstate_slot, hf, exitcode, hnil] at hs
            · exact ih (j + 1) r1 hr job hmem

theorem watchjobs_ok_watchable (K : Header) (jobs : List job_t) (which : Int)
    (r : List job_t × List Event) (h : watchjobs K jobs which = .ok r) :
    watchable K jobs := by
  unfold watchjobs at h
  cases hr : watch_slots K which (jobs.drop BG) BG with
  | error f => simp [hr] at h
  | ok r1 => exact watch_slots_ok_watchable K which _ BG r1 hr

/-- C3: `watchjobs` returns exactly on the tables whose occupied background
slots hold a command text and, when finished, at least one process (the reads
of `strdup(jobcmd(j))` and `exitcode`). Whenever it returns, for every scope
argument: slot 0 and the number of slots are as before, every background job
that was `FINISHED` is deleted (its slot is free), every other background slot
is unchanged, no occupied background slot is `FINISHED`, and a
`watchjobs(FINISHED)` that follows at once changes nothing and reports
nothing. -/
theorem C3_watchjobs_consumes_finished (K : Header) (jobs : List job_t)
    (which : Int) (hALL : K.ALL ≠ K.FINISHED) :
    ((∃ r, watchjobs K jobs which = .ok r) ↔ watchable K jobs) ∧
    ∀ (jobs1 : List job_t) (tr : List Event),
      watchjobs K jobs which = .ok (jobs1, tr) →
      jobs1.length = jobs.length ∧ jobs1[0]? = jobs[0]? ∧
      (∀ (i : Nat) (job : job_t), 1 ≤ i → jobs[i]? = some job →
        job.pgid ≠ 0 → job.state = K.FINISHED →
        jobs1[i]? = some { job with pgid := 0, command := none, proc := [] } ∧
        free_at jobs1 i) ∧
      (∀ (i : Nat) (job : job_t), 1 ≤ i → jobs[i]? = some job →
        ¬ (job.pgid ≠ 0 ∧ job.state = K.FINISHED) → jobs1[i]? = some job) ∧
      (∀ (i : Nat) (job : job_t), 1 ≤ i → jobs1[i]? = some job →
        job.pgid ≠ 0 → job.state ≠ K.FINISHED) ∧
      watchjobs K jobs1 K.FINISHED = .ok (jobs1, []) := by
  refine ⟨⟨fun ⟨r, hr⟩ => watchjobs_ok_watchable K jobs which r hr, fun hw => ?_⟩, ?_⟩
  · obtain ⟨tr, htr⟩ := watchjobs_closed_form K jobs which hw
    exact ⟨_, htr⟩
  intro jobs1 tr0 hret
  have hw := watchjobs_ok_watchable K jobs which _ hret
  obtain ⟨tr, htr⟩ := watchjobs_closed_form K jobs which hw
  rw [htr] at hret
  injection hret with hret
  injection hret with hjobs htr0
  subst hjobs
  have hquiet : ∀ (i : Nat) (job : job_t), 1 ≤ i →
      (jobs.take BG ++ (jobs.drop BG).map (reaped K))[i]? = some job →
      job.pgid ≠ 0 → job.state ≠ K.FINISHED := by
    intro i job hi hjob hp
    rw [swept_slot K jobs i hi] at hjob
    obtain ⟨j0, _, rfl⟩ := Option.map_eq_some'.mp hjob
    exact reaped_not_finished K j0 hp
  refine ⟨?_, swept_head K jobs, ?_, ?_, hquiet, ?_⟩
  · cases jobs with
    | nil => rfl
    | cons a rest => simp [BG]
  · intro i job hi hjob hp hf
    have e : (jobs.take BG ++ (jobs.drop BG).map (reaped K))[i]?
        = some { job with pgid := 0, command := none, proc := [] } := by
      rw [swept_slot K jobs i hi, hjob]
      simp [reaped, hp, hf]
    exact ⟨e, ⟨_, e, rfl⟩⟩
  · intro i job hi hjob hn
    rw [swept_slot K jobs i hi, hjob]
    simp only [Option.map_some', reaped, if_neg hn]
  · have hw1 := swept_watchable K jobs hw
    have hq : ∀ job ∈ (jobs.take BG ++ (jobs.drop BG).map (reaped K)).drop BG,
        job.pgid ≠ 0 → job.state ≠ K.FINISHED := by
      intro job hjob hp
      obtain ⟨i, hi⟩ := List.getElem?_of_mem hjob
      rw [List.getElem?_drop] at hi
      exact hquiet (BG + i) job (by simp [BG]) hi hp
    have h2 := watch_slots_quiet K hALL _ BG hw1 hq
    unfold watchjobs
    rw [h2]
    simp only [List.take_append_drop]

theorem C3_watchjobs_consumes_finished_witness :
    linux_h.ALL ≠ linux_h.FINISHED ∧ watchable linux_h table_bg ∧
    watchjobs linux_h table_bg (-1) = .ok
      ([ zero_job,
         { pgid := 11, proc := [⟨11, 2, -1⟩], tmodes := 3, state := 2,
           command := some "sleep 9" },
         { pgid := 0, proc := [], tmodes := 0, state := 0, command := none },
         { pgid := 0, proc := [], tmodes := 0, state := 0, command := none } ],
       [ .msg "[%d] suspended '%s'\n" [.int 1, .str (some "sleep 9")],
         .printf "[%d] exited '%s', status=%d\n" [.int 3, .str (some "cat"), .int 1] ]) ∧
    (∃ r, watchjobs linux_h table_bg (-1) = .ok r) ∧
    watchjobs linux_h
      [ zero_job,
        { pgid := 11, proc := [⟨11, 2, -1⟩], tmodes := 3, state := 2,
          command := some "sleep 9" },
        { pgid := 0, proc := [], tmodes := 0, state := 0, command := none },
        { pgid := 0, proc := [], tmodes := 0, state := 0, command := none } ]
      linux_h.FINISHED
      = .ok ([ zero_job,
        { pgid := 11, proc := [⟨11, 2, -1⟩], tmodes := 3, state := 2,
          command := some "sleep 9" },
        { pgid := 0, proc := [], tmodes := 0, state := 0, command := none },
        { pgid := 0, proc := [], tmodes := 0, state := 0, command := none } ], []) :=
  ⟨by decide, by decide, rfl,
   (C3_watchjobs_consumes_finished linux_h table_bg (-1) (by decide)).1.mpr (by decide),
   ((C3_watchjobs_consumes_finished linux_h table_bg (-1) (by decide)).2 _ _ rfl).2.2.2.2.2⟩

/-! ## Theorems: `jobstate` and `monitorjob` -/

theorem set_same (l : List job_t) (j : Nat) (a : job_t) (h : l[j]? = some a) :
    l.set j a = l := by
  induction l generalizing j with
  | nil => rfl
  | cons b rest ih =>
    cases j with
    | zero =>
      simp at h
      simp [h]
    | succ j =>
      rw [List.getElem?_cons_succ] at h
      simp [ih j h]

theorem slot_state_some (jobs : List job_t) (j : Nat) (v : Int)
    (h : slot_state jobs j = some v) : ∃ job, jobs[j]? = some job ∧ job.state = v := by
  unfold slot_state at h
  obtain ⟨job, hj, hv⟩ := Option.map_eq_some'.mp h
  exact ⟨job, hj, hv⟩

theorem jobstate_unfinished (K : Header) (jobs : List job_t) (j : Nat) (job : job_t)
    (hj : jobs[j]? = some job) (hs : job.state ≠ K.FINISHED) :
    jobstate K jobs j = .ok (job.state, none, jobs) := by
  simp [jobstate, hj, jobstate_slot, hs, set_same jobs j job hj]

theorem jobstate_finished (K : Header) (jobs : List job_t) (j : Nat) (job : job_t)
    (last : proc_t) (hj : jobs[j]? = some job) (hs : job.state = K.FINISHED)
    (hl : job.proc.getLast? = some last) :
    jobstate K jobs j = .ok (K.FINISHED, some last.exitcode,
      jobs.set j { job with pgid := 0, command := none, proc := [] }) := by
  simp [jobstate, hj, jobstate_slot, hs, exitcode, hl, deljob]

theorem monitor_wait_runs (K : Header) (hFR : K.FINISHED ≠ K.RUNNING)
    (wakes : List Wake) (jobs : List job_t) (ec : Int)
    (hrun : ∀ k, k < wakes.length →
      slot_state (table_after K jobs (wakes.take k)) 0 = some K.RUNNING) :
    monitor_wait K wakes jobs ec =
      match monitor_wait K [] (table_after K jobs wakes) ec with
      | .error f => .error f
      | .ok (s, e, t, tr) =>
        .ok (s, e, t, List.replicate wakes.length Event.sigsuspend ++ tr) := by
  induction wakes generalizing jobs ec with
  | nil =>
    simp only [table_after, List.foldl_nil, List.length_nil, List.replicate_zero,
      List.nil_append]
    cases monitor_wait K [] jobs ec with
    | error f => rfl
    | ok r => rfl
  | cons w ws ih =>
    obtain ⟨job, hj, hst⟩ := slot_state_some _ _ _ (hrun 0 (by simp))
    simp only [table_after, List.take_zero, List.foldl_nil] at hj
    have hne : job.state ≠ K.FINISHED := by
      rw [hst]
      exact fun h => hFR h.symm
    have hrec := ih (sigchld_handler K jobs w) ec (by
      intro k hk
      have := hrun (k + 1) (by simpa using hk)
      simpa [table_after] using this)
    conv_lhs => rw [monitor_wait, jobstate_unfinished K jobs 0 job hj hne]
    simp only [hst, if_true, Option.getD_none]
    rw [hrec]
    simp only [table_after, List.foldl_cons, List.length_cons, List.replicate_succ]
    cases monitor_wait K [] (List.foldl (sigchld_handler K) (sigchld_handler K jobs w) ws) ec with
    | error f => rfl
    | ok r => rfl

theorem mark_procs_length (K : Header) (pid status : Int) (ps qs : List proc_t)
    (st : Bool) (h : mark_procs K pid status ps = some (qs, st)) :
    qs.length = ps.length := by
  induction ps generalizing qs st with
  | nil => simp [mark_procs] at h
  | cons p ps ih =>
    by_cases hp : pid = p.pid
    · rw [mark_procs, if_pos hp] at h
      injection h with h
      injection h with h1 h2
      subst h1
      simp
    · rw [mark_procs, if_neg hp] at h
      cases hr : mark_procs K pid status ps with
      | none => simp [hr] at h
      | some r =>
        obtain ⟨rs, st2⟩ := r
        simp only [hr] at h
        injection h with h
        injection h with h1 h2
        subst h1
        simp [ih rs st2 hr]

theorem mark_jobs_shape (K : Header) (pid status : Int) (jobs : List job_t) :
    (mark_jobs K pid status jobs).map (fun job => job.proc.length)
      = jobs.map (fun job => job.proc.length) := by
  induction jobs with
  | nil => rfl
  | cons a rest ih =>
    cases hr : mark_procs K pid status a.proc with
    | none => simp [mark_jobs, hr, ih]
    | some r =>
      obtain ⟨qs, st⟩ := r
      simp [mark_jobs, hr, mark_procs_length K pid status a.proc qs st hr]

theorem on_child_shape (K : Header) (jobs : List job_t) (pid status : Int) :
    (on_child K jobs pid status).map (fun job => job.proc.length)
      = jobs.map (fun job => job.proc.length) := by
  rw [← mark_jobs_shape K pid status jobs]
  simp [on_child, Function.comp_def, refresh_job_proc]

theorem sigchld_handler_shape (K : Header) (ns : List (Int × Int)) (jobs : List job_t) :
    (sigchld_handler K jobs ns).map (fun job => job.proc.length)
      = jobs.map (fun job => job.proc.length) := by
  induction ns generalizing jobs with
  | nil => rfl
  | cons n rest ih =>
    obtain ⟨pid, status⟩ := n
    by_cases hp : 0 < pid
    · simp only [sigchld_handler, hp, if_true]
      rw [ih, on_child_shape]
    · simp [sigchld_handler, hp]

theorem table_after_shape (K : Header) (wakes : List Wake) (jobs : List job_t) :
    (table_after K jobs wakes).map (fun job => job.proc.length)
      = jobs.map (fun job => job.proc.length) := by
  induction wakes generalizing jobs with
  | nil => rfl
  | cons w ws ih =>
    simp only [table_after, List.foldl_cons] at ih ⊢
    rw [ih, sigchld_handler_shape]

theorem table_after_nproc (K : Header) (wakes : List Wake) (jobs : List job_t)
    (j : Nat) (job fin : job_t) (hj : jobs[j]? = some job)
    (hf : (table_after K jobs wakes)[j]? = some fin) :
    fin.proc.length = job.proc.length := by
  have h := congrArg (fun l => l[j]?) (table_after_shape K wakes jobs)
  simp only [List.getElem?_map, hj, hf, Option.map_some'] at h
  injection h

/-- C4: the foreground job in slot 0 has at least one process; the shell is
woken by the batches `wakes` of child notifications, the job is `RUNNING`
whenever `monitorjob` looks at it before the last batch and `FINISHED` after
the last one. Then `monitorjob` returns, its value is the `exitcode` recorded
in the last process of the job (nothing is asked of the other processes), the
table is the one the handler left with slot 0 deleted, so slot 0 is free, and
the terminal goes back to the shell. -/
theorem C4_monitorjob_returns_last_stage_status (K : Header) (S : Session)
    (jobs : List job_t) (wakes : List Wake) (job0 : job_t)
    (hFR : K.FINISHED ≠ K.RUNNING) (hFS : K.FINISHED ≠ K.STOPPED)
    (h0 : jobs[0]? = some job0) (hn : 1 ≤ job0.proc.length)
    (hrun : ∀ k, k < wakes.length →
      slot_state (table_after K jobs (wakes.take k)) 0 = some K.RUNNING)
    (hfin : slot_state (table_after K jobs wakes) 0 = some K.FINISHED) :
    ∃ fin last jobs1,
      (table_after K jobs wakes)[0]? = some fin ∧
      fin.proc[job0.proc.length - 1]? = some last ∧
      monitorjob K S jobs wakes = .ok (last.exitcode, jobs1,
        Event.tcsetpgrp job0.pgid :: List.replicate wakes.length Event.sigsuspend ++
          [.tcsetattr 0 S.shell_tmodes, .tcsetpgrp S.pgrp]) ∧
      jobs1 = (table_after K jobs wakes).set 0
        { fin with pgid := 0, command := none, proc := [] } ∧
      free_at jobs1 0 := by
  obtain ⟨fin, hf, hst⟩ := slot_state_some _ _ _ hfin
  have hlen := table_after_nproc K wakes jobs 0 job0 fin h0 hf
  have hlt : job0.proc.length - 1 < fin.proc.length := by omega
  obtain ⟨last, hlast⟩ : ∃ last, fin.proc[job0.proc.length - 1]? = some last :=
    ⟨fin.proc[job0.proc.length - 1], List.getElem?_eq_getElem hlt⟩
  have hgl : fin.proc.getLast? = some last := by
    rw [List.getLast?_eq_getElem?, hlen]
    exact hlast
  have hw := monitor_wait_runs K hFR wakes jobs 0 hrun
  have hjs := jobstate_finished K _ 0 fin last hf hst hgl
  rw [monitor_wait, hjs] at hw
  simp only [if_neg hFR, Option.getD_some, List.append_nil] at hw
  refine ⟨fin, last, _, hf, hlast, ?_, rfl, ?_⟩
  · simp [monitorjob, h0, hw, hFS]
  · have hpos : 0 < (table_after K jobs wakes).length := by
      obtain ⟨h, _⟩ := List.getElem?_eq_some.mp hf
      exact h
    exact ⟨_, List.getElem?_set_self hpos, rfl⟩

theorem C4_monitorjob_returns_last_stage_status_witness :
    (table_fg[0]? = some
      { pgid := 20, proc := [⟨20, 1, -1⟩, ⟨21, 1, -1⟩, ⟨22, 1, -1⟩], tmodes := 1,
        state := 1, command := some "a | b | c" }) ∧
    (∀ k, k < [[((20 : Int), (256 : Int))], [(21, 9)], [(22, 768)]].length →
      slot_state (table_after linux_h table_fg
        ([[(20, 256)], [(21, 9)], [(22, 768)]].take k)) 0 = some linux_h.RUNNING) ∧
    slot_state (table_after linux_h table_fg [[(20, 256)], [(21, 9)], [(22, 768)]]) 0
      = some linux_h.FINISHED ∧
    monitorjob linux_h session0 table_fg [[(20, 256)], [(21, 9)], [(22, 768)]]
      = .ok (768,
          [ { pgid := 0, proc := [], tmodes := 1, state := 0, command := none },
            { pgid := 11, proc := [⟨11, 2, -1⟩], tmodes := 3, state := 2,
              command := some "sleep 9" } ],
          [ .tcsetpgrp 20, .sigsuspend, .sigsuspend, .sigsuspend,
            .tcsetattr 0 1, .tcsetpgrp 100 ]) ∧
    ∃ fin last jobs1,
      (table_after linux_h table_fg [[(20, 256)], [(21, 9)], [(22, 768)]])[0]?
        = some fin ∧
      fin.proc[3 - 1]? = some last ∧
      monitorjob linux_h session0 table_fg [[(20, 256)], [(21, 9)], [(22, 768)]]
        = .ok (last.exitcode, jobs1,
            Event.tcsetpgrp 20 :: List.replicate 3 Event.sigsuspend ++
              [.tcsetattr 0 1, .tcsetpgrp 100]) ∧
      jobs1 = (table_after linux_h table_fg
          [[(20, 256)], [(21, 9)], [(22, 768)]]).set 0
        { fin with pgid := 0, command := none, proc := [] } ∧
      free_at jobs1 0 :=
  ⟨rfl, by decide, by decide, rfl,
   C4_monitorjob_returns_last_stage_status linux_h session0 table_fg
     [[(20, 256)], [(21, 9)], [(22, 768)]] _ (by decide) (by decide) rfl (by decide)
     (by decide) (by decide)⟩

theorem drop_set_zero (jobs : List job_t) (x : job_t) :
    (jobs.set 0 x).drop BG = jobs.drop BG := by
  cases jobs with
  | nil => rfl
  | cons a rest => rfl

theorem allocjob_set_zero (jobs : List job_t) (x : job_t) (hn : 0 < jobs.length) :
    allocjob (jobs.set 0 x) = ((allocjob jobs).1, (allocjob jobs).2.set 0 x) := by
  unfold allocjob
  rw [drop_set_zero]
  cases allocjob_scan (jobs.drop BG) BG with
  | some k => rfl
  | none =>
    cases jobs with
    | nil => simp at hn
    | cons a rest => simp

theorem movejob_free (jobs : List job_t) (k : Nat) (s d : job_t)
    (hs : jobs[0]? = some s) (hd : jobs[k]? = some d) (hp : d.pgid = 0) :
    movejob jobs 0 k = .ok ((jobs.set k s).set 0 zero_job) := by
  simp [movejob, hs, hd, hp]

theorem monitor_stopped_moves (S : Session) (jobs : List job_t) (cur : job_t)
    (h0 : jobs[0]? = some cur) :
    ∃ jobs1, monitor_stopped S jobs = .ok jobs1 ∧
      1 ≤ (allocjob jobs).1 ∧
      jobs1[(allocjob jobs).1]? = some { cur with tmodes := S.tty_modes } ∧
      jobs1[0]? = some zero_job ∧
      (∀ (i : Nat), i ≠ 0 → i ≠ (allocjob jobs).1 → jobs1[i]? = jobs[i]?) ∧
      ((∃ i, 1 ≤ i ∧ free_at jobs i) →
        free_at jobs (allocjob jobs).1 ∧
        (∀ i, 1 ≤ i → i < (allocjob jobs).1 → ¬ free_at jobs i) ∧
        jobs1.length = jobs.length) ∧
      ((¬ ∃ i, 1 ≤ i ∧ free_at jobs i) →
        (allocjob jobs).1 = jobs.length ∧ jobs1.length = jobs.length + 1) := by
  have hn : 0 < jobs.length := (List.getElem?_eq_some.mp h0).1
  obtain ⟨hk, hfound, hnone⟩ := allocjob_cases jobs hn
  have hfree : ∃ d, (allocjob jobs).2[(allocjob jobs).1]? = some d ∧ d.pgid = 0 := by
    by_cases hex : ∃ i, 1 ≤ i ∧ free_at jobs i
    · obtain ⟨e, hf, _⟩ := hfound hex
      rw [e]
      exact hf
    · obtain ⟨e1, e2, _, _⟩ := hnone hex
      rw [e1, e2]
      exact ⟨zero_job, by simp, rfl⟩
  obtain ⟨d, hd, hdp⟩ := hfree
  have hklt : (allocjob jobs).1 < (allocjob jobs).2.length :=
    (List.getElem?_eq_some.mp hd).1
  have hlen2 : 0 < (allocjob jobs).2.length := by omega
  have hkne : (0 : Nat) ≠ (allocjob jobs).1 := by omega
  have hmv := movejob_free ((allocjob jobs).2.set 0 { cur with tmodes := S.tty_modes })
    (allocjob jobs).1 { cur with tmodes := S.tty_modes } d
    (List.getElem?_set_self hlen2)
    (by rw [List.getElem?_set_ne hkne]; exact hd) hdp
  have hold : ∀ (i : Nat), i ≠ (allocjob jobs).1 → (allocjob jobs).2[i]? = jobs[i]? := by
    intro i hi
    by_cases hex : ∃ i, 1 ≤ i ∧ free_at jobs i
    · rw [(hfound hex).1]
    · obtain ⟨e1, e2, _, _⟩ := hnone hex
      rw [e2, List.getElem?_append]
      by_cases hlt : i < jobs.length
      · rw [if_pos hlt]
      · rw [if_neg hlt]
        have h1 : jobs.length < i := by omega
        rw [List.getElem?_eq_none (by simp; omega), List.getElem?_eq_none (by omega)]
  refine ⟨(((allocjob jobs).2.set 0 { cur with tmodes := S.tty_modes }).set
    (allocjob jobs).1 { cur with tmodes := S.tty_modes }).set 0 zero_job,
    ?_, hk, ?_, ?_, ?_, ?_, ?_⟩
  · unfold monitor_stopped
    rw [h0]
    simp only [allocjob_set_zero jobs _ hn]
    exact hmv
  · rw [List.getElem?_set_ne hkne]
    exact List.getElem?_set_self (by simpa using hklt)
  · exact List.getElem?_set_self (by simpa using hlen2)
  · intro i hi0 hik
    rw [List.getElem?_set_ne (fun h => hi0 h.symm), List.getElem?_set_ne (fun h => hik h.symm),
      List.getElem?_set_ne (fun h => hi0 h.symm)]
    exact hold i hik
  · intro hex
    obtain ⟨e, hf, hmin⟩ := hfound hex
    refine ⟨hf, hmin, ?_⟩
    simp [e]
  · intro hex
    obtain ⟨e1, _, e3, _⟩ := hnone hex
    refine ⟨e1, ?_⟩
    simp [e3]

/-- C5: the shell is woken by the batches `wakes`, the foreground job is
`RUNNING` whenever `monitorjob` looks at it before the last batch and `STOPPED`
after the last one. Then `monitorjob` returns 0; with `k` the index `allocjob`
gives on the table the handler left (the lowest free index `>= 1`, or the old
`njobmax` with one slot appended when none is free), slot `k` holds the job of
slot 0 with only `tmodes` replaced by the modes read from the terminal, slot 0
is zeroed, every other slot is as the handler left it, and the calls end with
`tcgetattr`, `tcsetattr` of the shell's saved modes and `tcsetpgrp` of the
shell's group. -/
theorem C5_monitorjob_moves_stopped_job (K : Header) (S : Session)
    (jobs : List job_t) (wakes : List Wake) (job0 : job_t)
    (hFR : K.FINISHED ≠ K.RUNNING) (hFS : K.FINISHED ≠ K.STOPPED)
    (hRS : K.RUNNING ≠ K.STOPPED)
    (h0 : jobs[0]? = some job0)
    (hrun : ∀ k, k < wakes.length →
      slot_state (table_after K jobs (wakes.take k)) 0 = some K.RUNNING)
    (hstop : slot_state (table_after K jobs wakes) 0 = some K.STOPPED) :
    ∃ cur jobs1,
      (table_after K jobs wakes)[0]? = some cur ∧
      monitorjob K S jobs wakes = .ok (0, jobs1,
        Event.tcsetpgrp job0.pgid :: List.replicate wakes.length Event.sigsuspend ++
          [.tcgetattr, .tcsetattr 0 S.shell_tmodes, .tcsetpgrp S.pgrp]) ∧
      1 ≤ (allocjob (table_after K jobs wakes)).1 ∧
      jobs1[(allocjob (table_after K jobs wakes)).1]?
        = some { cur with tmodes := S.tty_modes } ∧
      jobs1[0]? = some zero_job ∧ free_at jobs1 0 ∧
      (∀ (i : Nat), i ≠ 0 → i ≠ (allocjob (table_after K jobs wakes)).1 →
        jobs1[i]? = (table_after K jobs wakes)[i]?) ∧
      ((∃ i, 1 ≤ i ∧ free_at (table_after K jobs wakes) i) →
        free_at (table_after K jobs wakes) (allocjob (table_after K jobs wakes)).1 ∧
        (∀ i, 1 ≤ i → i < (allocjob (table_after K jobs wakes)).1 →
          ¬ free_at (table_after K jobs wakes) i) ∧
        jobs1.length = (table_after K jobs wakes).length) ∧
      ((¬ ∃ i, 1 ≤ i ∧ free_at (table_after K jobs wakes) i) →
        (allocjob (table_after K jobs wakes)).1 = (table_after K jobs wakes).length ∧
        jobs1.length = (table_after K jobs wakes).length + 1) := by
  obtain ⟨cur, hc, hst⟩ := slot_state_some _ _ _ hstop
  have hne : cur.state ≠ K.FINISHED := by
    rw [hst]
    exact fun h => hFS h.symm
  have hw := monitor_wait_runs K hFR wakes jobs 0 hrun
  rw [monitor_wait, jobstate_unfinished K _ 0 cur hc hne] at hw
  have hSR : K.STOPPED ≠ K.RUNNING := fun h => hRS h.symm
  simp only [hst, if_neg hSR, Option.getD_none, List.append_nil] at hw
  obtain ⟨jobs1, hm, h1, h2, h3, h4, h5, h6⟩ :=
    monitor_stopped_moves S (table_after K jobs wakes) cur hc
  refine ⟨cur, jobs1, hc, ?_, h1, h2, h3, ⟨_, h3, rfl⟩, h4, h5, h6⟩
  simp [monitorjob, h0, hw, hm]

theorem C5_monitorjob_moves_stopped_job_witness :
    (∀ k, k < [[((21 : Int), (4991 : Int))]].length →
      slot_state (table_after linux_h table_fg ([[(21, 4991)]].take k)) 0
        = some linux_h.RUNNING) ∧
    slot_state (table_after linux_h table_fg [[(21, 4991)]]) 0 = some linux_h.STOPPED ∧
    monitorjob linux_h session0 table_fg [[(21, 4991)]]
      = .ok (0,
          [ zero_job,
            { pgid := 11, proc := [⟨11, 2, -1⟩], tmodes := 3, state := 2,
              command := some "sleep 9" },
            { pgid := 20, proc := [⟨20, 1, -1⟩, ⟨21, 2, -1⟩, ⟨22, 1, -1⟩], tmodes := 5,
              state := 2, command := some "a | b | c" } ],
          [ .tcsetpgrp 20, .sigsuspend, .tcgetattr, .tcsetattr 0 1, .tcsetpgrp 100 ]) ∧
    ∃ cur jobs1,
      (table_after linux_h table_fg [[(21, 4991)]])[0]? = some cur ∧
      monitorjob linux_h session0 table_fg [[(21, 4991)]] = .ok (0, jobs1,
        Event.tcsetpgrp 20 :: List.replicate 1 Event.sigsuspend ++
          [.tcgetattr, .tcsetattr 0 1, .tcsetpgrp 100]) ∧
      1 ≤ (allocjob (table_after linux_h table_fg [[(21, 4991)]])).1 ∧
      jobs1[(allocjob (table_after linux_h table_fg [[(21, 4991)]])).1]?
        = some { cur with tmodes := 5 } ∧
      jobs1[0]? = some zero_job ∧ free_at jobs1 0 ∧
      (∀ (i : Nat), i ≠ 0 →
        i ≠ (allocjob (table_after linux_h table_fg [[(21, 4991)]])).1 →
        jobs1[i]? = (table_after linux_h table_fg [[(21, 4991)]])[i]?) ∧
      ((∃ i, 1 ≤ i ∧ free_at (table_after linux_h table_fg [[(21, 4991)]]) i) →
        free_at (table_after linux_h table_fg [[(21, 4991)]])
          (allocjob (table_after linux_h table_fg [[(21, 4991)]])).1 ∧
        (∀ i, 1 ≤ i → i < (allocjob (table_after linux_h table_fg [[(21, 4991)]])).1 →
          ¬ free_at (table_after linux_h table_fg [[(21, 4991)]]) i) ∧
        jobs1.length = (table_after linux_h table_fg [[(21, 4991)]]).length) ∧
      ((¬ ∃ i, 1 ≤ i ∧ free_at (table_after linux_h table_fg [[(21, 4991)]]) i) →
        (allocjob (table_after linux_h table_fg [[(21, 4991)]])).1
          = (table_after linux_h table_fg [[(21, 4991)]]).length ∧
        jobs1.length = (table_after linux_h table_fg [[(21, 4991)]]).length + 1) :=
  ⟨by decide, by decide, rfl,
   C5_monitorjob_moves_stopped_job linux_h session0 table_fg [[(21, 4991)]] _
     (by decide) (by decide) (by decide) rfl (by decide) (by decide)⟩

/-! ## Theorems: `killjob` -/

theorem job_at_nat (jobs : List job_t) (j : Nat) (job : job_t)
    (hj : jobs[j]? = some job) : job_at jobs (j : Int) = .ok job := by
  simp [job_at, hj]

theorem not_le_of_slot (jobs : List job_t) (j : Nat) (job : job_t)
    (hj : jobs[j]? = some job) : ¬ ((jobs.length : Int) ≤ (j : Int)) := by
  have h := (List.getElem?_eq_some.mp hj).1
  omega

theorem killjob_finished (K : Header) (jobs : List job_t) (j : Nat)
    (h : jobs.length ≤ j ∨ slot_state jobs j = some K.FINISHED) :
    killjob K jobs (j : Int) = .ok (false, jobs, []) := by
  rcases h with h | h
  · have hle : (jobs.length : Int) ≤ (j : Int) := by omega
    simp [killjob, hle]
  · obtain ⟨job, hj, hs⟩ := slot_state_some _ _ _ h
    simp [killjob, not_le_of_slot jobs j job hj, job_at_nat jobs j job hj, hs]

theorem killjob_live (K : Header) (jobs : List job_t) (j : Nat) (job : job_t)
    (hj : jobs[j]? = some job) (hs : job.state ≠ K.FINISHED) :
    killjob K jobs (j : Int) = .ok (true, jobs,
      [ .debug "[%d] killing '%s'\n" [.int j, .str job.command],
        .kill (-job.pgid) .SIGTERM, .kill (-job.pgid) .SIGCONT ]) := by
  simp [killjob, not_le_of_slot jobs j job hj, job_at_nat jobs j job hj, hs]

/-- C6 (the code departs from the claim): for a negative index the test
`j >= njobmax` is false and `killjob` goes on to read `jobs[j].state`, which
lies outside the table; it does not return false. Shown on a concrete table
for `j = -1`, and for every header, table and negative index. -/
theorem C6_killjob_negative_index_reads_outside_table :
    killjob linux_h table_bg (-1) = .error Fault.out_of_bounds ∧
    ∀ (K : Header) (jobs : List job_t) (n : Nat),
      killjob K jobs (Int.negSucc n) = .error Fault.out_of_bounds := by
  refine ⟨rfl, ?_⟩
  intro K jobs n
  have h1 : ¬ ((jobs.length : Int) ≤ Int.negSucc n) := by
    have := Int.negSucc_lt_zero n
    omega
  have h2 : ¬ ((0 : Int) ≤ Int.negSucc n) := by
    have := Int.negSucc_lt_zero n
    omega
  simp [killjob, h1, job_at, h2]

/-- C7: for an index inside the table whose job is not `FINISHED`, `killjob`
returns true, leaves the table alone, and the signals it sends are exactly
`SIGTERM` and then `SIGCONT`, both to `-pgid`; the only other call is the
`debug` line before them. -/
theorem C7_killjob_sends_term_then_cont (K : Header) (jobs : List job_t) (j : Nat)
    (job : job_t) (hj : jobs[j]? = some job) (hs : job.state ≠ K.FINISHED) :
    ∃ tr, killjob K jobs (j : Int) = .ok (true, jobs, tr) ∧
      signals tr = [(-job.pgid, Signal.SIGTERM), (-job.pgid, Signal.SIGCONT)] ∧
      tr = [ .debug "[%d] killing '%s'\n" [.int j, .str job.command],
             .kill (-job.pgid) .SIGTERM, .kill (-job.pgid) .SIGCONT ] :=
  ⟨_, killjob_live K jobs j job hj hs, rfl, rfl⟩

theorem C7_killjob_sends_term_then_cont_witness :
    (table_bg[1]? = some
      { pgid := 11, proc := [⟨11, 2, -1⟩], tmodes := 3, state := 2,
        command := some "sleep 9" }) ∧
    (2 : Int) ≠ linux_h.FINISHED ∧
    ∃ tr, killjob linux_h table_bg ((1 : Nat) : Int) = .ok (true, table_bg, tr) ∧
      signals tr = [(-11, Signal.SIGTERM), (-11, Signal.SIGCONT)] ∧
      tr = [ .debug "[%d] killing '%s'\n" [.int 1, .str (some "sleep 9")],
             .kill (-11) .SIGTERM, .kill (-11) .SIGCONT ] :=
  ⟨rfl, by decide,
   C7_killjob_sends_term_then_cont linux_h table_bg 1 _ rfl (by decide)⟩

/-! ## Theorems: `resumejob` -/

theorem resume_pick_explicit (K : Header) (jobs : List job_t) (j : Nat) :
    resume_pick K jobs (j : Int) = .ok (j : Int) := by
  have h : ¬ ((j : Int) < 0) := by omega
  simp [resume_pick, h]

theorem resumejob_refuses (K : Header) (S : Session) (jobs : List job_t) (j : Nat)
    (bg : Int) (wakes : List Wake)
    (h : jobs.length ≤ j ∨ slot_state jobs j = some K.FINISHED) :
    resumejob K S jobs (j : Int) bg wakes = .ok (false, jobs, []) := by
  rcases h with h | h
  · have hle : (jobs.length : Int) ≤ (j : Int) := by omega
    simp [resumejob, resume_pick_explicit, hle]
  · obtain ⟨job, hj, hs⟩ := slot_state_some _ _ _ h
    simp [resumejob, resume_pick_explicit, not_le_of_slot jobs j job hj,
      job_at_nat jobs j job hj, hs]

theorem resumejob_live (K : Header) (S : Session) (jobs : List job_t) (j : Nat)
    (bg : Int) (wakes : List Wake) (job : job_t)
    (hj : jobs[j]? = some job) (hs : job.state ≠ K.FINISHED) :
    resumejob K S jobs (j : Int) bg wakes =
      if bg = 1 ∧ job.state = K.STOPPED then
        .ok (true, jobs,
          [ Event.kill (-job.pgid) .SIGCONT,
            Event.msg "[%d] continue '%s'\n" [.int j, .str job.command] ])
      else if bg = 0 then
        match resume_fg K S jobs j wakes with
        | .error f => .error f
        | .ok (jobs1, tr) => .ok (true, jobs1, tr)
      else .ok (true, jobs, []) := by
  simp [resumejob, resume_pick_explicit, not_le_of_slot jobs j job hj,
    job_at_nat jobs j job hj, hs]

/-- C8: for an explicit index `j >= 0` and any value of `bg`: if `j >= njobmax`
or the job in slot `j` is `FINISHED`, `resumejob` returns false with the table
unchanged and no call made (no signal, no terminal call, no output); for every
other explicit index its result is never false, and for `bg != 0` it is true
with the table unchanged. With `bg = 0` the call goes through `movejob` and
the two waits, so it returns true, stops at a failed assertion or sleeps. -/
theorem C8_resumejob_refuses_invalid_or_finished (K : Header) (S : Session)
    (jobs : List job_t) (j : Nat) (bg : Int) (wakes : List Wake) :
    ((jobs.length ≤ j ∨ slot_state jobs j = some K.FINISHED) →
      resumejob K S jobs (j : Int) bg wakes = .ok (false, jobs, [])) ∧
    (¬ (jobs.length ≤ j ∨ slot_state jobs j = some K.FINISHED) →
      (∀ (jobs1 : List job_t) (tr : List Event),
        resumejob K S jobs (j : Int) bg wakes ≠ .ok (false, jobs1, tr)) ∧
      (bg ≠ 0 → ∃ tr, resumejob K S jobs (j : Int) bg wakes = .ok (true, jobs, tr))) := by
  refine ⟨resumejob_refuses K S jobs j bg wakes, ?_⟩
  intro hno
  have hlt : j < jobs.length := by
    by_contra hc
    exact hno (Or.inl (by omega))
  have hj : jobs[j]? = some jobs[j] := List.getElem?_eq_getElem hlt
  have hs : jobs[j].state ≠ K.FINISHED := by
    intro hf
    exact hno (Or.inr (by simp [slot_state, hj, hf]))
  rw [resumejob_live K S jobs j bg wakes jobs[j] hj hs]
  constructor
  · intro jobs1 tr
    split
    · simp
    · split
      · cases resume_fg K S jobs j wakes with
        | error f => simp
        | ok r => simp
      · simp
  · intro hbg
    split
    · exact ⟨_, rfl⟩
    · exact ⟨_, rfl⟩

theorem C8_resumejob_refuses_invalid_or_finished_witness :
    (table_bg.length ≤ 7 ∨ slot_state table_bg 7 = some linux_h.FINISHED) ∧
    (slot_state table_bg 3 = some linux_h.FINISHED) ∧
    resumejob linux_h session0 table_bg ((7 : Nat) : Int) 0 [] = .ok (false, table_bg, []) ∧
    resumejob linux_h session0 table_bg ((3 : Nat) : Int) 1 [] = .ok (false, table_bg, []) ∧
    ¬ (table_bg.length ≤ 1 ∨ slot_state table_bg 1 = some linux_h.FINISHED) ∧
    (∀ (jobs1 : List job_t) (tr : List Event),
      resumejob linux_h session0 table_bg ((1 : Nat) : Int) 1 [] ≠ .ok (false, jobs1, tr)) ∧
    resumejob linux_h session0 table_bg ((1 : Nat) : Int) 0 [[(11, 65535)], [(11, 0)]]
      = .ok (true,
          [ { pgid := 0, proc := [], tmodes := 3, state := 0, command := none },
            zero_job,
            { pgid := 0, proc := [], tmodes := 0, state := 0, command := none },
            { pgid := 13, proc := [⟨13, 0, 256⟩], tmodes := 0, state := 0,
              command := some "cat" } ],
          [ .tcsetpgrp 11, .tcsetattr 0 3, .kill (-11) .SIGCONT, .sigsuspend,
            .msg "[%d] continue '%s'\n" [.int 0, .str (some "sleep 9")],
            .tcsetpgrp 11, .sigsuspend, .tcsetattr 0 1, .tcsetpgrp 100 ]) :=
  ⟨by decide, by decide,
   (C8_resumejob_refuses_invalid_or_finished linux_h session0 table_bg 7 0 []).1 (by decide),
   (C8_resumejob_refuses_invalid_or_finished linux_h session0 table_bg 3 1 []).1 (by decide),
   by decide,
   ((C8_resumejob_refuses_invalid_or_finished linux_h session0 table_bg 1 1 []).2
      (by decide)).1,
   rfl⟩

theorem resume_scan_hit (K : Header) (jobs : List job_t) (k : Nat) (job : job_t)
    (hk : 1 ≤ k) (hj : jobs[k]? = some job) (hs : job.state ≠ K.FINISHED) (n : Nat)
    (hkn : k ≤ n) (hn : n < jobs.length)
    (hlater : ∀ i, i < jobs.length → k < i → slot_state jobs i = some K.FINISHED) :
    resume_scan K jobs n = .ok k := by
  induction n with
  | zero => omega
  | succ n ih =>
    by_cases hkeq : k = n + 1
    · subst hkeq
      simp [resume_scan, hj, hs]
    · obtain ⟨jb, hjb, hst⟩ := slot_state_some _ _ _ (hlater (n + 1) hn (by omega))
      simp only [resume_scan, hjb, hst, if_true]
      exact ih (by omega) (by omega)

theorem resume_scan_miss (K : Header) (jobs : List job_t) (n : Nat)
    (hn : n < jobs.length)
    (hbg : ∀ i, i < jobs.length → 1 ≤ i → slot_state jobs i = some K.FINISHED) :
    resume_scan K jobs n = .ok 0 := by
  induction n with
  | zero => rfl
  | succ n ih =>
    obtain ⟨jb, hjb, hst⟩ := slot_state_some _ _ _ (hbg (n + 1) hn (by omega))
    simp only [resume_scan, hjb, hst, if_true]
    exact ih (by omega)

theorem resumejob_default (K : Header) (S : Session) (jobs : List job_t) (j : Int)
    (bg : Int) (wakes : List Wake) (k : Nat) (hj : j < 0)
    (hscan : resume_scan K jobs (jobs.length - 1) = .ok k) (hn : 0 < jobs.length) :
    resumejob K S jobs j bg wakes = resumejob K S jobs (k : Int) bg wakes := by
  obtain ⟨n, hlen⟩ : ∃ n, jobs.length = n + 1 := ⟨jobs.length - 1, by omega⟩
  have e : jobs.length - 1 = n := by omega
  rw [e] at hscan
  have hp : resume_pick K jobs j = .ok (k : Int) := by
    simp [resume_pick, hj, hlen, hscan]
  simp only [resumejob, hp, resume_pick_explicit]

/-- C9 (amended): with no explicit index (`j < 0`) on a table with
`njobmax >= 1`: if `k >= 1` is the highest index whose job is not `FINISHED`,
`resumejob` does exactly what `resumejob(k)` does; if no slot of index `>= 1`
holds a job that is not `FINISHED`, the index falls to 0 and, slot 0 being
`FINISHED` too, `resumejob` returns false with the table unchanged and no call
made. -/
theorem C9_resumejob_default_is_highest_unfinished (K : Header) (S : Session)
    (jobs : List job_t) (j : Int) (bg : Int) (wakes : List Wake) (hj : j < 0)
    (hn : 0 < jobs.length) :
    (∀ (k : Nat) (job : job_t), 1 ≤ k → jobs[k]? = some job →
      job.state ≠ K.FINISHED →
      (∀ i, i < jobs.length → k < i → slot_state jobs i = some K.FINISHED) →
      resumejob K S jobs j bg wakes = resumejob K S jobs (k : Int) bg wakes) ∧
    ((∀ i, i < jobs.length → 1 ≤ i → slot_state jobs i = some K.FINISHED) →
      slot_state jobs 0 = some K.FINISHED →
      resumejob K S jobs j bg wakes = .ok (false, jobs, [])) := by
  constructor
  · intro k job hk hjob hs hlater
    have hlt : k < jobs.length := (List.getElem?_eq_some.mp hjob).1
    exact resumejob_default K S jobs j bg wakes k hj
      (resume_scan_hit K jobs k job hk hjob hs (jobs.length - 1) (by omega) (by omega) hlater)
      hn
  · intro hbg h0
    rw [resumejob_default K S jobs j bg wakes 0 hj
      (resume_scan_miss K jobs (jobs.length - 1) (by omega) hbg) hn]
    exact resumejob_refuses K S jobs 0 bg wakes (Or.inr h0)

theorem C9_resumejob_default_is_highest_unfinished_witness :
    ((-1 : Int) < 0) ∧ 0 < table_bg.length ∧
    (∀ i, i < table_bg.length → 1 < i → slot_state table_bg i = some linux_h.FINISHED) ∧
    resumejob linux_h session0 table_bg (-1) 1 []
      = .ok (true, table_bg,
          [ .kill (-11) .SIGCONT,
            .msg "[%d] continue '%s'\n" [.int 1, .str (some "sleep 9")] ]) ∧
    resumejob linux_h session0 table_bg (-1) 1 []
      = resumejob linux_h session0 table_bg ((1 : Nat) : Int) 1 [] :=
  ⟨by decide, by decide, by decide, rfl,
   (C9_resumejob_default_is_highest_unfinished linux_h session0 table_bg (-1) 1 []
      (by decide) (by decide)).1 1 _ (by decide) rfl (by decide) (by decide)⟩

/-- C9 (counterexample): in `table_busy` no slot of index `>= 1` holds a job
that is not `FINISHED`, and slot 0 holds a running job. Called without an
index, `resumejob` takes slot 0: with `bg = 1` it returns true, not false, and
with `bg = 0` it goes on to `movejob(0, 0)`, whose assertion fails. -/
theorem C9_resumejob_default_takes_busy_slot_0 :
    (∀ i, i < table_busy.length → 1 ≤ i →
      slot_state table_busy i = some linux_h.FINISHED) ∧
    resumejob linux_h session0 table_busy (-1) 1 [] = .ok (true, table_busy, []) ∧
    resumejob linux_h session0 table_busy (-1) 0 [] = .error Fault.assert_failed :=
  ⟨by decide, rfl, rfl⟩

/-- C10 (amended): for an index inside the table whose job is not `FINISHED`,
`resumejob(j, bg = 1)` returns true and leaves the table unchanged; if the job
is `STOPPED` its calls are exactly `kill(-pgid, SIGCONT)` and the line
`"[%d] continue '%s'\n"` with `j` and the command; if the job is not `STOPPED`
it makes no call at all. No terminal call is made in either case. -/
theorem C10_resumejob_background_continues_stopped (K : Header) (S : Session)
    (jobs : List job_t) (j : Nat) (wakes : List Wake) (job : job_t)
    (hj : jobs[j]? = some job) (hs : job.state ≠ K.FINISHED) :
    (job.state = K.STOPPED →
      resumejob K S jobs (j : Int) 1 wakes = .ok (true, jobs,
        [ Event.kill (-job.pgid) .SIGCONT,
          Event.msg "[%d] continue '%s'\n" [.int j, .str job.command] ])) ∧
    (job.state ≠ K.STOPPED →
      resumejob K S jobs (j : Int) 1 wakes = .ok (true, jobs, [])) := by
  rw [resumejob_live K S jobs j 1 wakes job hj hs]
  constructor
  · intro h
    simp [h]
  · intro h
    simp [h]

theorem C10_resumejob_background_continues_stopped_witness :
    (table_bg[1]? = some
      { pgid := 11, proc := [⟨11, 2, -1⟩], tmodes := 3, state := 2,
        command := some "sleep 9" }) ∧
    (2 : Int) ≠ linux_h.FINISHED ∧ (2 : Int) = linux_h.STOPPED ∧
    resumejob linux_h session0 table_bg ((1 : Nat) : Int) 1 [] = .ok (true, table_bg,
      [ Event.kill (-11) .SIGCONT,
        Event.msg "[%d] continue '%s'\n" [.int 1, .str (some "sleep 9")] ]) :=
  ⟨rfl, by decide, by decide,
   (C10_resumejob_background_continues_stopped linux_h session0 table_bg 1 [] _ rfl
      (by decide)).1 (by decide)⟩

/-- C10 (counterexample): `sleep 5` is `RUNNING` in slot 1, so it is in range
and not `FINISHED`; `resumejob(1, bg = 1)` returns true without sending
`SIGCONT` and without printing the `continue` line. -/
theorem C10_resumejob_background_running_job_gets_nothing :
    slot_state table_run 1 = some linux_h.RUNNING ∧
    linux_h.RUNNING ≠ linux_h.FINISHED ∧
    resumejob linux_h session0 table_run ((1 : Nat) : Int) 1 [] = .ok (true, table_run, []) :=
  ⟨by decide, by decide, rfl⟩

/-! ## Theorems: the lines of `watchjobs` -/

theorem jobstate_slot_status (K : Header) (job : job_t)
    (hw : watchable_slot K job) (hp : job.pgid ≠ 0) :
    jobstate_slot K job = .ok (job.state,
      if job.state = K.FINISHED then some (last_status job) else none,
      reaped K job) := by
  unfold jobstate_slot reaped last_status
  by_cases hf : job.state = K.FINISHED
  · have hne : job.proc ≠ [] := (hw hp).2 hf
    cases hq : job.proc.getLast? with
    | none => exact absurd (List.getLast?_eq_none_iff.mp hq) hne
    | some p => simp [hf, hp, exitcode, hq, deljob]
  · simp [hf]

theorem watch_report_all (K : Header) (j : Nat) (job : job_t) (cmd : String)
    (hFR : K.FINISHED ≠ K.RUNNING) (hFS : K.FINISHED ≠ K.STOPPED)
    (hRS : K.RUNNING ≠ K.STOPPED)
    (hWE : ∀ s, K.WIFEXITED s = decide (Int.land s 0x7f = 0))
    (hES : ∀ s, K.WEXITSTATUS s = Int.land (s >>> 8) 0xff)
    (hTS : ∀ s, K.WTERMSIG s = Int.land s 0x7f)
    (hc : job.command = some cmd)
    (h3 : job.state = K.RUNNING ∨ job.state = K.STOPPED ∨ job.state = K.FINISHED) :
    watch_report K K.ALL j cmd job.state
        (if job.state = K.FINISHED then some (last_status job) else none)
      = [report_line K j job] := by
  have hRF : K.RUNNING ≠ K.FINISHED := fun h => hFR h.symm
  have hSF : K.STOPPED ≠ K.FINISHED := fun h => hFS h.symm
  have hSR : K.STOPPED ≠ K.RUNNING := fun h => hRS h.symm
  rcases h3 with h | h | h
  · simp [watch_report, report_line, h, hRF, hRS, hc]
  · simp [watch_report, report_line, h, hSF, hSR, hc]
  · by_cases he : Int.land (last_status job) 0x7f = 0
    · simp [watch_report, report_line, h, hFR, hFS, hc, hWE, hES, he]
    · simp [watch_report, report_line, h, hFR, hFS, hc, hWE, hTS, he]

theorem watch_report_finished (K : Header) (j : Nat) (job : job_t) (cmd : String)
    (hFR : K.FINISHED ≠ K.RUNNING) (hFS : K.FINISHED ≠ K.STOPPED)
    (hALL : K.ALL ≠ K.FINISHED)
    (hWE : ∀ s, K.WIFEXITED s = decide (Int.land s 0x7f = 0))
    (hES : ∀ s, K.WEXITSTATUS s = Int.land (s >>> 8) 0xff)
    (hTS : ∀ s, K.WTERMSIG s = Int.land s 0x7f)
    (hc : job.command = some cmd) :
    watch_report K K.FINISHED j cmd job.state
        (if job.state = K.FINISHED then some (last_status job) else none)
      = if job.state = K.FINISHED then [report_line K j job] else [] := by
  have hFA : K.FINISHED ≠ K.ALL := fun h => hALL h.symm
  by_cases h : job.state = K.FINISHED
  · by_cases he : Int.land (last_status job) 0x7f = 0
    · simp [watch_report, report_line, h, hFR, hFS, hFA, hc, hWE, hES, he]
    · simp [watch_report, report_line, h, hFR, hFS, hFA, hc, hWE, hTS, he]
  · simp [watch_report, h, hFA]

theorem watch_slots_all (K : Header)
    (hFR : K.FINISHED ≠ K.RUNNING) (hFS : K.FINISHED ≠ K.STOPPED)
    (hRS : K.RUNNING ≠ K.STOPPED)
    (hWE : ∀ s, K.WIFEXITED s = decide (Int.land s 0x7f = 0))
    (hES : ∀ s, K.WEXITSTATUS s = Int.land (s >>> 8) 0xff)
    (hTS : ∀ s, K.WTERMSIG s = Int.land s 0x7f)
    (l : List job_t) (j : Nat)
    (hw : ∀ job ∈ l, watchable_slot K job)
    (h3 : ∀ job ∈ l, job.pgid ≠ 0 →
      job.state = K.RUNNING ∨ job.state = K.STOPPED ∨ job.state = K.FINISHED) :
    watch_slots K K.ALL l j = .ok (l.map (reaped K), report_all K l j) := by
  induction l generalizing j with
  | nil => rfl
  | cons a rest ih =>
    have hrec := ih (j + 1) (fun job hjob => hw job (List.mem_cons_of_mem _ hjob))
      (fun job hjob => h3 job (List.mem_cons_of_mem _ hjob))
    by_cases hp : a.pgid = 0
    · simp [watch_slots, hp, hrec, report_all, reaped_free K a hp]
    · have hwa := hw a (List.mem_cons_self _ _)
      cases hc : a.command with
      | none => exact absurd hc (hwa hp).1
      | some cmd =>
        have hrep := watch_report_all K j a cmd hFR hFS hRS hWE hES hTS hc
          (h3 a (List.mem_cons_self _ _) hp)
        simp [watch_slots, hp, hc, jobstate_slot_status K a hwa hp, hrec, hrep, report_all]

theorem watch_slots_finished (K : Header)
    (hFR : K.FINISHED ≠ K.RUNNING) (hFS : K.FINISHED ≠ K.STOPPED)
    (hALL : K.ALL ≠ K.FINISHED)
    (hWE : ∀ s, K.WIFEXITED s = decide (Int.land s 0x7f = 0))
    (hES : ∀ s, K.WEXITSTATUS s = Int.land (s >>> 8) 0xff)
    (hTS : ∀ s, K.WTERMSIG s = Int.land s 0x7f)
    (l : List job_t) (j : Nat)
    (hw : ∀ job ∈ l, watchable_slot K job) :
    watch_slots K K.FINISHED l j = .ok (l.map (reaped K), report_finished K l j) := by
  induction l generalizing j with
  | nil => rfl
  | cons a rest ih =>
    have hrec := ih (j + 1) (fun job hjob => hw job (List.mem_cons_of_mem _ hjob))
    by_cases hp : a.pgid = 0
    · simp [watch_slots, hp, hrec, report_finished, reaped_free K a hp]
    · have hwa := hw a (List.mem_cons_self _ _)
      cases hc : a.command with
      | none => exact absurd hc (hwa hp).1
      | some cmd =>
        have hrep := watch_report_finished K j a cmd hFR hFS hALL hWE hES hTS hc
        by_cases hf : a.state = K.FINISHED
        · simp only [hf, if_true] at hrep
          simp [watch_slots, hp, hc, jobstate_slot_status K a hwa hp, hrec, hrep,
            report_finished, hf]
        · simp only [hf, if_false] at hrep
          simp [watch_slots, hp, hc, jobstate_slot_status K a hwa hp, hrec, hrep,
            report_finished, hf]

theorem report_all_length (K : Header) (l : List job_t) (j : Nat) :
    (report_all K l j).length = (l.filter (fun job => decide (job.pgid ≠ 0))).length := by
  induction l generalizing j with
  | nil => rfl
  | cons a rest ih =>
    by_cases hp : a.pgid = 0
    · simp [report_all, hp, ih]
    · simp [report_all, hp, ih]

/-- C11: on a table whose occupied background slots hold a command text, one
of the three states and, when finished, at least one process, with the status
macros being the bit tests of the claim: `watchjobs(ALL)` returns and its
output is exactly one line for every occupied background slot, in ascending
order of the index, chosen by the state of the job as `report_line` says;
`watchjobs(FINISHED)` returns and its output is exactly the lines of the
finished jobs. -/
theorem C11_watchjobs_lines (K : Header) (jobs : List job_t)
    (hFR : K.FINISHED ≠ K.RUNNING) (hFS : K.FINISHED ≠ K.STOPPED)
    (hRS : K.RUNNING ≠ K.STOPPED) (hALL : K.ALL ≠ K.FINISHED)
    (hWE : ∀ s, K.WIFEXITED s = decide (Int.land s 0x7f = 0))
    (hES : ∀ s, K.WEXITSTATUS s = Int.land (s >>> 8) 0xff)
    (hTS : ∀ s, K.WTERMSIG s = Int.land s 0x7f)
    (hw : watchable K jobs) (h3 : three_states K jobs) :
    (∃ jobs1, watchjobs K jobs K.ALL = .ok (jobs1, report_all K (jobs.drop BG) BG)) ∧
    (report_all K (jobs.drop BG) BG).length
      = ((jobs.drop BG).filter (fun job => decide (job.pgid ≠ 0))).length ∧
    (∃ jobs1, watchjobs K jobs K.FINISHED
      = .ok (jobs1, report_finished K (jobs.drop BG) BG)) := by
  refine ⟨⟨jobs.take BG ++ (jobs.drop BG).map (reaped K), ?_⟩, report_all_length K _ BG,
    ⟨jobs.take BG ++ (jobs.drop BG).map (reaped K), ?_⟩⟩
  · unfold watchjobs
    rw [watch_slots_all K hFR hFS hRS hWE hES hTS (jobs.drop BG) BG hw h3]
  · unfold watchjobs
    rw [watch_slots_finished K hFR hFS hALL hWE hES hTS (jobs.drop BG) BG hw]

theorem C11_watchjobs_lines_witness :
    watchable bits_h table_run ∧ three_states bits_h table_run ∧
    watchjobs bits_h table_run bits_h.ALL
      = .ok (table_run, [.msg "[%d] running '%s'\n" [.int 1, .str (some "sleep 5")]]) ∧
    render (.msg "[%d] running '%s'\n" [.int 1, .str (some "sleep 5")])
      = "[1] running 'sleep 5'\n" ∧
    sigchld_handler bits_h table_run [(30, 0)]
      = [ zero_job,
          { pgid := 30, proc := [⟨30, 0, 0⟩], tmodes := 1, state := 0,
            command := some "sleep 5" } ] ∧
    watchjobs bits_h (sigchld_handler bits_h table_run [(30, 0)]) bits_h.FINISHED
      = .ok ([ zero_job,
               { pgid := 0, proc := [], tmodes := 1, state := 0, command := none } ],
             [.printf "[%d] exited '%s', status=%d\n"
               [.int 1, .str (some "sleep 5"), .int 0]]) ∧
    render (.printf "[%d] exited '%s', status=%d\n" [.int 1, .str (some "sleep 5"), .int 0])
      = "[1] exited 'sleep 5', status=0\n" ∧
    ((∃ jobs1, watchjobs bits_h table_run bits_h.ALL
        = .ok (jobs1, report_all bits_h (table_run.drop BG) BG)) ∧
     (report_all bits_h (table_run.drop BG) BG).length
        = ((table_run.drop BG).filter (fun job => decide (job.pgid ≠ 0))).length ∧
     (∃ jobs1, watchjobs bits_h table_run bits_h.FINISHED
        = .ok (jobs1, report_finished bits_h (table_run.drop BG) BG))) :=
  ⟨by decide, by decide, rfl, by decide, by decide, rfl, by decide,
   C11_watchjobs_lines bits_h table_run (by decide) (by decide) (by decide) (by decide)
     (fun _ => rfl) (fun _ => rfl) (fun _ => rfl) (by decide) (by decide)⟩

/-! ## Theorems: `deljob` followed by `allocjob` -/

/-- C12: slot `k >= 1` holds a `FINISHED` job. `deljob` on it succeeds and
leaves the slot free, without processes and without command text; the other
slots are unchanged; the next `allocjob` does not grow the table and returns an
index between 1 and `k`, and exactly `k` when no background slot below `k` was
free. -/
theorem C12_deleted_slot_is_reused (K : Header) (jobs : List job_t) (k : Nat)
    (job : job_t) (hk : 1 ≤ k) (hj : jobs[k]? = some job)
    (hs : job.state = K.FINISHED) :
    ∃ d, deljob K job = .ok d ∧ d.pgid = 0 ∧ d.proc = [] ∧ d.command = none ∧
      (∀ (i : Nat), i ≠ k → (jobs.set k d)[i]? = jobs[i]?) ∧
      free_at (jobs.set k d) k ∧
      (allocjob (jobs.set k d)).2 = jobs.set k d ∧
      (jobs.set k d).length = jobs.length ∧
      1 ≤ (allocjob (jobs.set k d)).1 ∧ (allocjob (jobs.set k d)).1 ≤ k ∧
      ((∀ i, 1 ≤ i → i < k → ¬ free_at jobs i) → (allocjob (jobs.set k d)).1 = k) := by
  have hlt : k < jobs.length := (List.getElem?_eq_some.mp hj).1
  have hfree : free_at (jobs.set k { job with pgid := 0, command := none, proc := [] }) k :=
    ⟨_, List.getElem?_set_self hlt, rfl⟩
  have hother : ∀ (i : Nat), i ≠ k →
      (jobs.set k { job with pgid := 0, command := none, proc := [] })[i]? = jobs[i]? :=
    fun i hi => List.getElem?_set_ne (fun h => hi h.symm)
  obtain ⟨h1, hfound, _⟩ := allocjob_cases
    (jobs.set k { job with pgid := 0, command := none, proc := [] }) (by simp; omega)
  obtain ⟨e, hf, hmin⟩ := hfound ⟨k, hk, hfree⟩
  have hle : (allocjob (jobs.set k
      { job with pgid := 0, command := none, proc := [] })).1 ≤ k := by
    by_contra hc
    exact hmin k hk (by omega) hfree
  refine ⟨{ job with pgid := 0, command := none, proc := [] }, by simp [deljob, hs],
    rfl, rfl, rfl, hother, hfree, e, by simp, h1, hle, ?_⟩
  intro hlow
  by_contra hne
  have hlt2 : (allocjob (jobs.set k
      { job with pgid := 0, command := none, proc := [] })).1 < k := by omega
  obtain ⟨jb, hjb, hz⟩ := hf
  rw [hother _ (by omega)] at hjb
  exact hlow _ h1 hlt2 ⟨jb, hjb, hz⟩

theorem C12_deleted_slot_is_reused_witness :
    (1 ≤ 3) ∧
    (table_bg[3]? = some
      { pgid := 13, proc := [⟨13, 0, 256⟩], tmodes := 0, state := 0,
        command := some "cat" }) ∧
    (0 : Int) = linux_h.FINISHED ∧
    allocjob (table_bg.set 3
      { pgid := 0, proc := [], tmodes := 0, state := 0, command := none })
      = (2, table_bg.set 3
          { pgid := 0, proc := [], tmodes := 0, state := 0, command := none }) ∧
    ∃ d, deljob linux_h
        { pgid := 13, proc := [⟨13, 0, 256⟩], tmodes := 0, state := 0,
          command := some "cat" } = .ok d ∧
      d.pgid = 0 ∧ d.proc = [] ∧ d.command = none ∧
      (∀ (i : Nat), i ≠ 3 → (table_bg.set 3 d)[i]? = table_bg[i]?) ∧
      free_at (table_bg.set 3 d) 3 ∧
      (allocjob (table_bg.set 3 d)).2 = table_bg.set 3 d ∧
      (table_bg.set 3 d).length = table_bg.length ∧
      1 ≤ (allocjob (table_bg.set 3 d)).1 ∧ (allocjob (table_bg.set 3 d)).1 ≤ 3 ∧
      ((∀ i, 1 ≤ i → i < 3 → ¬ free_at table_bg i) →
        (allocjob (table_bg.set 3 d)).1 = 3) :=
  ⟨by decide, rfl, rfl, by decide,
   C12_deleted_slot_is_reused linux_h table_bg 3 _ (by decide) rfl rfl⟩

/-! ## Theorems: one notification -/

theorem update_first_none (pid : Int) (f : proc_t → proc_t) (l : List proc_t)
    (h : ∀ p ∈ l, p.pid ≠ pid) : update_first pid f l = l := by
  induction l with
  | nil => rfl
  | cons a rest ih =>
    have ha : a.pid ≠ pid := h a (List.mem_cons_self _ _)
    rw [update_first, if_neg ha, ih (fun p hp => h p (List.mem_cons_of_mem _ hp))]

theorem update_first_append_left (pid : Int) (f : proc_t → proc_t) (a b : List proc_t)
    (h : ∃ p ∈ a, p.pid = pid) :
    update_first pid f (a ++ b) = update_first pid f a ++ b := by
  induction a with
  | nil =>
    obtain ⟨p, hp, _⟩ := h
    simp at hp
  | cons x rest ih =>
    by_cases hx : x.pid = pid
    · simp [update_first, hx]
    · obtain ⟨p, hp, hpid⟩ := h
      rcases List.mem_cons.mp hp with rfl | hmem
      · exact absurd hpid hx
      · simp [update_first, hx, ih ⟨p, hmem, hpid⟩]

theorem update_first_append_right (pid : Int) (f : proc_t → proc_t) (a b : List proc_t)
    (h : ∀ p ∈ a, p.pid ≠ pid) :
    update_first pid f (a ++ b) = a ++ update_first pid f b := by
  induction a with
  | nil => rfl
  | cons x rest ih =>
    have hx : x.pid ≠ pid := h x (List.mem_cons_self _ _)
    simp [update_first, hx, ih (fun p hp => h p (List.mem_cons_of_mem _ hp))]

theorem update_first_set (pid : Int) (f : proc_t → proc_t) (l : List proc_t) (k : Nat)
    (p : proc_t) (hk : l[k]? = some p) (hp : p.pid = pid)
    (hfirst : ∀ (i : Nat) (q : proc_t), i < k → l[i]? = some q → q.pid ≠ pid) :
    update_first pid f l = l.set k (f p) := by
  induction l generalizing k with
  | nil => simp at hk
  | cons a rest ih =>
    cases k with
    | zero =>
      simp at hk
      subst hk
      simp [update_first, hp]
    | succ k =>
      have ha : a.pid ≠ pid := hfirst 0 a (by omega) (by simp)
      rw [List.getElem?_cons_succ] at hk
      rw [update_first, if_neg ha, List.set_cons_succ,
        ih k hk (fun i q hi hq => hfirst (i + 1) q (by omega) (by simpa using hq))]

theorem mark_procs_none (K : Header) (pid status : Int) (ps : List proc_t)
    (h : ∀ p ∈ ps, p.pid ≠ pid) : mark_procs K pid status ps = none := by
  induction ps with
  | nil => rfl
  | cons a rest ih =>
    have ha : ¬ pid = a.pid := fun e => h a (List.mem_cons_self _ _) e.symm
    rw [mark_procs, if_neg ha, ih (fun p hp => h p (List.mem_cons_of_mem _ hp))]

theorem mark_procs_some (K : Header) (pid status : Int) (ps : List proc_t)
    (h : ∃ p ∈ ps, p.pid = pid) :
    ∃ st, mark_procs K pid status ps
      = some (update_first pid (fun p => (on_status K status p).1) ps, st) := by
  induction ps with
  | nil =>
    obtain ⟨p, hp, _⟩ := h
    simp at hp
  | cons a rest ih =>
    by_cases ha : pid = a.pid
    · exact ⟨(on_status K status a).2, by simp [mark_procs, update_first, ha]⟩
    · have ha2 : ¬ a.pid = pid := fun e => ha e.symm
      obtain ⟨p, hp, hpid⟩ := h
      rcases List.mem_cons.mp hp with rfl | hmem
      · exact absurd hpid ha2
      · obtain ⟨st, hst⟩ := ih ⟨p, hmem, hpid⟩
        exact ⟨st, by simp [mark_procs, update_first, ha, ha2, hst]⟩

theorem all_procs_cons (job : job_t) (rest : List job_t) :
    all_procs (job :: rest) = job.proc ++ all_procs rest := by
  simp [all_procs]

theorem mark_jobs_all_procs (K : Header) (pid status : Int) (jobs : List job_t) :
    all_procs (mark_jobs K pid status jobs)
      = update_first pid (fun p => (on_status K status p).1) (all_procs jobs) := by
  induction jobs with
  | nil => rfl
  | cons job rest ih =>
    by_cases h : ∃ p ∈ job.proc, p.pid = pid
    · obtain ⟨st, hst⟩ := mark_procs_some K pid status job.proc h
      rw [mark_jobs, hst, all_procs_cons, all_procs_cons, update_first_append_left _ _ _ _ h]
    · have hno : ∀ p ∈ job.proc, p.pid ≠ pid := fun p hp e => h ⟨p, hp, e⟩
      rw [mark_jobs, mark_procs_none K pid status job.proc hno, all_procs_cons,
        all_procs_cons, update_first_append_right _ _ _ _ hno, ih]

theorem refresh_all_procs (K : Header) (jobs : List job_t) :
    all_procs (jobs.map (refresh_job K)) = all_procs jobs := by
  induction jobs with
  | nil => rfl
  | cons job rest ih =>
    rw [List.map_cons, all_procs_cons, all_procs_cons, ih, refresh_job_proc]

theorem on_child_all_procs (K : Header) (jobs : List job_t) (pid status : Int) :
    all_procs (on_child K jobs pid status)
      = update_first pid (fun p => (on_status K status p).1) (all_procs jobs) := by
  rw [on_child, refresh_all_procs, mark_jobs_all_procs]

theorem refresh_job_fixed (K : Header) (job : job_t) :
    fixed_fields (refresh_job K job) = fixed_fields job := by
  unfold refresh_job fixed_fields
  split
  · rfl
  · split <;> rfl

theorem mark_jobs_fixed (K : Header) (pid status : Int) (jobs : List job_t) :
    (mark_jobs K pid status jobs).map fixed_fields = jobs.map fixed_fields := by
  induction jobs with
  | nil => rfl
  | cons a rest ih =>
    cases hr : mark_procs K pid status a.proc with
    | none => simp [mark_jobs, hr, ih]
    | some r =>
      obtain ⟨qs, st⟩ := r
      simp [mark_jobs, hr, fixed_fields, mark_procs_length K pid status a.proc qs st hr]

theorem on_child_fixed (K : Header) (jobs : List job_t) (pid status : Int) :
    (on_child K jobs pid status).map fixed_fields = jobs.map fixed_fields := by
  rw [← mark_jobs_fixed K pid status jobs]
  simp [on_child, Function.comp_def, refresh_job_fixed]

/-- C15: `sigchld_handler` on one notification `(pid, status)` (`pid > 0`, as
`waitpid` returned it). The pgid, saved terminal modes, command text and number
of processes of every slot are unchanged. If a record of the table has this
pid, the records afterwards are the old ones with only the first such record
(in slot order) replaced by `on_status` of it: `STOPPED` for a stop, `FINISHED`
with `exitcode = status` for an exit or a death by signal, `RUNNING` for a
continue. If no record has this pid, the records are unchanged. -/
theorem C15_handler_updates_first_matching_record (K : Header) (jobs : List job_t)
    (pid status : Int) (hpid : 0 < pid) :
    (sigchld_handler K jobs [(pid, status)]).map fixed_fields = jobs.map fixed_fields ∧
    (∀ (k : Nat) (p : proc_t), (all_procs jobs)[k]? = some p → p.pid = pid →
      (∀ (i : Nat) (q : proc_t), i < k → (all_procs jobs)[i]? = some q → q.pid ≠ pid) →
      all_procs (sigchld_handler K jobs [(pid, status)])
        = (all_procs jobs).set k (on_status K status p).1) ∧
    ((∀ p ∈ all_procs jobs, p.pid ≠ pid) →
      all_procs (sigchld_handler K jobs [(pid, status)]) = all_procs jobs) ∧
    (∀ p : proc_t, K.WIFSTOPPED status = true →
      (on_status K status p).1 = { p with state := K.STOPPED }) ∧
    (∀ p : proc_t, K.WIFSTOPPED status = false →
      (K.WIFEXITED status = true ∨ K.WIFSIGNALED status = true) →
      (on_status K status p).1 = { p with state := K.FINISHED, exitcode := status }) ∧
    (∀ p : proc_t, K.WIFSTOPPED status = false → K.WIFEXITED status = false →
      K.WIFSIGNALED status = false → K.WIFCONTINUED status = true →
      (on_status K status p).1 = { p with state := K.RUNNING }) := by
  have hh : sigchld_handler K jobs [(pid, status)] = on_child K jobs pid status := by
    simp [sigchld_handler, hpid]
  rw [hh]
  refine ⟨on_child_fixed K jobs pid status, ?_, ?_, ?_, ?_, ?_⟩
  · intro k p hk hp hfirst
    rw [on_child_all_procs]
    exact update_first_set pid _ _ k p hk hp hfirst
  · intro hno
    rw [on_child_all_procs]
    exact update_first_none pid _ _ hno
  · intro p h
    simp [on_status, h]
  · intro p h1 h2
    rcases h2 with h2 | h2
    · simp [on_status, h1, h2]
    · by_cases h3 : K.WIFEXITED status = true
      · simp [on_status, h1, h3]
      · simp [on_status, h1, h2, h3]
  · intro p h1 h2 h3 h4
    simp [on_status, h1, h2, h3, h4]

theorem C15_handler_updates_first_matching_record_witness :
    ((0 : Int) < 8) ∧
    all_procs table_C1 = [⟨7, 1, -1⟩, ⟨8, 1, -1⟩] ∧
    all_procs (sigchld_handler linux_h table_C1 [(8, 4991)])
      = [⟨7, 1, -1⟩, ⟨8, 2, -1⟩] ∧
    all_procs (sigchld_handler linux_h table_C1 [(8, 4991)])
      = (all_procs table_C1).set 1 (on_status linux_h 4991 ⟨8, 1, -1⟩).1 ∧
    (sigchld_handler linux_h table_C1 [(8, 4991)]).map fixed_fields
      = table_C1.map fixed_fields :=
  ⟨by decide, by decide, by decide,
   (C15_handler_updates_first_matching_record linux_h table_C1 8 4991 (by decide)).2.1
     1 ⟨8, 1, -1⟩ (by decide) rfl
     (by
       intro i q hi hq
       have hi0 : i = 0 := by omega
       subst hi0
       have h0 : (all_procs table_C1)[0]? = some ⟨7, 1, -1⟩ := by decide
       rw [h0] at hq
       injection hq with hq
       subst hq
       decide),
   (C15_handler_updates_first_matching_record linux_h table_C1 8 4991 (by decide)).1⟩

/-! ## Theorems: finished records -/

theorem update_first_keeps (pid : Int) (f : proc_t → proc_t) (l : List proc_t) (j : Nat)
    (p : proc_t) (hj : l[j]? = some p) (hp : p.pid ≠ pid) :
    (update_first pid f l)[j]? = some p := by
  induction l generalizing j with
  | nil => simp at hj
  | cons a rest ih =>
    cases j with
    | zero =>
      simp at hj
      subst hj
      simp [update_first, hp]
    | succ j =>
      rw [List.getElem?_cons_succ] at hj
      by_cases ha : a.pid = pid
      · simp [update_first, ha, hj]
      · simp [update_first, ha, ih j hj]

theorem mark_procs_keeps (K : Header) (pid status : Int) (ps qs : List proc_t) (st : Bool)
    (h : mark_procs K pid status ps = some (qs, st)) (j : Nat) (p : proc_t)
    (hj : ps[j]? = some p) (hp : p.pid ≠ pid) : qs[j]? = some p := by
  by_cases hex : ∃ q ∈ ps, q.pid = pid
  · obtain ⟨st2, hst⟩ := mark_procs_some K pid status ps hex
    rw [hst] at h
    injection h with h
    injection h with h1 _
    rw [← h1]
    exact update_first_keeps pid _ ps j p hj hp
  · rw [mark_procs_none K pid status ps (fun q hq e => hex ⟨q, hq, e⟩)] at h
    exact absurd h (by simp)

theorem mark_jobs_keeps (K : Header) (pid status : Int) (jobs : List job_t) (i j : Nat)
    (job : job_t) (p : proc_t) (hi : jobs[i]? = some job) (hj : job.proc[j]? = some p)
    (hp : p.pid ≠ pid) :
    ∃ job1, (mark_jobs K pid status jobs)[i]? = some job1 ∧ job1.proc[j]? = some p := by
  induction jobs generalizing i with
  | nil => simp at hi
  | cons a rest ih =>
    cases hr : mark_procs K pid status a.proc with
    | none =>
      cases i with
      | zero =>
        simp at hi
        subst hi
        exact ⟨a, by simp [mark_jobs, hr], hj⟩
      | succ i =>
        rw [List.getElem?_cons_succ] at hi
        obtain ⟨job1, h1, h2⟩ := ih i hi
        exact ⟨job1, by simp [mark_jobs, hr, h1], h2⟩
    | some r =>
      obtain ⟨qs, st⟩ := r
      cases i with
      | zero =>
        simp at hi
        subst hi
        exact ⟨{ a with proc := qs, state := if st then K.STOPPED else a.state },
          by simp [mark_jobs, hr], mark_procs_keeps K pid status a.proc qs st hr j p hj hp⟩
      | succ i =>
        rw [List.getElem?_cons_succ] at hi
        exact ⟨job, by simp [mark_jobs, hr, hi], hj⟩

theorem on_child_keeps (K : Header) (pid status : Int) (jobs : List job_t) (i j : Nat)
    (job : job_t) (p : proc_t) (hi : jobs[i]? = some job) (hj : job.proc[j]? = some p)
    (hp : p.pid ≠ pid) :
    ∃ job1, (on_child K jobs pid status)[i]? = some job1 ∧ job1.proc[j]? = some p := by
  obtain ⟨job1, h1, h2⟩ := mark_jobs_keeps K pid status jobs i j job p hi hj hp
  refine ⟨refresh_job K job1, by simp [on_child, h1], ?_⟩
  rw [refresh_job_proc]
  exact h2

theorem sigchld_handler_keeps (K : Header) (ns : List (Int × Int)) (jobs : List job_t)
    (i j : Nat) (job : job_t) (p : proc_t) (hi : jobs[i]? = some job)
    (hj : job.proc[j]? = some p) (hns : ∀ n ∈ ns, n.1 ≠ p.pid) :
    ∃ job1, (sigchld_handler K jobs ns)[i]? = some job1 ∧ job1.proc[j]? = some p := by
  induction ns generalizing jobs job with
  | nil => exact ⟨job, hi, hj⟩
  | cons n rest ih =>
    obtain ⟨pid, status⟩ := n
    by_cases hpos : 0 < pid
    · have hne : p.pid ≠ pid := fun e => hns (pid, status) (List.mem_cons_self _ _) e.symm
      obtain ⟨job1, h1, h2⟩ := on_child_keeps K pid status jobs i j job p hi hj hne
      simp only [sigchld_handler, hpos, if_true]
      exact ih _ job1 h1 h2 (fun n hn => hns n (List.mem_cons_of_mem _ hn))
    · simp only [sigchld_handler, hpos, if_false]
      exact ⟨job, hi, hj⟩

/-- C16 (amended): a process record that is `FINISHED` is still there, in the
same slot and position, `FINISHED` and with the exit status it recorded, after
`sigchld_handler` has processed any sequence of notifications none of which
carries the pid of the record. -/
theorem C16_finished_record_kept_without_its_pid (K : Header) (jobs : List job_t)
    (ns : List (Int × Int)) (i j : Nat) (job : job_t) (p : proc_t)
    (hi : jobs[i]? = some job) (hj : job.proc[j]? = some p)
    (hf : p.state = K.FINISHED) (hns : ∀ n ∈ ns, n.1 ≠ p.pid) :
    ∃ job1 q, (sigchld_handler K jobs ns)[i]? = some job1 ∧ job1.proc[j]? = some q ∧
      q = p ∧ q.state = K.FINISHED ∧ q.exitcode = p.exitcode := by
  obtain ⟨job1, h1, h2⟩ := sigchld_handler_keeps K ns jobs i j job p hi hj hns
  exact ⟨job1, p, h1, h2, rfl, hf, rfl⟩

theorem C16_finished_record_kept_without_its_pid_witness :
    (table_bg[3]? = some
      { pgid := 13, proc := [⟨13, 0, 256⟩], tmodes := 0, state := 0,
        command := some "cat" }) ∧
    (0 : Int) = linux_h.FINISHED ∧
    (∀ n ∈ [((11 : Int), (65535 : Int)), (11, 15)], n.1 ≠ (13 : Int)) ∧
    ∃ job1 q, (sigchld_handler linux_h table_bg [(11, 65535), (11, 15)])[3]? = some job1 ∧
      job1.proc[0]? = some q ∧ q = ⟨13, 0, 256⟩ ∧ q.state = linux_h.FINISHED ∧
      q.exitcode = 256 :=
  ⟨rfl, rfl, by decide,
   C16_finished_record_kept_without_its_pid linux_h table_bg [(11, 65535), (11, 15)] 3 0
     _ ⟨13, 0, 256⟩ rfl rfl rfl (by decide)⟩

/-- C16 (counterexample): the record of pid 13 in `table_bg` is `FINISHED` with
exit status 256. A stop notification that carries pid 13 makes it `STOPPED`,
and an exit notification with status 0 that carries pid 13 replaces the
recorded status by 0. -/
theorem C16_notification_with_same_pid_overwrites_finished_record :
    all_procs table_bg = [⟨11, 2, -1⟩, ⟨13, linux_h.FINISHED, 256⟩] ∧
    all_procs (sigchld_handler linux_h table_bg [(13, 4991)])
      = [⟨11, 2, -1⟩, ⟨13, linux_h.STOPPED, 256⟩] ∧
    all_procs (sigchld_handler linux_h table_bg [(13, 0)])
      = [⟨11, 2, -1⟩, ⟨13, linux_h.FINISHED, 0⟩] :=
  ⟨by decide, by decide, by decide⟩

/-! ## Theorems: free slots are `FINISHED` -/

theorem free_finished_set (K : Header) (jobs : List job_t) (j : Nat) (x : job_t)
    (h : free_finished K jobs) (hx : x.pgid = 0 → x.state = K.FINISHED ∧ x.proc = []) :
    free_finished K (jobs.set j x) := by
  intro job hjob
  rcases List.mem_or_eq_of_mem_set hjob with hm | rfl
  · exact h job hm
  · exact hx

theorem free_finished_zero (K : Header) (hF0 : K.FINISHED = 0) :
    zero_job.pgid = 0 → zero_job.state = K.FINISHED ∧ zero_job.proc = [] :=
  fun _ => ⟨by rw [hF0]; rfl, rfl⟩

theorem free_finished_allocjob (K : Header) (hF0 : K.FINISHED = 0) (jobs : List job_t)
    (h : free_finished K jobs) : free_finished K (allocjob jobs).2 := by
  unfold allocjob
  cases allocjob_scan (jobs.drop BG) BG with
  | some k => exact h
  | none =>
    intro job hjob
    rcases List.mem_append.mp hjob with hm | hm
    · exact h job hm
    · rw [List.mem_singleton.mp hm]
      exact free_finished_zero K hF0

theorem free_finished_addjob (K : Header) (hF0 : K.FINISHED = 0) (S : Session)
    (jobs : List job_t) (pgid bg : Int) (j : Nat) (jobs1 : List job_t)
    (h : free_finished K jobs) (hp : pgid ≠ 0)
    (ha : addjob K S jobs pgid bg = .ok (j, jobs1)) : free_finished K jobs1 := by
  unfold addjob at ha
  by_cases hbg : bg ≠ 0
  · have e : (if bg ≠ 0 then allocjob jobs else (FG, jobs)) = allocjob jobs := if_pos hbg
    simp only [e] at ha
    by_cases hlt : (allocjob jobs).1 < (allocjob jobs).2.length
    · rw [if_pos hlt] at ha
      injection ha with ha
      injection ha with _ ha
      rw [← ha]
      exact free_finished_set K _ _ _ (free_finished_allocjob K hF0 jobs h)
        (fun h0 => absurd h0 hp)
    · rw [if_neg hlt] at ha
      exact absurd ha (by simp)
  · have e : (if bg ≠ 0 then allocjob jobs else (FG, jobs)) = (FG, jobs) := if_neg hbg
    simp only [e] at ha
    by_cases hlt : FG < jobs.length
    · rw [if_pos hlt] at ha
      injection ha with ha
      injection ha with _ ha
      rw [← ha]
      exact free_finished_set K _ _ _ h (fun h0 => absurd h0 hp)
    · rw [if_neg hlt] at ha
      exact absurd ha (by simp)

theorem free_finished_addproc (K : Header) (jobs : List job_t) (j : Nat) (pid : Int)
    (argv : List token_t) (job : job_t) (jobs1 : List job_t)
    (h : free_finished K jobs) (hj : jobs[j]? = some job) (hp : job.pgid ≠ 0)
    (ha : addproc K jobs j pid argv = .ok jobs1) : free_finished K jobs1 := by
  unfold addproc at ha
  rw [hj] at ha
  simp only at ha
  cases hc : mkcommand job.command argv with
  | error f => simp [hc] at ha
  | ok cmd =>
    simp only [hc] at ha
    injection ha with ha
    rw [← ha]
    exact free_finished_set K _ _ _ h (fun h0 => absurd h0 hp)

theorem free_finished_movejob (K : Header) (hF0 : K.FINISHED = 0) (jobs : List job_t)
    (src dst : Nat) (jobs1 : List job_t) (h : free_finished K jobs)
    (hm : movejob jobs src dst = .ok jobs1) : free_finished K jobs1 := by
  unfold movejob at hm
  cases hd : jobs[dst]? with
  | none => simp [hd] at hm
  | some d =>
    cases hs : jobs[src]? with
    | none => simp [hd, hs] at hm
    | some s =>
      simp only [hd, hs] at hm
      split at hm
      · injection hm with hm
        rw [← hm]
        exact free_finished_set K _ _ _
          (free_finished_set K _ _ _ h (h s (List.getElem?_mem hs)))
          (free_finished_zero K hF0)
      · exact absurd hm (by simp)

theorem free_finished_deljob (K : Header) (jobs : List job_t) (j : Nat) (job job1 : job_t)
    (h : free_finished K jobs) (hd : deljob K job = .ok job1) :
    free_finished K (jobs.set j job1) := by
  unfold deljob at hd
  split at hd
  · rename_i hs
    injection hd with hd
    rw [← hd]
    exact free_finished_set K _ _ _ h (fun _ => ⟨hs, rfl⟩)
  · exact absurd hd (by simp)

theorem mem_of_map_eq {α β : Type} (f : α → β) (l1 l2 : List α)
    (h : l1.map f = l2.map f) (a : α) (ha : a ∈ l1) : ∃ b ∈ l2, f b = f a := by
  have h1 : f a ∈ l1.map f := List.mem_map_of_mem f ha
  rw [h] at h1
  obtain ⟨b, hb, hfb⟩ := List.mem_map.mp h1
  exact ⟨b, hb, hfb⟩

theorem free_finished_on_child (K : Header) (jobs : List job_t) (pid status : Int)
    (h : free_finished K jobs) : free_finished K (on_child K jobs pid status) := by
  intro job hjob hp
  obtain ⟨b, hb, hfb⟩ := mem_of_map_eq fixed_fields _ _ (on_child_fixed K jobs pid status)
    job hjob
  simp only [fixed_fields, Prod.mk.injEq] at hfb
  obtain ⟨h1, _, _, h4⟩ := hfb
  have hb0 : b.proc = [] := (h b hb (by rw [h1]; exact hp)).2
  have hnil : job.proc = [] := by
    rw [hb0] at h4
    exact List.length_eq_zero.mp h4.symm
  refine ⟨?_, hnil⟩
  rw [on_child_rule K jobs pid status job hjob, hnil]
  rfl

theorem free_finished_handler (K : Header) (ns : List (Int × Int)) (jobs : List job_t)
    (h : free_finished K jobs) : free_finished K (sigchld_handler K jobs ns) := by
  induction ns generalizing jobs with
  | nil => exact h
  | cons n rest ih =>
    obtain ⟨pid, status⟩ := n
    by_cases hpos : 0 < pid
    · simp only [sigchld_handler, hpos, if_true]
      exact ih _ (free_finished_on_child K jobs pid status h)
    · simp only [sigchld_handler, hpos, if_false]
      exact h

theorem free_finished_jobstate (K : Header) (jobs : List job_t) (j : Nat) (state : Int)
    (status : Option Int) (jobs1 : List job_t) (h : free_finished K jobs)
    (hs : jobstate K jobs j = .ok (state, status, jobs1)) : free_finished K jobs1 := by
  unfold jobstate at hs
  cases hj : jobs[j]? with
  | none => simp [hj] at hs
  | some job =>
    simp only [hj] at hs
    unfold jobstate_slot at hs
    by_cases hf : job.state = K.FINISHED
    · simp only [hf, if_true] at hs
      cases he : exitcode job with
      | error f => simp [he] at hs
      | ok st =>
        simp only [he, deljob, hf, if_true] at hs
        injection hs with hs
        injection hs with _ hs
        injection hs with _ hs
        rw [← hs]
        exact free_finished_set K _ _ _ h (fun _ => ⟨rfl, rfl⟩)
    · simp only [hf, if_false] at hs
      injection hs with hs
      injection hs with _ hs
      injection hs with _ hs
      rw [← hs]
      exact free_finished_set K _ _ _ h (h job (List.getElem?_mem hj))

theorem free_finished_monitor_wait (K : Header) (wakes : List Wake) (jobs : List job_t)
    (ec state ec1 : Int) (jobs1 : List job_t) (tr : List Event)
    (h : free_finished K jobs)
    (hw : monitor_wait K wakes jobs ec = .ok (state, ec1, jobs1, tr)) :
    free_finished K jobs1 := by
  induction wakes generalizing jobs ec tr state ec1 jobs1 with
  | nil =>
    unfold monitor_wait at hw
    cases hj : jobstate K jobs 0 with
    | error f => simp [hj] at hw
    | ok r =>
      obtain ⟨s, st, j1⟩ := r
      simp only [hj] at hw
      split at hw
      · exact absurd hw (by simp)
      · injection hw with hw
        injection hw with _ hw
        injection hw with _ hw
        injection hw with hw _
        rw [← hw]
        exact free_finished_jobstate K jobs 0 s st j1 h hj
  | cons w ws ih =>
    unfold monitor_wait at hw
    cases hj : jobstate K jobs 0 with
    | error f => simp [hj] at hw
    | ok r =>
      obtain ⟨s, st, j1⟩ := r
      simp only [hj] at hw
      have hj1 := free_finished_jobstate K jobs 0 s st j1 h hj
      split at hw
      · cases hrec : monitor_wait K ws (sigchld_handler K j1 w) (st.getD ec) with
        | error f => simp [hrec] at hw
        | ok r2 =>
          obtain ⟨s2, e2, j2, t2⟩ := r2
          simp only [hrec] at hw
          injection hw with hw
          injection hw with _ hw
          injection hw with _ hw
          injection hw with hw _
          rw [← hw]
          exact ih _ _ _ _ _ _ (free_finished_handler K w j1 hj1) hrec
      · injection hw with hw
        injection hw with _ hw
        injection hw with _ hw
        injection hw with hw _
        rw [← hw]
        exact hj1

theorem free_finished_monitor_stopped (K : Header) (hF0 : K.FINISHED = 0) (S : Session)
    (jobs jobs1 : List job_t) (h : free_finished K jobs)
    (hm : monitor_stopped S jobs = .ok jobs1) : free_finished K jobs1 := by
  unfold monitor_stopped at hm
  cases hj : jobs[0]? with
  | none => simp [hj] at hm
  | some job0 =>
    simp only [hj] at hm
    have hj0 := h job0 (List.getElem?_mem hj)
    exact free_finished_movejob K hF0 _ _ _ _
      (free_finished_allocjob K hF0 _
        (free_finished_set K jobs 0 { job0 with tmodes := S.tty_modes } h hj0)) hm

theorem free_finished_monitorjob (K : Header) (hF0 : K.FINISHED = 0) (S : Session)
    (jobs : List job_t) (wakes : List Wake) (ec : Int) (jobs1 : List job_t)
    (tr : List Event) (h : free_finished K jobs)
    (hm : monitorjob K S jobs wakes = .ok (ec, jobs1, tr)) : free_finished K jobs1 := by
  unfold monitorjob at hm
  cases hj : jobs[0]? with
  | none => simp [hj] at hm
  | some job0 =>
    simp only [hj] at hm
    cases hw : monitor_wait K wakes jobs 0 with
    | error f => simp [hw] at hm
    | ok r =>
      obtain ⟨s, e, j1, t1⟩ := r
      simp only [hw] at hm
      have hj1 := free_finished_monitor_wait K wakes jobs 0 s e j1 t1 h hw
      split at hm
      · cases hs : monitor_stopped S j1 with
        | error f => simp [hs] at hm
        | ok j2 =>
          simp only [hs] at hm
          injection hm with hm
          injection hm with _ hm
          injection hm with hm _
          rw [← hm]
          exact free_finished_monitor_stopped K hF0 S j1 j2 hj1 hs
      · split at hm
        · injection hm with hm
          injection hm with _ hm
          injection hm with hm _
          rw [← hm]
          exact hj1
        · injection hm with hm
          injection hm with _ hm
          injection hm with hm _
          rw [← hm]
          exact hj1

theorem reachable_free_finished (K : Header) (hF0 : K.FINISHED = 0) (jobs : List job_t)
    (hr : Reachable K jobs) : free_finished K jobs := by
  induction hr with
  | init =>
    intro job hjob
    rw [List.mem_singleton.mp hjob]
    exact free_finished_zero K hF0
  | addjob S jobs pgid bg j jobs1 _ hp ha ih =>
    exact free_finished_addjob K hF0 S jobs pgid bg j jobs1 ih hp ha
  | addproc jobs j pid argv job jobs1 _ hj hp ha ih =>
    exact free_finished_addproc K jobs j pid argv job jobs1 ih hj hp ha
  | allocjob jobs _ ih => exact free_finished_allocjob K hF0 jobs ih
  | movejob jobs src dst jobs1 _ hm ih =>
    exact free_finished_movejob K hF0 jobs src dst jobs1 ih hm
  | deljob jobs j job job1 _ _ hd ih =>
    exact free_finished_deljob K jobs j job job1 ih hd
  | monitorjob S jobs wakes ec jobs1 tr _ hm ih =>
    exact free_finished_monitorjob K hF0 S jobs wakes ec jobs1 tr ih hm
  | sigchld_handler jobs ns _ ih => exact free_finished_handler K ns jobs ih

/-! ## Theorems: `shutdownjobs` -/

theorem signals_append (a b : List Event) : signals (a ++ b) = signals a ++ signals b := by
  induction a with
  | nil => rfl
  | cons e rest ih => cases e <;> simp [signals, ih]

theorem signals_replicate (m : Nat) : signals (List.replicate m Event.sigsuspend) = [] := by
  induction m with
  | zero => rfl
  | succ m ih => simp [List.replicate_succ, signals, ih]

theorem signals_watch_report (K : Header) (which : Int) (j : Nat) (cmd : String)
    (state : Int) (status : Option Int) :
    signals (watch_report K which j cmd state status) = [] := by
  unfold watch_report
  rw [signals_append]
  split_ifs <;> simp [signals]

theorem signals_watch_slots (K : Header) (which : Int) (l : List job_t) (j : Nat)
    (r : List job_t) (tr : List Event) (h : watch_slots K which l j = .ok (r, tr)) :
    signals tr = [] := by
  induction l generalizing j r tr with
  | nil =>
    simp only [watch_slots] at h
    injection h with h
    injection h with _ h
    rw [← h]
    rfl
  | cons a rest ih =>
    by_cases hp : a.pgid = 0
    · rw [watch_slots, if_pos hp] at h
      cases hr : watch_slots K which rest (j + 1) with
      | error f => simp [hr] at h
      | ok r1 =>
        obtain ⟨l1, t1⟩ := r1
        simp only [hr] at h
        injection h with h
        injection h with _ h
        rw [← h]
        exact ih (j + 1) l1 t1 hr
    · rw [watch_slots, if_neg hp] at h
      cases hc : a.command with
      | none => simp [hc] at h
      | some cmd =>
        simp only [hc] at h
        cases hs : jobstate_slot K a with
        | error f => simp [hs] at h
        | ok st =>
          obtain ⟨s1, s2, s3⟩ := st
          simp only [hs] at h
          cases hr : watch_slots K which rest (j + 1) with
          | error f => simp [hr] at h
          | ok r1 =>
            obtain ⟨l1, t1⟩ := r1
            simp only [hr] at h
            injection h with h
            injection h with _ h
            rw [← h, signals_append, signals_watch_report, ih (j + 1) l1 t1 hr]
            rfl

theorem signals_watchjobs (K : Header) (jobs : List job_t) (which : Int)
    (jobs1 : List job_t) (tr : List Event) (h : watchjobs K jobs which = .ok (jobs1, tr)) :
    signals tr = [] := by
  unfold watchjobs at h
  cases hr : watch_slots K which (jobs.drop BG) BG with
  | error f => simp [hr] at h
  | ok r1 =>
    obtain ⟨l1, t1⟩ := r1
    simp only [hr] at h
    injection h with h
    injection h with _ h
    rw [← h]
    exact signals_watch_slots K which _ BG l1 t1 hr

theorem shutdown_wait_result (K : Header) (i : Nat) (wakes : List Wake) (jobs jobs1 : List job_t)
    (tr : List Event) (left : List Wake)
    (h : shutdown_wait K i wakes jobs = .ok (jobs1, tr, left)) :
    slot_state jobs1 i = some K.FINISHED ∧
    ∃ m, tr = List.replicate m Event.sigsuspend ∧
      jobs1 = table_after K jobs (wakes.take m) ∧ left = wakes.drop m := by
  induction wakes generalizing jobs tr with
  | nil =>
    unfold shutdown_wait at h
    cases hj : jobs[i]? with
    | none => simp [hj] at h
    | some job =>
      simp only [hj] at h
      by_cases hs : job.state ≠ K.FINISHED
      · rw [if_pos hs] at h
        exact absurd h (by simp)
      · rw [if_neg hs] at h
        injection h with h
        injection h with h1 h
        injection h with h2 h3
        subst h1 h2 h3
        refine ⟨by simpa [slot_state, hj] using hs, 0, rfl, rfl, rfl⟩
  | cons w ws ih =>
    unfold shutdown_wait at h
    cases hj : jobs[i]? with
    | none => simp [hj] at h
    | some job =>
      simp only [hj] at h
      by_cases hs : job.state ≠ K.FINISHED
      · rw [if_pos hs] at h
        cases hr : shutdown_wait K i ws (sigchld_handler K jobs w) with
        | error f => simp [hr] at h
        | ok r =>
          obtain ⟨j2, t2, l2⟩ := r
          simp only [hr] at h
          injection h with h
          injection h with h1 h
          injection h with h2 h3
          subst h1 h2 h3
          obtain ⟨hfin, m, hm1, hm2, hm3⟩ := ih _ _ hr
          refine ⟨hfin, m + 1, ?_, ?_, ?_⟩
          · rw [hm1, List.replicate_succ]
          · rw [hm2]
            simp [table_after]
          · rw [hm3]
            simp
      · rw [if_neg hs] at h
        injection h with h
        injection h with h1 h
        injection h with h2 h3
        subst h1 h2 h3
        refine ⟨by simpa [slot_state, hj] using hs, 0, rfl, rfl, rfl⟩

theorem free_finished_table_after (K : Header) (wakes : List Wake) (jobs : List job_t)
    (h : free_finished K jobs) : free_finished K (table_after K jobs wakes) := by
  induction wakes generalizing jobs with
  | nil => exact h
  | cons w ws ih =>
    simp only [table_after, List.foldl_cons] at ih ⊢
    exact ih _ (free_finished_handler K w jobs h)

theorem shutdown_loop_nonzero (K : Header) (n : Nat) (i : Nat) (jobs : List job_t)
    (wakes : List Wake) (jobs1 : List job_t) (tr : List Event) (left : List Wake)
    (hinv : free_finished K jobs)
    (h : shutdown_loop K n i jobs wakes = .ok (jobs1, tr, left)) :
    free_finished K jobs1 ∧ ∀ s ∈ signals tr, s.1 ≠ 0 := by
  induction n generalizing i jobs wakes tr with
  | zero =>
    simp only [shutdown_loop] at h
    injection h with h
    injection h with h1 h
    injection h with h2 _
    subst h1 h2
    exact ⟨hinv, by simp [signals]⟩
  | succ n ih =>
    unfold shutdown_loop at h
    cases hj : jobs[i]? with
    | none => simp [hj] at h
    | some job =>
      simp only [hj] at h
      by_cases hs : job.state ≠ K.FINISHED
      · rw [if_pos hs, killjob_live K jobs i job hj hs] at h
        simp only at h
        cases hw : shutdown_wait K i wakes jobs with
        | error f => simp [hw] at h
        | ok r =>
          obtain ⟨j1, t2, l1⟩ := r
          simp only [hw] at h
          cases hl : shutdown_loop K n (i + 1) j1 l1 with
          | error f => simp [hl] at h
          | ok r2 =>
            obtain ⟨j2, t3, l2⟩ := r2
            simp only [hl] at h
            injection h with h
            injection h with h1 h
            injection h with h2 h3
            subst h1 h2 h3
            obtain ⟨_, m, hm1, hm2, _⟩ := shutdown_wait_result K i wakes jobs j1 t2 l1 hw
            have hinv1 : free_finished K j1 := by
              rw [hm2]
              exact free_finished_table_after K _ jobs hinv
            obtain ⟨hinv2, hsig⟩ := ih (i + 1) j1 l1 t3 hinv1 hl
            refine ⟨hinv2, ?_⟩
            have hp : job.pgid ≠ 0 := fun h0 => hs (hinv job (List.getElem?_mem hj) h0).1
            intro s hmem
            rw [signals_append, signals_append, hm1, signals_replicate] at hmem
            simp only [signals, List.append_nil, List.cons_append, List.nil_append,
              List.mem_cons] at hmem
            rcases hmem with rfl | rfl | hmem
            · simpa using hp
            · simpa using hp
            · exact hsig s hmem
      · rw [if_neg hs] at h
        exact ih (i + 1) jobs wakes tr hinv h

theorem killjob_free_slot (K : Header) (jobs : List job_t) (h : free_finished K jobs)
    (j : Nat) (hfree : free_at jobs j) : killjob K jobs (j : Int) = .ok (false, jobs, []) := by
  obtain ⟨job, hj, hp⟩ := hfree
  have hs := (h job (List.getElem?_mem hj) hp).1
  exact killjob_finished K jobs j (Or.inr (by simp [slot_state, hj, hs]))

theorem shutdownjobs_nonzero (K : Header) (jobs : List job_t) (h : free_finished K jobs)
    (wakes : List Wake) (jobs1 : List job_t) (tr : List Event)
    (hret : shutdownjobs K jobs wakes = .ok (jobs1, tr)) : ∀ s ∈ signals tr, s.1 ≠ 0 := by
  unfold shutdownjobs at hret
  cases hl : shutdown_loop K jobs.length 0 jobs wakes with
  | error f => simp [hl] at hret
  | ok r =>
    obtain ⟨j1, t1, l1⟩ := r
    simp only [hl] at hret
    cases hw : watchjobs K j1 K.FINISHED with
    | error f => simp [hw] at hret
    | ok r2 =>
      obtain ⟨j2, t2⟩ := r2
      simp only [hw] at hret
      injection hret with hret
      injection hret with _ hret
      rw [← hret, signals_append, signals_watchjobs K j1 K.FINISHED j2 t2 hw, List.append_nil]
      exact (shutdown_loop_nonzero K _ 0 jobs wakes j1 t1 l1 h hl).2

theorem zero_slot_signalled_unless_finished_is_zero (K : Header) (h : K.FINISHED ≠ 0) :
    killjob K initjobs (0 : Nat) = .ok (true, initjobs,
      [ .debug "[%d] killing '%s'\n" [.int (0 : Nat), .str none],
        .kill (-0) .SIGTERM, .kill (-0) .SIGCONT ]) :=
  killjob_live K initjobs 0 zero_job rfl (fun e => h e.symm)

/-- C20: the header has `FINISHED = 0` (the value `calloc` and `memset` leave
in `state`). In every job table reachable from `initjobs` through `addjob`
(with a pid that is not 0), `addproc` (on an occupied slot), `allocjob`,
`movejob`, `deljob`, `monitorjob` and `sigchld_handler`, a free slot is
`FINISHED`; so `killjob` on the index of a free slot returns false with no call
made, and no signal that `shutdownjobs` sends is addressed to group 0. -/
theorem C20_no_signal_to_group_zero (K : Header) (hF0 : K.FINISHED = 0)
    (jobs : List job_t) (hr : Reachable K jobs) :
    free_finished K jobs ∧
    (∀ (j : Nat), free_at jobs j → killjob K jobs (j : Int) = .ok (false, jobs, [])) ∧
    (∀ (wakes : List Wake) (jobs1 : List job_t) (tr : List Event),
      shutdownjobs K jobs wakes = .ok (jobs1, tr) → ∀ s ∈ signals tr, s.1 ≠ 0) :=
  ⟨reachable_free_finished K hF0 jobs hr,
   killjob_free_slot K jobs (reachable_free_finished K hF0 jobs hr),
   shutdownjobs_nonzero K jobs (reachable_free_finished K hF0 jobs hr)⟩

theorem reachable_table_moved : Reachable linux_h table_moved :=
  Reachable.monitorjob session0
    [ { pgid := 20, proc := [⟨20, 1, -1⟩], tmodes := 1, state := 1, command := some "vi" } ]
    [[(20, 4991)]] 0 table_moved
    [ .tcsetpgrp 20, .sigsuspend, .tcgetattr, .tcsetattr 0 1, .tcsetpgrp 100 ]
    (Reachable.addproc
      [ { pgid := 20, proc := [], tmodes := 1, state := 1, command := none } ]
      0 20 [.word "vi", .T_NULL]
      { pgid := 20, proc := [], tmodes := 1, state := 1, command := none } _
      (Reachable.addjob session0 initjobs 20 0 0 _ Reachable.init (by decide) rfl)
      rfl (by decide) rfl)
    rfl

theorem C20_no_signal_to_group_zero_witness :
    linux_h.FINISHED = 0 ∧ Reachable linux_h table_moved ∧ free_at table_moved 0 ∧
    killjob linux_h table_moved ((0 : Nat) : Int) = .ok (false, table_moved, []) ∧
    shutdownjobs linux_h table_moved [[(20, 65535)], [(20, 15)]]
      = .ok ([ zero_job,
               { pgid := 0, proc := [], tmodes := 5, state := 0, command := none } ],
             [ .debug "[%d] killing '%s'\n" [.int 1, .str (some "vi")],
               .kill (-20) .SIGTERM, .kill (-20) .SIGCONT, .sigsuspend, .sigsuspend,
               .printf "[%d] killed '%s' by signal %d\n"
                 [.int 1, .str (some "vi"), .int 15] ]) ∧
    (∀ s ∈ signals
        [ .debug "[%d] killing '%s'\n" [.int 1, .str (some "vi")],
          .kill (-20) .SIGTERM, .kill (-20) .SIGCONT, .sigsuspend, .sigsuspend,
          .printf "[%d] killed '%s' by signal %d\n"
            [.int 1, .str (some "vi"), .int 15] ], s.1 ≠ 0) :=
  ⟨rfl, reachable_table_moved, ⟨zero_job, rfl, rfl⟩,
   (C20_no_signal_to_group_zero linux_h rfl table_moved reachable_table_moved).2.1 0
     ⟨zero_job, rfl, rfl⟩,
   rfl,
   (C20_no_signal_to_group_zero linux_h rfl table_moved reachable_table_moved).2.2
     [[(20, 65535)], [(20, 15)]] _ _ rfl⟩

theorem tie_break_finished (K : Header) (hFR : K.FINISHED ≠ K.RUNNING)
    (hFS : K.FINISHED ≠ K.STOPPED) (ps : List proc_t)
    (h : tie_break_rule K ps = K.FINISHED) :
    ∀ p ∈ ps, p.state ≠ K.STOPPED ∧ p.state ≠ K.RUNNING := by
  unfold tie_break_rule at h
  by_cases h1 : (ps.any fun p => decide (p.state = K.STOPPED)) = true
  · rw [if_pos h1] at h
    exact absurd h.symm hFS
  · rw [if_neg h1] at h
    by_cases h2 : (ps.any fun p => decide (p.state = K.RUNNING)) = true
    · rw [if_pos h2] at h
      exact absurd h.symm hFR
    · intro p hp
      constructor
      · intro e
        exact h1 (List.any_eq_true.mpr ⟨p, hp, by simp [e]⟩)
      · intro e
        exact h2 (List.any_eq_true.mpr ⟨p, hp, by simp [e]⟩)

theorem names_live_spec (K : Header) (jobs : List job_t) (pid : Int)
    (h : names_live K jobs pid = true) (job : job_t) (hjob : job ∈ jobs) (p : proc_t)
    (hp : p ∈ job.proc) (hpid : p.pid = pid) :
    p.state = K.RUNNING ∨ p.state = K.STOPPED := by
  unfold names_live at h
  have h1 := List.all_eq_true.mp h job hjob
  have h2 := List.all_eq_true.mp h1 p hp
  exact of_decide_eq_true h2 hpid

theorem mark_jobs_skip (K : Header) (pid status : Int) (jobs : List job_t) (i : Nat)
    (job : job_t) (hi : jobs[i]? = some job) (hno : ∀ p ∈ job.proc, p.pid ≠ pid) :
    (mark_jobs K pid status jobs)[i]? = some job := by
  induction jobs generalizing i with
  | nil => simp at hi
  | cons a rest ih =>
    cases hr : mark_procs K pid status a.proc with
    | none =>
      cases i with
      | zero => simpa [mark_jobs, hr] using hi
      | succ i =>
        rw [List.getElem?_cons_succ] at hi
        simp [mark_jobs, hr, ih i hi]
    | some r =>
      obtain ⟨qs, st⟩ := r
      cases i with
      | zero =>
        simp at hi
        subst hi
        rw [mark_procs_none K pid status a.proc hno] at hr
        exact absurd hr (by simp)
      | succ i =>
        rw [List.getElem?_cons_succ] at hi
        simp [mark_jobs, hr, hi]

theorem on_child_keeps_finished (K : Header) (hFR : K.FINISHED ≠ K.RUNNING)
    (hFS : K.FINISHED ≠ K.STOPPED) (jobs : List job_t) (pid status : Int) (i : Nat)
    (hc : consistent K jobs) (hl : names_live K jobs pid = true)
    (hf : slot_state jobs i = some K.FINISHED) :
    slot_state (on_child K jobs pid status) i = some K.FINISHED := by
  obtain ⟨job, hj, hs⟩ := slot_state_some _ _ _ hf
  have hmem := List.getElem?_mem hj
  have htb : tie_break_rule K job.proc = K.FINISHED := by rw [← hc job hmem, hs]
  have hdead := tie_break_finished K hFR hFS job.proc htb
  have hno : ∀ p ∈ job.proc, p.pid ≠ pid := by
    intro p hp e
    rcases names_live_spec K jobs pid hl job hmem p hp e with h | h
    · exact (hdead p hp).2 h
    · exact (hdead p hp).1 h
  have hk := mark_jobs_skip K pid status jobs i job hj hno
  simp [slot_state, on_child, hk, refresh_job_state, htb]

theorem consistent_handler (K : Header) (ns : List (Int × Int)) (jobs : List job_t)
    (hc : consistent K jobs) : consistent K (sigchld_handler K jobs ns) :=
  sigchld_handler_rule K ns jobs hc

theorem handler_keeps_finished (K : Header) (hFR : K.FINISHED ≠ K.RUNNING)
    (hFS : K.FINISHED ≠ K.STOPPED) (w : Wake) (jobs : List job_t) (i : Nat)
    (hc : consistent K jobs) (hcalm : calm_batch K jobs w = true)
    (hf : slot_state jobs i = some K.FINISHED) :
    slot_state (sigchld_handler K jobs w) i = some K.FINISHED := by
  induction w generalizing jobs with
  | nil => exact hf
  | cons n rest ih =>
    obtain ⟨pid, status⟩ := n
    by_cases hpos : 0 < pid
    · simp only [calm_batch, hpos, if_true, Bool.and_eq_true] at hcalm
      simp only [sigchld_handler, hpos, if_true]
      exact ih _ (on_child_rule K jobs pid status) hcalm.2
        (on_child_keeps_finished K hFR hFS jobs pid status i hc hcalm.1 hf)
    · simp only [sigchld_handler, hpos, if_false]
      exact hf

theorem table_after_keeps_finished (K : Header) (hFR : K.FINISHED ≠ K.RUNNING)
    (hFS : K.FINISHED ≠ K.STOPPED) (wakes : List Wake) (jobs : List job_t) (m : Nat)
    (hc : consistent K jobs) (hcalm : calm K jobs wakes = true) :
    consistent K (table_after K jobs (wakes.take m)) ∧
    calm K (table_after K jobs (wakes.take m)) (wakes.drop m) = true ∧
    ∀ i, slot_state jobs i = some K.FINISHED →
      slot_state (table_after K jobs (wakes.take m)) i = some K.FINISHED := by
  induction wakes generalizing jobs m with
  | nil => exact ⟨by simpa [table_after] using hc, by simp [table_after, calm], by
      intro i hi
      simpa [table_after] using hi⟩
  | cons w ws ih =>
    cases m with
    | zero => exact ⟨by simpa [table_after] using hc, by simpa [table_after] using hcalm, by
        intro i hi
        simpa [table_after] using hi⟩
    | succ m =>
      simp only [calm, Bool.and_eq_true] at hcalm
      obtain ⟨h1, h2, h3⟩ := ih (sigchld_handler K jobs w) m (consistent_handler K w jobs hc)
        hcalm.2
      refine ⟨by simpa [table_after] using h1, by simpa [table_after] using h2, ?_⟩
      intro i hi
      have := h3 i (handler_keeps_finished K hFR hFS w jobs i hc hcalm.1 hi)
      simpa [table_after] using this

theorem table_after_length (K : Header) (wakes : List Wake) (jobs : List job_t) :
    (table_after K jobs wakes).length = jobs.length := by
  have h := congrArg List.length (table_after_shape K wakes jobs)
  simpa using h

theorem shutdown_loop_finished (K : Header) (hFR : K.FINISHED ≠ K.RUNNING)
    (hFS : K.FINISHED ≠ K.STOPPED) (n : Nat) (i : Nat) (jobs : List job_t)
    (wakes : List Wake) (jobs1 : List job_t) (tr : List Event) (left : List Wake)
    (hc : consistent K jobs) (hcalm : calm K jobs wakes = true)
    (hdone : ∀ k, k < i → slot_state jobs k = some K.FINISHED)
    (hlen : i + n = jobs.length)
    (h : shutdown_loop K n i jobs wakes = .ok (jobs1, tr, left)) :
    jobs1.length = jobs.length ∧
    ∀ k, k < jobs1.length → slot_state jobs1 k = some K.FINISHED := by
  induction n generalizing i jobs wakes tr with
  | zero =>
    simp only [shutdown_loop] at h
    injection h with h
    injection h with h1 _
    subst h1
    exact ⟨rfl, fun k hk => hdone k (by omega)⟩
  | succ n ih =>
    unfold shutdown_loop at h
    cases hj : jobs[i]? with
    | none => simp [hj] at h
    | some job =>
      simp only [hj] at h
      by_cases hs : job.state ≠ K.FINISHED
      · rw [if_pos hs, killjob_live K jobs i job hj hs] at h
        simp only at h
        cases hw : shutdown_wait K i wakes jobs with
        | error f => simp [hw] at h
        | ok r =>
          obtain ⟨j1, t2, l1⟩ := r
          simp only [hw] at h
          cases hl : shutdown_loop K n (i + 1) j1 l1 with
          | error f => simp [hl] at h
          | ok r2 =>
            obtain ⟨j2, t3, l2⟩ := r2
            simp only [hl] at h
            injection h with h
            injection h with h1 h
            injection h with h2 h3
            subst h1 h2 h3
            obtain ⟨hfin, m, _, hm2, hm3⟩ := shutdown_wait_result K i wakes jobs j1 t2 l1 hw
            obtain ⟨hc1, hcalm1, hkeep⟩ :=
              table_after_keeps_finished K hFR hFS wakes jobs m hc hcalm
            rw [← hm2, ← hm3] at hcalm1
            rw [← hm2] at hc1 hkeep
            have hlen1 : j1.length = jobs.length := by
              rw [hm2]
              exact table_after_length K _ jobs
            obtain ⟨e1, e2⟩ := ih (i + 1) j1 l1 t3 hc1 hcalm1 (by
              intro k hk
              by_cases hki : k = i
              · rw [hki]
                exact hfin
              · exact hkeep k (hdone k (by omega))) (by omega) hl
            exact ⟨by omega, e2⟩
      · rw [if_neg hs] at h
        have hs2 : job.state = K.FINISHED := by
          by_contra hc2
          exact hs hc2
        exact ih (i + 1) jobs wakes tr hc hcalm (by
          intro k hk
          by_cases hki : k = i
          · rw [hki]
            simp [slot_state, hj, hs2]
          · exact hdone k (by omega)) (by omega) h

theorem shutdown_loop_pairs (K : Header) (n : Nat) (i : Nat) (jobs : List job_t)
    (wakes : List Wake) (jobs1 : List job_t) (tr : List Event) (left : List Wake)
    (h : shutdown_loop K n i jobs wakes = .ok (jobs1, tr, left)) :
    ∃ gs : List Int, signals tr = gs.flatMap term_cont := by
  induction n generalizing i jobs wakes tr with
  | zero =>
    simp only [shutdown_loop] at h
    injection h with h
    injection h with _ h
    injection h with h2 _
    subst h2
    exact ⟨[], rfl⟩
  | succ n ih =>
    unfold shutdown_loop at h
    cases hj : jobs[i]? with
    | none => simp [hj] at h
    | some job =>
      simp only [hj] at h
      by_cases hs : job.state ≠ K.FINISHED
      · rw [if_pos hs, killjob_live K jobs i job hj hs] at h
        simp only at h
        cases hw : shutdown_wait K i wakes jobs with
        | error f => simp [hw] at h
        | ok r =>
          obtain ⟨j1, t2, l1⟩ := r
          simp only [hw] at h
          cases hl : shutdown_loop K n (i + 1) j1 l1 with
          | error f => simp [hl] at h
          | ok r2 =>
            obtain ⟨j2, t3, l2⟩ := r2
            simp only [hl] at h
            injection h with h
            injection h with h1 h
            injection h with h2 h3
            subst h1 h2 h3
            obtain ⟨_, m, hm1, _, _⟩ := shutdown_wait_result K i wakes jobs j1 t2 l1 hw
            obtain ⟨gs, hgs⟩ := ih (i + 1) j1 l1 t3 hl
            refine ⟨job.pgid :: gs, ?_⟩
            rw [signals_append, signals_append, hm1, signals_replicate, hgs]
            simp [signals, term_cont]
      · rw [if_neg hs] at h
        exact ih (i + 1) jobs wakes tr h

theorem shutdown_loop_kills_first (K : Header) (n i : Nat) (jobs : List job_t)
    (wakes : List Wake) (job : job_t) (jobs1 : List job_t) (tr : List Event)
    (left : List Wake) (hj : jobs[i]? = some job) (hs : job.state ≠ K.FINISHED)
    (h : shutdown_loop K (n + 1) i jobs wakes = .ok (jobs1, tr, left)) :
    ∃ m tr3, tr =
      [ Event.debug "[%d] killing '%s'\n" [.int i, .str job.command],
        Event.kill (-job.pgid) .SIGTERM, Event.kill (-job.pgid) .SIGCONT ] ++
      List.replicate m Event.sigsuspend ++ tr3 := by
  unfold shutdown_loop at h
  simp only [hj] at h
  rw [if_pos hs, killjob_live K jobs i job hj hs] at h
  simp only at h
  cases hw : shutdown_wait K i wakes jobs with
  | error f => simp [hw] at h
  | ok r =>
    obtain ⟨j1, t2, l1⟩ := r
    simp only [hw] at h
    cases hl : shutdown_loop K n (i + 1) j1 l1 with
    | error f => simp [hl] at h
    | ok r2 =>
      obtain ⟨j2, t3, l2⟩ := r2
      simp only [hl] at h
      injection h with h
      injection h with _ h
      injection h with h2 _
      subst h2
      obtain ⟨_, m, hm1, _, _⟩ := shutdown_wait_result K i wakes jobs j1 t2 l1 hw
      exact ⟨m, t3, by rw [hm1]⟩

theorem shutdown_loop_skips_finished (K : Header) (n i : Nat) (jobs : List job_t)
    (wakes : List Wake) (job : job_t) (hj : jobs[i]? = some job)
    (hs : job.state = K.FINISHED) :
    shutdown_loop K (n + 1) i jobs wakes = shutdown_loop K n (i + 1) jobs wakes := by
  rw [shutdown_loop]
  simp [hj, hs]

theorem reaped_state (K : Header) (job : job_t) : (reaped K job).state = job.state := by
  unfold reaped
  split <;> rfl

theorem reaped_finished_free (K : Header) (job : job_t) (h : job.state = K.FINISHED) :
    (reaped K job).pgid = 0 := by
  unfold reaped
  by_cases hp : job.pgid = 0
  · simp [hp]
  · simp [hp, h]

theorem shutdownjobs_all_finished (K : Header) (hFR : K.FINISHED ≠ K.RUNNING)
    (hFS : K.FINISHED ≠ K.STOPPED) (jobs : List job_t) (wakes : List Wake)
    (jobs1 : List job_t) (tr : List Event)
    (hc : consistent K jobs) (hcalm : calm K jobs wakes = true)
    (hret : shutdownjobs K jobs wakes = .ok (jobs1, tr)) :
    (∀ job ∈ jobs1, job.state = K.FINISHED) ∧
    (∀ (i : Nat) (job : job_t), 1 ≤ i → jobs1[i]? = some job → job.pgid = 0) ∧
    ∃ gs : List Int, signals tr = gs.flatMap term_cont := by
  unfold shutdownjobs at hret
  cases hl : shutdown_loop K jobs.length 0 jobs wakes with
  | error f => simp [hl] at hret
  | ok r =>
    obtain ⟨j1, t1, l1⟩ := r
    simp only [hl] at hret
    cases hw : watchjobs K j1 K.FINISHED with
    | error f => simp [hw] at hret
    | ok r2 =>
      obtain ⟨j2, t2⟩ := r2
      simp only [hw] at hret
      injection hret with hret
      injection hret with e1 e2
      subst e1 e2
      obtain ⟨_, hfin⟩ := shutdown_loop_finished K hFR hFS jobs.length 0 jobs wakes j1 t1 l1
        hc hcalm (fun k hk => absurd hk (by omega)) (by omega) hl
      have hwt := watchjobs_ok_watchable K j1 K.FINISHED _ hw
      obtain ⟨tr', htr'⟩ := watchjobs_closed_form K j1 K.FINISHED hwt
      rw [hw] at htr'
      injection htr' with htr'
      injection htr' with e3 _
      have hslot : ∀ (i : Nat) (job : job_t), j2[i]? = some job →
          job.state = K.FINISHED ∧ (1 ≤ i → job.pgid = 0) := by
        intro i job hjob
        rw [e3] at hjob
        cases i with
        | zero =>
          rw [swept_head] at hjob
          have hlt : 0 < j1.length := (List.getElem?_eq_some.mp hjob).1
          obtain ⟨jb, hjb, hst⟩ := slot_state_some _ _ _ (hfin 0 hlt)
          rw [hjob] at hjb
          injection hjb with hjb
          rw [hjb]
          exact ⟨hst, fun h => absurd h (by omega)⟩
        | succ i =>
          rw [swept_slot K j1 (i + 1) (by omega)] at hjob
          obtain ⟨j0, hj0, hre⟩ := Option.map_eq_some'.mp hjob
          have hlt : i + 1 < j1.length := (List.getElem?_eq_some.mp hj0).1
          obtain ⟨jb, hjb, hst⟩ := slot_state_some _ _ _ (hfin (i + 1) hlt)
          rw [hj0] at hjb
          injection hjb with hjb
          subst hjb
          rw [← hre]
          exact ⟨by rw [reaped_state]; exact hst, fun _ => reaped_finished_free K j0 hst⟩
      refine ⟨?_, ?_, ?_⟩
      · intro job hjob
        obtain ⟨i, hi⟩ := List.mem_iff_getElem?.mp hjob
        exact (hslot i job hi).1
      · intro i job hi hjob
        exact (hslot i job hjob).2 hi
      · obtain ⟨gs, hgs⟩ := shutdown_loop_pairs K jobs.length 0 jobs wakes j1 t1 l1 hl
        exact ⟨gs, by rw [signals_append, signals_watchjobs K j1 K.FINISHED j2 t2 hw,
          List.append_nil, hgs]⟩

/-- C13 (amended): the states of the table agree with its processes and no
notification names a process that was already reaped. When `shutdownjobs`
returns, every slot is `FINISHED`, every background slot is free, and the
signals it sent are pairs `SIGTERM`, `SIGCONT` to one process group each. The
pairs go to the jobs that are not `FINISHED` when the loop reaches their slot:
at such a slot the loop calls `killjob` (the `debug` line and the two signals
to `-pgid`) and only then waits; at a slot that is `FINISHED` by then it makes
no call. -/
theorem C13_shutdownjobs_leaves_no_live_job (K : Header) (hFR : K.FINISHED ≠ K.RUNNING)
    (hFS : K.FINISHED ≠ K.STOPPED) (jobs : List job_t) (wakes : List Wake)
    (jobs1 : List job_t) (tr : List Event)
    (hc : consistent K jobs) (hcalm : calm K jobs wakes = true)
    (hret : shutdownjobs K jobs wakes = .ok (jobs1, tr)) :
    (∀ job ∈ jobs1, job.state = K.FINISHED) ∧
    (∀ (i : Nat) (job : job_t), 1 ≤ i → jobs1[i]? = some job → job.pgid = 0) ∧
    (∃ gs : List Int, signals tr = gs.flatMap term_cont) ∧
    (∀ (n i : Nat) (t : List job_t) (ws : List Wake) (job : job_t) (t1 : List job_t)
        (tr1 : List Event) (left : List Wake),
      t[i]? = some job → job.state ≠ K.FINISHED →
      shutdown_loop K (n + 1) i t ws = .ok (t1, tr1, left) →
      ∃ m tr3, tr1 =
        [ Event.debug "[%d] killing '%s'\n" [.int i, .str job.command],
          Event.kill (-job.pgid) .SIGTERM, Event.kill (-job.pgid) .SIGCONT ] ++
        List.replicate m Event.sigsuspend ++ tr3) ∧
    (∀ (n i : Nat) (t : List job_t) (ws : List Wake) (job : job_t),
      t[i]? = some job → job.state = K.FINISHED →
      shutdown_loop K (n + 1) i t ws = shutdown_loop K n (i + 1) t ws) := by
  obtain ⟨h1, h2, h3⟩ := shutdownjobs_all_finished K hFR hFS jobs wakes jobs1 tr hc hcalm hret
  exact ⟨h1, h2, h3,
    fun n i t ws job t1 tr1 left hj hs h =>
      shutdown_loop_kills_first K n i t ws job t1 tr1 left hj hs h,
    fun n i t ws job hj hs => shutdown_loop_skips_finished K n i t ws job hj hs⟩

theorem C13_shutdownjobs_leaves_no_live_job_witness :
    consistent linux_h table_two ∧
    calm linux_h table_two [[(30, 15)], [(40, 65535)], [(40, 15)]] = true ∧
    shutdownjobs linux_h table_two [[(30, 15)], [(40, 65535)], [(40, 15)]]
      = .ok ([ zero_job,
               { pgid := 0, proc := [], tmodes := 1, state := 0, command := none },
               { pgid := 0, proc := [], tmodes := 1, state := 0, command := none } ],
             [ .debug "[%d] killing '%s'\n" [.int 1, .str (some "sleep 5")],
               .kill (-30) .SIGTERM, .kill (-30) .SIGCONT, .sigsuspend,
               .debug "[%d] killing '%s'\n" [.int 2, .str (some "cat")],
               .kill (-40) .SIGTERM, .kill (-40) .SIGCONT, .sigsuspend, .sigsuspend,
               .printf "[%d] killed '%s' by signal %d\n"
                 [.int 1, .str (some "sleep 5"), .int 15],
               .printf "[%d] killed '%s' by signal %d\n"
                 [.int 2, .str (some "cat"), .int 15] ]) ∧
    (∀ job ∈ [ zero_job,
               ({ pgid := 0, proc := [], tmodes := 1, state := 0, command := none } : job_t),
               { pgid := 0, proc := [], tmodes := 1, state := 0, command := none } ],
      job.state = linux_h.FINISHED) :=
  ⟨by decide, by decide, rfl,
   (C13_shutdownjobs_leaves_no_live_job linux_h (by decide) (by decide) table_two
      [[(30, 15)], [(40, 65535)], [(40, 15)]] _ _ (by decide) (by decide) rfl).1⟩

/-- C13 (counterexample): `sleep 5` and `cat` are both `RUNNING` when
`shutdownjobs` is entered. While it waits for `sleep 5`, `cat` exits by itself
(one batch reports both). `shutdownjobs` returns, and the only signals it sent
went to the group of `sleep 5`: `cat`, not `FINISHED` on entry, got none. -/
theorem C13_job_that_ends_during_shutdown_gets_no_signal :
    slot_state table_two 1 = some linux_h.RUNNING ∧
    slot_state table_two 2 = some linux_h.RUNNING ∧
    linux_h.RUNNING ≠ linux_h.FINISHED ∧
    shutdownjobs linux_h table_two [[(30, 15), (40, 0)]]
      = .ok ([ zero_job,
               { pgid := 0, proc := [], tmodes := 1, state := 0, command := none },
               { pgid := 0, proc := [], tmodes := 1, state := 0, command := none } ],
             [ .debug "[%d] killing '%s'\n" [.int 1, .str (some "sleep 5")],
               .kill (-30) .SIGTERM, .kill (-30) .SIGCONT, .sigsuspend,
               .printf "[%d] killed '%s' by signal %d\n"
                 [.int 1, .str (some "sleep 5"), .int 15],
               .printf "[%d] exited '%s', status=%d\n"
                 [.int 2, .str (some "cat"), .int 0] ]) ∧
    signals
      [ .debug "[%d] killing '%s'\n" [.int 1, .str (some "sleep 5")],
        .kill (-30) .SIGTERM, .kill (-30) .SIGCONT, .sigsuspend,
        .printf "[%d] killed '%s' by signal %d\n"
          [.int 1, .str (some "sleep 5"), .int 15],
        .printf "[%d] exited '%s', status=%d\n"
          [.int 2, .str (some "cat"), .int 0] ]
      = [(-30, Signal.SIGTERM), (-30, Signal.SIGCONT)] :=
  ⟨by decide, by decide, by decide, rfl, by decide⟩

/-! ## Theorems: `do_pipeline` -/

theorem do_stage_ok (pgid : Int) (tokens : List token_t) (start ntokens : Nat)
    (pids : List Int) (pid : Int) (t1 : List token_t) (pids1 : List Int) (child : Spawn)
    (h : do_stage pgid tokens start ntokens pids = .ok (pid, t1, pids1, child)) :
    pids = pid :: pids1 ∧ child = { pid := pid, pgid := pgid } := by
  unfold do_stage at h
  cases hr : do_redir (tokens.drop start) ntokens with
  | error f => simp [hr] at h
  | ok r =>
    obtain ⟨n, slice, a, b⟩ := r
    simp only [hr] at h
    by_cases hn : n = 0
    · simp [hn] at h
    · rw [if_neg hn] at h
      cases pids with
      | nil => simp at h
      | cons p rest =>
        simp only at h
        injection h with h
        injection h with h1 h
        injection h with _ h
        injection h with h3 h4
        subst h1 h3 h4
        exact ⟨rfl, rfl⟩

theorem addjob_ok (K : Header) (S : Session) (jobs : List job_t) (pgid bg : Int) (j : Nat)
    (jobs1 : List job_t) (h : addjob K S jobs pgid bg = .ok (j, jobs1)) :
    jobs1[j]? = some
      { pgid := pgid, state := K.RUNNING, command := none, proc := [],
        tmodes := S.shell_tmodes } := by
  unfold addjob at h
  by_cases hbg : bg ≠ 0
  · have e : (if bg ≠ 0 then allocjob jobs else (FG, jobs)) = allocjob jobs := if_pos hbg
    simp only [e] at h
    by_cases hlt : (allocjob jobs).1 < (allocjob jobs).2.length
    · rw [if_pos hlt] at h
      injection h with h
      injection h with h1 h2
      subst h1 h2
      exact List.getElem?_set_self hlt
    · rw [if_neg hlt] at h
      exact absurd h (by simp)
  · have e : (if bg ≠ 0 then allocjob jobs else (FG, jobs)) = (FG, jobs) := if_neg hbg
    simp only [e] at h
    by_cases hlt : FG < jobs.length
    · rw [if_pos hlt] at h
      injection h with h
      injection h with h1 h2
      subst h1 h2
      exact List.getElem?_set_self hlt
    · rw [if_neg hlt] at h
      exact absurd h (by simp)

theorem addproc_ok (K : Header) (jobs : List job_t) (j : Nat) (pid : Int)
    (argv : List token_t) (jobs1 : List job_t) (h : addproc K jobs j pid argv = .ok jobs1) :
    ∃ job cmd, jobs[j]? = some job ∧ mkcommand job.command argv = .ok cmd ∧
      jobs1 = jobs.set j
        { job with
          proc := job.proc ++ [{ pid := pid, state := K.RUNNING, exitcode := -1 }],
          command := cmd } := by
  unfold addproc at h
  cases hj : jobs[j]? with
  | none => simp [hj] at h
  | some job =>
    simp only [hj] at h
    cases hc : mkcommand job.command argv with
    | error f => simp [hc] at h
    | ok cmd =>
      simp only [hc] at h
      injection h with h
      exact ⟨job, cmd, rfl, hc, h.symm⟩

theorem pipe_addproc_pgid (K : Header) (s : pipe_state) (pid : Int) (tokens : List token_t)
    (jobs2 : List job_t) (j : Nat) (job : job_t) (hjob : s.job = some j)
    (hj : s.jobs[j]? = some job) (h : pipe_addproc K s pid tokens = .ok jobs2) :
    ∃ job2, jobs2[j]? = some job2 ∧ job2.pgid = job.pgid := by
  unfold pipe_addproc at h
  rw [hjob] at h
  simp only at h
  cases ha : addproc K s.jobs j pid tokens with
  | error f => simp [ha] at h
  | ok j2 =>
    simp only [ha] at h
    injection h with h
    subst h
    obtain ⟨job0, cmd, h0, _, hset⟩ := addproc_ok K s.jobs j pid tokens j2 ha
    rw [hj] at h0
    injection h0 with h0
    subst h0
    have hlt : j < s.jobs.length := (List.getElem?_eq_some.mp hj).1
    exact ⟨{ job with
        proc := job.proc ++ [{ pid := pid, state := K.RUNNING, exitcode := -1 }],
        command := cmd }, by rw [hset]; exact List.getElem?_set_self hlt, rfl⟩

theorem pipe_addproc_some (K : Header) (s : pipe_state) (pid : Int) (tokens : List token_t)
    (jobs2 : List job_t) (h : pipe_addproc K s pid tokens = .ok jobs2) :
    ∃ j, s.job = some j := by
  unfold pipe_addproc at h
  cases hj : s.job with
  | none => simp [hj] at h
  | some j => exact ⟨j, rfl⟩

theorem pipe_inv_step (K : Header) (S : Session) (bg : Int) (s s1 : pipe_state) (i : Nat)
    (hinv : pipe_inv s) (h : do_pipeline_step K S bg s i = .ok s1) : pipe_inv s1 := by
  unfold do_pipeline_step at h
  cases ht : s.token[i]? with
  | none => simp [ht] at h
  | some t =>
    simp only [ht] at h
    by_cases hp : t = token_t.T_PIPE
    · rw [if_pos hp] at h
      cases hs : do_stage s.pgid s.token s.cmd_start s.cmd_length s.pids with
      | error e => simp [hs] at h
      | ok r =>
        obtain ⟨pid, t1, pids1, child⟩ := r
        simp only [hs] at h
        obtain ⟨hpids, hchild⟩ := do_stage_ok _ _ _ _ _ _ _ _ _ hs
        obtain ⟨hnz, hcase⟩ := hinv
        have hpid : pid ≠ 0 := hnz pid (by rw [hpids]; exact List.mem_cons_self _ _)
        have hnz1 : ∀ p ∈ pids1, p ≠ 0 := fun p hp1 =>
          hnz p (by rw [hpids]; exact List.mem_cons_of_mem _ hp1)
        rcases hcase with ⟨hc, hsp, hjb, hpg⟩ | ⟨hc, hpg, ⟨j, job, hjb, hj, hjpg⟩, rest, hsp, hrest⟩
        · have hif : ¬ (s.is_job_created = true) := by simp [hc]
          rw [if_neg hif] at h
          cases ha : addjob K S s.jobs pid bg with
          | error f => simp [ha] at h
          | ok r2 =>
            obtain ⟨j, jobs1⟩ := r2
            simp only [ha] at h
            have hj1 := addjob_ok K S s.jobs pid bg j jobs1 ha
            cases hap : pipe_addproc K { s with job := some j, jobs := jobs1 } pid t1 with
            | error e => simp [hap] at h
            | ok jobs2 =>
              simp only [hap] at h
              injection h with h
              subst h
              obtain ⟨job2, hj2, hpg2⟩ := pipe_addproc_pgid K _ pid t1 jobs2 j _ rfl hj1 hap
              refine ⟨hnz1, Or.inr ⟨rfl, hpid, ⟨j, job2, rfl, hj2, hpg2⟩, [], ?_, ?_⟩⟩
              · simp [hsp, hchild, hpg]
              · intro c hc2
                simp at hc2
        · rw [if_pos hc] at h
          simp only at h
          cases hap : pipe_addproc K { s with job := s.job, jobs := s.jobs } pid t1 with
          | error e => simp [hap] at h
          | ok jobs2 =>
            simp only [hap] at h
            injection h with h
            subst h
            obtain ⟨job2, hj2, hpg2⟩ := pipe_addproc_pgid K _ pid t1 jobs2 j job hjb hj hap
            refine ⟨hnz1, Or.inr ⟨rfl, hpg, ⟨j, job2, hjb, hj2, by rw [hpg2, hjpg]⟩,
              rest ++ [child], ?_, ?_⟩⟩
            · simp [hsp]
            · intro c hc2
              rcases List.mem_append.mp hc2 with hm | hm
              · exact hrest c hm
              · rw [List.mem_singleton.mp hm, hchild]
    · rw [if_neg hp] at h
      injection h with h
      subst h
      exact hinv

theorem pipe_inv_loop (K : Header) (S : Session) (bg : Int) (k i : Nat) (s s1 : pipe_state)
    (hinv : pipe_inv s) (h : do_pipeline_loop K S bg k i s = .ok s1) : pipe_inv s1 := by
  induction k generalizing i s with
  | zero =>
    simp only [do_pipeline_loop] at h
    injection h with h
    subst h
    exact hinv
  | succ k ih =>
    unfold do_pipeline_loop at h
    cases hs : do_pipeline_step K S bg s i with
    | error e => simp [hs] at h
    | ok s2 =>
      simp only [hs] at h
      exact ih (i + 1) s2 (pipe_inv_step K S bg s s2 i hinv hs) h

theorem do_pipeline_spawn_groups (K : Header) (S : Session) (jobs : List job_t)
    (tokens : List token_t) (ntokens : Nat) (bg : Int) (pids : List Int) (s : pipe_state)
    (hpids : ∀ p ∈ pids, p ≠ 0)
    (h : do_pipeline_spawn K S jobs tokens ntokens bg pids = .ok s) :
    ∃ j job first rest, s.job = some j ∧ s.jobs[j]? = some job ∧
      s.spawned = first :: rest ∧ rest ≠ [] ∧
      first.pgid = 0 ∧ job.pgid = first.pid ∧ s.pgid = first.pid ∧ first.pid ≠ 0 ∧
      ∀ c ∈ rest, c.pgid = first.pid := by
  unfold do_pipeline_spawn at h
  cases hl : do_pipeline_loop K S bg ntokens 0
      { token := tokens, jobs := jobs, pgid := 0, job := none, cmd_start := 0,
        cmd_length := 0, is_job_created := false, pids := pids, spawned := [] } with
  | error e => simp [hl] at h
  | ok s0 =>
    simp only [hl] at h
    have hinv : pipe_inv s0 := pipe_inv_loop K S bg ntokens 0 _ s0
      ⟨hpids, Or.inl ⟨rfl, rfl, rfl, rfl⟩⟩ hl
    cases hs : do_stage s0.pgid s0.token s0.cmd_start (ntokens - s0.cmd_start) s0.pids with
    | error e => simp [hs] at h
    | ok r =>
      obtain ⟨pid, t1, pids1, child⟩ := r
      simp only [hs] at h
      obtain ⟨_, hchild⟩ := do_stage_ok _ _ _ _ _ _ _ _ _ hs
      cases hap : pipe_addproc K s0 pid t1 with
      | error e => simp [hap] at h
      | ok jobs2 =>
        simp only [hap] at h
        injection h with h
        subst h
        obtain ⟨_, hcase⟩ := hinv
        rcases hcase with ⟨_, _, hjb, _⟩ | ⟨_, hpg, ⟨j, job, hjb, hj, hjpg⟩, rest, hsp, hrest⟩
        · obtain ⟨j, hj⟩ := pipe_addproc_some K s0 pid t1 jobs2 hap
          rw [hjb] at hj
          exact absurd hj (by simp)
        · obtain ⟨job2, hj2, hpg2⟩ := pipe_addproc_pgid K s0 pid t1 jobs2 j job hjb hj hap
          refine ⟨j, job2, { pid := s0.pgid, pgid := 0 }, rest ++ [child], hjb, hj2, ?_,
            by simp, rfl, by rw [hpg2, hjpg], rfl, hpg, ?_⟩
          · simp [hsp]
          · intro c hc2
            rcases List.mem_append.mp hc2 with hm | hm
            · exact hrest c hm
            · rw [List.mem_singleton.mp hm, hchild]

/-- C18 (the code departs from the claim): for `cmd < in arg` the code returns
`n = 2` but leaves `arg` where it stood: the array is
`cmd, NULL, NULL, arg, NULL`, so `token[0 .. 1]` is `cmd, NULL` and the argument
vector that starts at `token[0]` is `[cmd]`, not `[cmd, arg]`. -/
theorem C18_do_redir_does_not_compact :
    do_redir tokens_redir 4
      = .ok (2, [.word "cmd", .T_NULL, .T_NULL, .word "arg", .T_NULL],
             some (.word "in"), none) ∧
    ([token_t.word "cmd", .T_NULL, .T_NULL, .word "arg", .T_NULL].take 2
      ≠ [.word "cmd", .word "arg"]) ∧
    mkcommand none [.word "cmd", .T_NULL, .T_NULL, .word "arg", .T_NULL]
      = .ok (some "cmd") :=
  ⟨rfl, by decide, rfl⟩

/-- C19 (the code departs from the claim): for `a x | b | c` with `Fork`
returning 101, 102, 103 the job holds the three records in order, `RUNNING`
with exit status -1, but its command text is `a x | a x | a x`: every
`addproc` is given `token`, the start of the array, where the words of the
first stage stand, instead of the words of its own stage. -/
theorem C19_pipeline_command_repeats_first_stage :
    ∃ s, do_pipeline_spawn linux_h session0 initjobs tokens_abc 6 1 [101, 102, 103] = .ok s ∧
      s.jobs = [ zero_job,
        { pgid := 101,
          proc := [⟨101, linux_h.RUNNING, -1⟩, ⟨102, linux_h.RUNNING, -1⟩,
                   ⟨103, linux_h.RUNNING, -1⟩],
          tmodes := 1, state := linux_h.RUNNING,
          command := some "a x | a x | a x" } ] ∧
      (s.jobs[1]?).map (fun job => job.command) ≠ some (some "a x | b | c") :=
  ⟨_, rfl, rfl, by decide⟩

/-! ## Theorems: `do_pipeline` returns on pipelines of words -/

theorem stage_words_getElem? (ws : List String) (post : List token_t) (t : Nat)
    (ht : t < ws.length) :
    ∃ w, (stage_words ws ++ post)[t]? = some (token_t.word w) := by
  refine ⟨ws[t], ?_⟩
  rw [List.getElem?_append_left (by simpa [stage_words] using ht)]
  simp [stage_words, List.getElem?_eq_getElem ht]

theorem do_redir_loop_words (m i : Nat) (s : redir_state) (hmode : s.mode = token_t.T_NULL)
    (hw : ∀ t, t < m → ∃ w, s.token[i + t]? = some (token_t.word w)) :
    do_redir_loop m i s = .ok { s with n := s.n + m } := by
  induction m generalizing i s with
  | zero => rfl
  | succ m ih =>
    obtain ⟨w, hw0⟩ := hw 0 (by omega)
    rw [Nat.add_zero] at hw0
    have hstep : do_redir_step s i = .ok { s with n := s.n + 1 } := by
      simp [do_redir_step, hw0, hmode]
    rw [do_redir_loop, hstep]
    simp only
    rw [ih (i + 1) { s with n := s.n + 1 } hmode (by
      intro t ht
      obtain ⟨w2, hw2⟩ := hw (t + 1) (by omega)
      exact ⟨w2, by
        have e : i + 1 + t = i + (t + 1) := by omega
        rw [e]
        exact hw2⟩)]
    have e2 : s.n + 1 + m = s.n + (m + 1) := by omega
    simp [e2]

theorem do_redir_words (ws : List String) (c : token_t) (post : List token_t) :
    do_redir (stage_words ws ++ c :: post) ws.length
      = .ok (ws.length, stage_words ws ++ token_t.T_NULL :: post, none, none) := by
  unfold do_redir
  rw [do_redir_loop_words ws.length 0 _ rfl (by
    intro t ht
    rw [Nat.zero_add]
    exact stage_words_getElem? ws (c :: post) t ht)]
  have hlen : (stage_words ws).length = ws.length := by simp [stage_words]
  have hlt : ws.length < (stage_words ws ++ c :: post).length := by
    simp [hlen]
  simp only [Nat.zero_add]
  have hset : (stage_words ws ++ c :: post).set ws.length token_t.T_NULL
      = stage_words ws ++ token_t.T_NULL :: post := by
    rw [List.set_append_right _ _ (by simp [hlen])]
    simp [hlen]
  rw [hset, if_pos hlt]

theorem do_stage_words (pgid : Int) (pre : List token_t) (ws : List String) (c : token_t)
    (post : List token_t) (pid : Int) (pids : List Int) (hne : ws ≠ []) :
    do_stage pgid (pre ++ stage_words ws ++ c :: post) pre.length ws.length (pid :: pids)
      = .ok (pid, pre ++ stage_words ws ++ token_t.T_NULL :: post, pids,
          { pid := pid, pgid := pgid }) := by
  unfold do_stage
  have hdrop : (pre ++ stage_words ws ++ c :: post).drop pre.length
      = stage_words ws ++ c :: post := by
    rw [List.append_assoc, List.drop_left]
  have htake : (pre ++ stage_words ws ++ c :: post).take pre.length = pre := by
    rw [List.append_assoc, List.take_left]
  rw [hdrop, do_redir_words, htake]
  have hn : ws.length ≠ 0 := fun h => hne (List.length_eq_zero.mp h)
  simp [hn, List.append_assoc]

theorem mkcommand_rest_words (ws : List String) (tail : List token_t) (cmd : Option String) :
    ∃ r, mkcommand_rest cmd (stage_words ws ++ token_t.T_NULL :: tail) = .ok r := by
  induction ws generalizing cmd with
  | nil => exact ⟨cmd, rfl⟩
  | cons w rest ih =>
    obtain ⟨r, hr⟩ := ih (strapp (strapp cmd " ") w)
    exact ⟨r, by simpa [stage_words, mkcommand_rest, token_str] using hr⟩

theorem mkcommand_words (ws : List String) (tail : List token_t) (cmd : Option String)
    (hne : ws ≠ []) :
    ∃ r, mkcommand cmd (stage_words ws ++ token_t.T_NULL :: tail) = .ok r := by
  cases ws with
  | nil => exact absurd rfl hne
  | cons w rest =>
    obtain ⟨r, hr⟩ := mkcommand_rest_words rest tail
      (strapp (match cmd with
               | some c => strapp (some c) " | "
               | none => none) w)
    exact ⟨r, by simpa [stage_words, mkcommand, token_str] using hr⟩

theorem allocjob_index_lt (jobs : List job_t) : (allocjob jobs).1 < (allocjob jobs).2.length := by
  unfold allocjob
  cases h : allocjob_scan (jobs.drop BG) BG with
  | some k =>
    obtain ⟨_, ⟨job, hj, _⟩, _⟩ := allocjob_found jobs k h
    exact (List.getElem?_eq_some.mp hj).1
  | none => simp

theorem addjob_returns (K : Header) (S : Session) (jobs : List job_t) (pgid bg : Int)
    (hne : jobs ≠ []) :
    ∃ j jobs1, addjob K S jobs pgid bg = .ok (j, jobs1) ∧ j < jobs1.length ∧
      jobs1[j]? = some
        { pgid := pgid, state := K.RUNNING, command := none, proc := [],
          tmodes := S.shell_tmodes } := by
  have hret : ∃ j jobs1, addjob K S jobs pgid bg = .ok (j, jobs1) := by
    unfold addjob
    by_cases hbg : bg ≠ 0
    · have e : (if bg ≠ 0 then allocjob jobs else (FG, jobs)) = allocjob jobs := if_pos hbg
      simp only [e]
      rw [if_pos (allocjob_index_lt jobs)]
      exact ⟨_, _, rfl⟩
    · have e : (if bg ≠ 0 then allocjob jobs else (FG, jobs)) = (FG, jobs) := if_neg hbg
      simp only [e]
      have hlt : FG < jobs.length := List.length_pos.mpr hne
      rw [if_pos hlt]
      exact ⟨_, _, rfl⟩
  obtain ⟨j, jobs1, h⟩ := hret
  have hj := addjob_ok K S jobs pgid bg j jobs1 h
  exact ⟨j, jobs1, h, (List.getElem?_eq_some.mp hj).1, hj⟩

theorem addproc_returns (K : Header) (jobs : List job_t) (j : Nat) (pid : Int)
    (ws : List String) (tail : List token_t) (hj : j < jobs.length) (hne : ws ≠ []) :
    ∃ jobs1, addproc K jobs j pid (stage_words ws ++ token_t.T_NULL :: tail) = .ok jobs1 ∧
      jobs1.length = jobs.length := by
  unfold addproc
  rw [List.getElem?_eq_getElem hj]
  simp only
  obtain ⟨r, hr⟩ := mkcommand_words ws tail jobs[j].command hne
  rw [hr]
  exact ⟨_, rfl, by simp⟩

theorem do_pipeline_loop_words (K : Header) (S : Session) (bg : Int) (m k i : Nat)
    (s : pipe_state)
    (hw : ∀ t, t < m → ∃ w, s.token[i + t]? = some (token_t.word w)) :
    do_pipeline_loop K S bg (m + k) i s
      = do_pipeline_loop K S bg k (i + m) { s with cmd_length := s.cmd_length + m } := by
  induction m generalizing i s with
  | zero => simp
  | succ m ih =>
    obtain ⟨w, hw0⟩ := hw 0 (by omega)
    rw [Nat.add_zero] at hw0
    have hstep : do_pipeline_step K S bg s i
        = .ok { s with cmd_length := s.cmd_length + 1 } := by
      simp [do_pipeline_step, hw0]
    have e : m + 1 + k = (m + k) + 1 := by omega
    rw [e, do_pipeline_loop, hstep]
    simp only
    rw [ih (i + 1) { s with cmd_length := s.cmd_length + 1 } (by
      intro t ht
      obtain ⟨w2, hw2⟩ := hw (t + 1) (by omega)
      exact ⟨w2, by
        have e3 : i + 1 + t = i + (t + 1) := by omega
        rw [e3]
        exact hw2⟩)]
    have e1 : i + 1 + m = i + (m + 1) := by omega
    have e2 : s.cmd_length + 1 + m = s.cmd_length + (m + 1) := by omega
    simp [e1, e2]

theorem pipe_addproc_returns (K : Header) (s : pipe_state) (pid : Int) (j : Nat)
    (w1 : List String) (tail : List token_t) (hjob : s.job = some j)
    (hj : j < s.jobs.length) (hne : w1 ≠ []) :
    ∃ jobs2, pipe_addproc K s pid (stage_words w1 ++ token_t.T_NULL :: tail) = .ok jobs2 ∧
      jobs2.length = s.jobs.length := by
  obtain ⟨jobs1, h1, h2⟩ := addproc_returns K s.jobs j pid w1 tail hj hne
  exact ⟨jobs1, by simp [pipe_addproc, hjob, h1], h2⟩

theorem do_pipeline_step_pipe (K : Header) (S : Session) (bg : Int) (s : pipe_state)
    (pre : List token_t) (ws : List String) (post : List token_t) (pid : Int)
    (pids1 : List Int)
    (htok : s.token = pre ++ stage_words ws ++ token_t.T_PIPE :: post)
    (hstart : s.cmd_start = pre.length) (hlen : s.cmd_length = ws.length)
    (hne : ws ≠ []) (hpids : s.pids = pid :: pids1) (hready : pipe_ready s pre) :
    ∃ s2, do_pipeline_step K S bg s (pre.length + ws.length) = .ok s2 ∧
      s2.token = pre ++ stage_words ws ++ token_t.T_NULL :: post ∧
      s2.cmd_start = pre.length + ws.length + 1 ∧ s2.cmd_length = 0 ∧
      s2.pids = pids1 ∧ s2.spawned.length = s.spawned.length + 1 ∧
      pipe_ready s2 (pre ++ stage_words ws ++ [token_t.T_NULL]) := by
  have hcell : s.token[pre.length + ws.length]? = some token_t.T_PIPE := by
    rw [htok, List.getElem?_append_right (by simp [stage_words])]
    simp [stage_words]
  have hstage := do_stage_words s.pgid pre ws token_t.T_PIPE post pid pids1 hne
  rw [← htok, ← hstart, ← hlen, ← hpids] at hstage
  unfold do_pipeline_step
  rw [hcell]
  simp only [if_true, hstage]
  rcases hready with ⟨hc, hpre, hjobs⟩ | ⟨hc, ⟨j, hjob, hj⟩, w1, tail, hw1, hpre⟩
  · have hif : ¬ (s.is_job_created = true) := by simp [hc]
    rw [if_neg hif]
    obtain ⟨j, jobs1, ha, hj, _⟩ := addjob_returns K S s.jobs pid bg hjobs
    rw [ha]
    simp only
    obtain ⟨jobs2, hap, hl2⟩ := pipe_addproc_returns K { s with job := some j, jobs := jobs1 }
      pid j ws post rfl hj hne
    have harr : pre ++ stage_words ws ++ token_t.T_NULL :: post
        = stage_words ws ++ token_t.T_NULL :: post := by simp [hpre]
    rw [harr, hap]
    refine ⟨_, rfl, rfl, rfl, rfl, rfl, by simp, ?_⟩
    exact Or.inr ⟨rfl, ⟨j, rfl, by rw [hl2]; exact hj⟩, ws, [], hne, by simp [hpre]⟩
  · rw [if_pos hc]
    simp only
    have harr : pre ++ stage_words ws ++ token_t.T_NULL :: post
        = stage_words w1 ++ token_t.T_NULL :: (tail ++ stage_words ws ++ token_t.T_NULL :: post) := by
      simp [hpre]
    obtain ⟨jobs2, hap, hl2⟩ := pipe_addproc_returns K { s with job := s.job, jobs := s.jobs }
      pid j w1 (tail ++ stage_words ws ++ token_t.T_NULL :: post) hjob hj hw1
    rw [harr, hap]
    refine ⟨_, rfl, rfl, rfl, rfl, rfl, by simp, ?_⟩
    exact Or.inr ⟨rfl, ⟨j, hjob, by rw [hl2]; exact hj⟩, w1,
      tail ++ stage_words ws ++ [token_t.T_NULL], hw1, by simp [hpre]⟩

theorem stage_words_length (ws : List String) : (stage_words ws).length = ws.length := by
  simp [stage_words]

theorem pipeline_cells_cons (ws ws2 : List String) (rest : List (List String)) :
    pipeline_cells (ws :: ws2 :: rest)
      = stage_words ws ++ token_t.T_PIPE :: pipeline_cells (ws2 :: rest) := rfl

theorem do_pipeline_words_aux (K : Header) (S : Session) (bg : Int) (ntokens : Nat)
    (rest : List (List String)) :
    ∀ (ws : List String) (s : pipe_state) (pre : List token_t),
      s.token = pre ++ pipeline_cells (ws :: rest) ++ [token_t.T_NULL] →
      s.cmd_start = pre.length → s.cmd_length = 0 →
      (∀ w ∈ ws :: rest, w ≠ []) → rest.length + 1 ≤ s.pids.length →
      pipe_ready s pre → (s.is_job_created = false → rest ≠ []) →
      ntokens = pre.length + (pipeline_cells (ws :: rest)).length →
      ∃ s1 pid t1 pids1 child jobs2,
        do_pipeline_loop K S bg (pipeline_cells (ws :: rest)).length pre.length s = .ok s1 ∧
        do_stage s1.pgid s1.token s1.cmd_start (ntokens - s1.cmd_start) s1.pids
          = .ok (pid, t1, pids1, child) ∧
        pipe_addproc K s1 pid t1 = .ok jobs2 ∧
        s1.spawned.length = s.spawned.length + rest.length := by
  induction rest with
  | nil =>
    intro ws s pre htok hstart hlen hne hpids hready hcr hnt
    have hcells : pipeline_cells [ws] = stage_words ws := rfl
    rw [hcells] at htok hnt ⊢
    rw [stage_words_length] at hnt ⊢
    have hwords : ∀ t, t < ws.length →
        ∃ w, s.token[pre.length + t]? = some (token_t.word w) := by
      intro t ht
      rw [htok, List.append_assoc, List.getElem?_append_right (by omega)]
      have e : pre.length + t - pre.length = t := by omega
      rw [e]
      exact stage_words_getElem? ws _ t ht
    have hloop := do_pipeline_loop_words K S bg ws.length 0 pre.length s hwords
    rw [Nat.add_zero] at hloop
    obtain ⟨pid, pids1, hp⟩ : ∃ pid pids1, s.pids = pid :: pids1 := by
      cases hq : s.pids with
      | nil => simp [hq] at hpids
      | cons a b => exact ⟨a, b, rfl⟩
    have hwsne : ws ≠ [] := hne ws (List.mem_cons_self _ _)
    have hstage : do_stage s.pgid s.token pre.length ws.length s.pids
        = .ok (pid, pre ++ stage_words ws ++ [token_t.T_NULL], pids1,
            { pid := pid, pgid := s.pgid }) := by
      rw [htok, hp]
      exact do_stage_words s.pgid pre ws token_t.T_NULL [] pid pids1 hwsne
    rcases hready with ⟨hc, _, _⟩ | ⟨hc, ⟨j, hjob, hj⟩, w1, tail, hw1, hpre⟩
    · exact absurd rfl (hcr hc)
    · have harr : pre ++ stage_words ws ++ [token_t.T_NULL]
          = stage_words w1 ++ token_t.T_NULL :: (tail ++ stage_words ws ++ [token_t.T_NULL]) := by
        simp [hpre]
      obtain ⟨jobs2, hap, _⟩ := pipe_addproc_returns K
        { s with cmd_length := s.cmd_length + ws.length } pid j w1
        (tail ++ stage_words ws ++ [token_t.T_NULL]) hjob hj hw1
      refine ⟨{ s with cmd_length := s.cmd_length + ws.length }, pid,
        pre ++ stage_words ws ++ [token_t.T_NULL], pids1, { pid := pid, pgid := s.pgid },
        jobs2, ?_, ?_, ?_, ?_⟩
      · rw [hloop]
        rfl
      · have e : ntokens - s.cmd_start = ws.length := by rw [hnt, hstart]; omega
        simp only [e]
        rw [hstart]
        exact hstage
      · rw [harr]
        exact hap
      · simp
  | cons ws2 rest1 ih =>
    intro ws s pre htok hstart hlen hne hpids hready _ hnt
    rw [pipeline_cells_cons] at htok hnt ⊢
    have hlen_cells : (stage_words ws ++ token_t.T_PIPE :: pipeline_cells (ws2 :: rest1)).length
        = ws.length + ((pipeline_cells (ws2 :: rest1)).length + 1) := by
      simp [stage_words_length]
    rw [hlen_cells] at hnt ⊢
    have hwords : ∀ t, t < ws.length →
        ∃ w, s.token[pre.length + t]? = some (token_t.word w) := by
      intro t ht
      rw [htok, List.append_assoc, List.getElem?_append_right (by omega)]
      have e : pre.length + t - pre.length = t := by omega
      rw [e, List.append_assoc]
      exact stage_words_getElem? ws _ t ht
    rw [do_pipeline_loop_words K S bg ws.length _ pre.length s hwords]
    obtain ⟨pid, pids1, hp⟩ : ∃ pid pids1, s.pids = pid :: pids1 := by
      cases hq : s.pids with
      | nil => simp [hq] at hpids
      | cons a b => exact ⟨a, b, rfl⟩
    have hwsne : ws ≠ [] := hne ws (List.mem_cons_self _ _)
    have htok2 : s.token = pre ++ stage_words ws ++
        token_t.T_PIPE :: (pipeline_cells (ws2 :: rest1) ++ [token_t.T_NULL]) := by
      rw [htok]
      simp
    have hready2 : pipe_ready { s with cmd_length := s.cmd_length + ws.length } pre := hready
    obtain ⟨s2, hstep, ht2, hs2, hl2, hp2, hsp2, hr2⟩ :=
      do_pipeline_step_pipe K S bg { s with cmd_length := s.cmd_length + ws.length } pre ws
        (pipeline_cells (ws2 :: rest1) ++ [token_t.T_NULL]) pid pids1 htok2 hstart
        (by simp [hlen]) hwsne hp hready2
    rw [do_pipeline_loop, hstep]
    simp only
    have hpre2 : (pre ++ stage_words ws ++ [token_t.T_NULL]).length
        = pre.length + ws.length + 1 := by
      simp [stage_words_length]
      omega
    obtain ⟨s1, pid1, t1, pids2, child, jobs2, h1, h2, h3, h4⟩ :=
      ih ws2 s2 (pre ++ stage_words ws ++ [token_t.T_NULL])
        (by rw [ht2]; simp)
        (by rw [hs2, hpre2])
        hl2
        (fun w hw => hne w (List.mem_cons_of_mem _ hw))
        (by
          rw [hp2]
          rw [hp] at hpids
          simp at hpids ⊢
          omega)
        hr2
        (by
          intro hcf
          rcases hr2 with ⟨_, hpr, _⟩ | ⟨hct, _, _⟩
          · simp at hpr
          · rw [hct] at hcf
            exact absurd hcf (by simp))
        (by rw [hnt, hpre2]; omega)
    rw [hpre2] at h1
    refine ⟨s1, pid1, t1, pids2, child, jobs2, h1, h2, h3, ?_⟩
    rw [h4, hsp2]
    simp
    omega

/-- On a pipeline of two or more stages, each a non-empty list of words, with a
table that has its foreground slot and one pid per stage to hand out,
`do_pipeline` registers all stages: one child per stage. -/
theorem do_pipeline_spawn_returns (K : Header) (S : Session) (jobs : List job_t)
    (stages : List (List String)) (bg : Int) (pids : List Int)
    (h2 : 2 ≤ stages.length) (hne : ∀ w ∈ stages, w ≠ []) (hjobs : jobs ≠ [])
    (hp : stages.length ≤ pids.length) :
    ∃ s, do_pipeline_spawn K S jobs (pipeline_cells stages ++ [token_t.T_NULL])
        (pipeline_cells stages).length bg pids = .ok s ∧
      s.spawned.length = stages.length := by
  cases stages with
  | nil => simp at h2
  | cons ws rest =>
    have hrest : rest ≠ [] := by
      intro e
      rw [e] at h2
      simp at h2
    obtain ⟨s1, pid, t1, pids1, child, jobs2, h1, hst, hap, hlen⟩ :=
      do_pipeline_words_aux K S bg (pipeline_cells (ws :: rest)).length rest ws
        { token := pipeline_cells (ws :: rest) ++ [token_t.T_NULL], jobs := jobs, pgid := 0,
          job := none, cmd_start := 0, cmd_length := 0, is_job_created := false,
          pids := pids, spawned := [] } [] (by simp) rfl rfl hne
        (by simpa using hp) (Or.inl ⟨rfl, rfl, hjobs⟩) (fun _ => hrest) (by simp)
    refine ⟨{ s1 with token := t1, jobs := jobs2, pids := pids1,
                      spawned := s1.spawned ++ [child] }, ?_, ?_⟩
    · unfold do_pipeline_spawn
      have h1b : do_pipeline_loop K S bg (pipeline_cells (ws :: rest)).length 0
          { token := pipeline_cells (ws :: rest) ++ [token_t.T_NULL], jobs := jobs, pgid := 0,
            job := none, cmd_start := 0, cmd_length := 0, is_job_created := false,
            pids := pids, spawned := [] } = .ok s1 := h1
      rw [h1b]
      simp only
      rw [hst]
      simp only
      rw [hap]
    · simp [hlen]

/-! ## Theorems: the process group of a pipeline -/

/-- C14: `Fork` returns pids other than 0 to the parent. On a pipeline of two
or more stages, each a non-empty list of words, with a table that has its
foreground slot and one pid per stage, `do_pipeline` registers all stages, one
child per stage. And whenever `do_pipeline` has registered all stages, whatever
the token array, the job exists, at least two children were created, and the
process group `setpgid` put each of them in is the pgid recorded in the job. -/
theorem C14_pipeline_stages_share_job_group (K : Header) (S : Session)
    (jobs : List job_t) (bg : Int) (pids : List Int) (hpids : ∀ p ∈ pids, p ≠ 0) :
    (∀ stages : List (List String), 2 ≤ stages.length → (∀ w ∈ stages, w ≠ []) →
      jobs ≠ [] → stages.length ≤ pids.length →
      ∃ s, do_pipeline_spawn K S jobs (pipeline_cells stages ++ [token_t.T_NULL])
          (pipeline_cells stages).length bg pids = .ok s ∧
        s.spawned.length = stages.length) ∧
    (∀ (tokens : List token_t) (ntokens : Nat) (s : pipe_state),
      do_pipeline_spawn K S jobs tokens ntokens bg pids = .ok s →
      ∃ j job, s.job = some j ∧ s.jobs[j]? = some job ∧ 2 ≤ s.spawned.length ∧
        ∀ c ∈ s.spawned, group_of c = job.pgid) := by
  refine ⟨fun stages h2 hne hjobs hp =>
    do_pipeline_spawn_returns K S jobs stages bg pids h2 hne hjobs hp, ?_⟩
  intro tokens ntokens s h
  obtain ⟨j, job, first, rest, hjb, hj, hsp, hne, hf0, hjp, _, hnz, hrest⟩ :=
    do_pipeline_spawn_groups K S jobs tokens ntokens bg pids s hpids h
  refine ⟨j, job, hjb, hj, ?_, ?_⟩
  · rw [hsp]
    cases rest with
    | nil => exact absurd rfl hne
    | cons a r => simp
  · intro c hc
    rw [hsp] at hc
    rcases List.mem_cons.mp hc with rfl | hm
    · simp [group_of, hf0, hjp]
    · have hcp := hrest c hm
      have hcz : c.pgid ≠ 0 := by rw [hcp]; exact hnz
      rw [group_of, if_neg hcz, hcp, hjp]

theorem C14_pipeline_stages_share_job_group_witness :
    (∀ p ∈ [(101 : Int), 102, 103], p ≠ 0) ∧
    (∃ s, do_pipeline_spawn linux_h session0 initjobs
          (pipeline_cells [["a", "x"], ["b"], ["c"]] ++ [token_t.T_NULL])
          (pipeline_cells [["a", "x"], ["b"], ["c"]]).length 1 [101, 102, 103] = .ok s ∧
        s.spawned.length = 3) ∧
    (∃ s, do_pipeline_spawn linux_h session0 initjobs tokens_abc 6 1 [101, 102, 103] = .ok s ∧
      s.spawned = [⟨101, 0⟩, ⟨102, 101⟩, ⟨103, 101⟩] ∧ s.job = some 1 ∧
      (s.jobs[1]?).map (fun job => job.pgid) = some 101 ∧
      s.spawned.map group_of = [101, 101, 101] ∧
      ∃ j job, s.job = some j ∧ s.jobs[j]? = some job ∧ 2 ≤ s.spawned.length ∧
        ∀ c ∈ s.spawned, group_of c = job.pgid) :=
  ⟨by decide,
   (C14_pipeline_stages_share_job_group linux_h session0 initjobs 1
     [101, 102, 103] (by decide)).1 [["a", "x"], ["b"], ["c"]]
     (by decide) (by decide) (by decide) (by decide),
   _, rfl, rfl, rfl, rfl, rfl,
   (C14_pipeline_stages_share_job_group linux_h session0 initjobs 1
     [101, 102, 103] (by decide)).2 tokens_abc 6 _ rfl⟩

/-- C17 (amended): `Fork` returns pids other than 0 to the parent. On a
pipeline of two or more stages, each a non-empty list of words, with a table
that has its foreground slot and one pid per stage, `do_pipeline` registers
all stages. And whenever `do_pipeline` has registered all stages, whatever the
token array, the pgid it passed to `addjob` (the value of its variable `pgid`,
recorded in the job) is the pid of the first child it created, and that child
was created with `setpgid(pid, 0)`. -/
theorem C17_pipeline_pgid_is_first_stage_pid (K : Header) (S : Session)
    (jobs : List job_t) (bg : Int) (pids : List Int) (hpids : ∀ p ∈ pids, p ≠ 0) :
    (∀ stages : List (List String), 2 ≤ stages.length → (∀ w ∈ stages, w ≠ []) →
      jobs ≠ [] → stages.length ≤ pids.length →
      ∃ s, do_pipeline_spawn K S jobs (pipeline_cells stages ++ [token_t.T_NULL])
          (pipeline_cells stages).length bg pids = .ok s) ∧
    (∀ (tokens : List token_t) (ntokens : Nat) (s : pipe_state),
      do_pipeline_spawn K S jobs tokens ntokens bg pids = .ok s →
      ∃ j job first rest, s.job = some j ∧ s.jobs[j]? = some job ∧
        s.spawned = first :: rest ∧ first.pgid = 0 ∧
        s.pgid = first.pid ∧ job.pgid = first.pid) := by
  refine ⟨fun stages h2 hne hjobs hp => ?_, ?_⟩
  · obtain ⟨s, hs, _⟩ := do_pipeline_spawn_returns K S jobs stages bg pids h2 hne hjobs hp
    exact ⟨s, hs⟩
  · intro tokens ntokens s h
    obtain ⟨j, job, first, rest, hjb, hj, hsp, _, hf0, hjp, hsp2, _, _⟩ :=
      do_pipeline_spawn_groups K S jobs tokens ntokens bg pids s hpids h
    exact ⟨j, job, first, rest, hjb, hj, hsp, hf0, hsp2, hjp⟩

theorem C17_pipeline_pgid_is_first_stage_pid_witness :
    (∀ p ∈ [(101 : Int), 102, 103], p ≠ 0) ∧
    (∃ s, do_pipeline_spawn linux_h session0 initjobs
          (pipeline_cells [["a"], ["b"]] ++ [token_t.T_NULL])
          (pipeline_cells [["a"], ["b"]]).length 0 [101, 102, 103] = .ok s) ∧
    (∃ s, do_pipeline_spawn linux_h session0 initjobs tokens_abc 6 0 [101, 102, 103] = .ok s ∧
      s.pgid = 101 ∧
      ∃ j job first rest, s.job = some j ∧ s.jobs[j]? = some job ∧
        s.spawned = first :: rest ∧ first.pgid = 0 ∧
        s.pgid = first.pid ∧ job.pgid = first.pid) :=
  ⟨by decide,
   (C17_pipeline_pgid_is_first_stage_pid linux_h session0 initjobs 0
     [101, 102, 103] (by decide)).1 [["a"], ["b"]]
     (by decide) (by decide) (by decide) (by decide),
   _, rfl, rfl,
   (C17_pipeline_pgid_is_first_stage_pid linux_h session0 initjobs 0
     [101, 102, 103] (by decide)).2 tokens_abc 6 _ rfl⟩

/-- C17 (counterexample): for `a | b` with `Fork` returning 101 for the first
stage and 102 for the second, `do_pipeline` registers both stages, and the
pgid of the job is 101, the pid of the first stage, not 102. -/
theorem C17_two_stage_pipeline_uses_first_pid :
    ∃ s, do_pipeline_spawn linux_h session0 initjobs tokens_ab 3 1 [101, 102] = .ok s ∧
      s.spawned = [⟨101, 0⟩, ⟨102, 101⟩] ∧ s.pgid = 101 ∧ s.pgid ≠ 102 ∧
      s.jobs = [ zero_job,
        { pgid := 101, proc := [⟨101, 1, -1⟩, ⟨102, 1, -1⟩], tmodes := 1, state := 1,
          command := some "a | a" } ] :=
  ⟨_, rfl, rfl, rfl, by decide, rfl⟩

end SoShell
